import Mathlib

/-!
# Buddy allocator (`src/src/lab.c`, `src/src/lab.h`, `src/tests/test-lab.c`)

A shallow embedding of the binary-buddy allocator and of the two pool checks of
its test file.

Modelling conventions.

* `size_t` values are natural numbers; the two additions of the header size
  (`bytes += sizeof(struct avail)`, `size += sizeof(struct avail)`) are taken
  modulo `2^64`.
* `UINT64_C(1) << k` is `2^k`.  A shift count of 64 or more is undefined in C;
  the loops whose shift count is driven by a caller-supplied size (`btok`, the
  size-class loop of `buddy_malloc`) and the coalescing loop of `buddy_free`
  report it as `Fault.shift` instead of producing a value.
* The `unsigned short` fields `tag` and `kval` are natural numbers; the exponents
  stored are at most 64, so no store truncates.
* A pointer is `NULL`, the address of a list head `&pool->avail[i]`, or an
  absolute byte address.  Memory is a total map from the address of a header to
  the header stored there; headers at different addresses are independent
  (every header the allocator touches sits at `base + m * 2^MIN_K`).  Loading
  through `NULL` yields a zero header and storing through `NULL` is dropped;
  both are undefined in C.
* `assert` failures and `handle_error_and_die` end the call with a `Fault`.
* The mapped region is zero-filled and `mmap` does not return address 0; the
  pool structure lies outside the region.
-/

namespace Buddy

/-! ## Constants of `lab.h` -/

/-- `#define DEFAULT_K 30`. -/
def DEFAULT_K : Nat := 30

/-- `#define MIN_K 20`. -/
def MIN_K : Nat := 20

/-- `#define MAX_K 48`. -/
def MAX_K : Nat := 48

/-- `#define SMALLEST_K 6`. -/
def SMALLEST_K : Nat := 6

/-- `#define BLOCK_AVAIL 1`. -/
def BLOCK_AVAIL : Nat := 1

/-- `#define BLOCK_RESERVED 0`. -/
def BLOCK_RESERVED : Nat := 0

/-- `#define BLOCK_UNUSED 3`. -/
def BLOCK_UNUSED : Nat := 3

/-- The value of `sizeof(struct avail)` on LP64: two `unsigned short`, four bytes of
padding and two 8-byte pointers. -/
def sizeof_avail : Nat := 24

/-- The value of `ENOMEM` in `<errno.h>` (Linux). -/
def ENOMEM : Nat := 12

/-! ## Data model -/

/-- A `struct avail *`: `NULL`, `&pool->avail[i]`, or an absolute address. -/
inductive Ptr where
  | null : Ptr
  | sentinel (i : Nat) : Ptr
  | addr (a : Nat) : Ptr
deriving DecidableEq, Repr

/-- The header `struct avail`. -/
structure Avail where
  tag : Nat
  kval : Nat
  next : Ptr
  prev : Ptr
deriving DecidableEq, Repr

/-- Modelled from the spec: the fields of `struct buddy_pool`, whose declaration in
`lab.h` has an empty body.  The spec names `base`, `k_max` and
`free_lists[0..=k_max]`; `lab.c` uses them as `kval_m`, `numbytes`, `base` and
`avail[i]`.  `mem` is the memory the pool's pointers point into. -/
structure BuddyPool where
  kval_m : Nat
  numbytes : Nat
  base : Nat
  avail : Nat → Avail
  mem : Nat → Avail

/-- How a call can end without returning. -/
inductive Fault where
  | assertion : Fault
  | shift : Fault
  | killed : Fault
  | wild : Fault
deriving DecidableEq, Repr

/-- A header of zero bytes (what `memset(pool, 0, ...)` and a fresh anonymous mapping
hold). -/
def zero_avail : Avail := ⟨0, 0, Ptr.null, Ptr.null⟩

/-- Reading `*p`. -/
def load (pool : BuddyPool) : Ptr → Avail
  | Ptr.null => zero_avail
  | Ptr.sentinel i => pool.avail i
  | Ptr.addr a => pool.mem a

/-- Writing `*p = v`. -/
def store (pool : BuddyPool) (p : Ptr) (v : Avail) : BuddyPool :=
  match p with
  | Ptr.null => pool
  | Ptr.sentinel i => { pool with avail := fun j => if j = i then v else pool.avail j }
  | Ptr.addr a => { pool with mem := fun b => if b = a then v else pool.mem b }

/-- The assignment `p->tag = t`. -/
def set_tag (pool : BuddyPool) (p : Ptr) (t : Nat) : BuddyPool :=
  store pool p { load pool p with tag := t }

/-- The assignment `p->kval = k`. -/
def set_kval (pool : BuddyPool) (p : Ptr) (k : Nat) : BuddyPool :=
  store pool p { load pool p with kval := k }

/-- The assignment `p->next = q`. -/
def set_next (pool : BuddyPool) (p : Ptr) (q : Ptr) : BuddyPool :=
  store pool p { load pool p with next := q }

/-- The assignment `p->prev = q`. -/
def set_prev (pool : BuddyPool) (p : Ptr) (q : Ptr) : BuddyPool :=
  store pool p { load pool p with prev := q }

/-! ## `btok` -/

/-- The loop `while ((UINT64_C(1) << kval) < bytes) kval++;`.  The first argument is
`64 - kval`, the number of shift counts still defined: at `0` the condition would
evaluate `1 << 64`. -/
def shift_loop (bytes : Nat) : Nat → Nat → Option Nat
  | 0, _ => none
  | n + 1, kval => if 2 ^ kval < bytes then shift_loop bytes n (kval + 1) else some kval

/-- The function `btok` of `lab.c`. -/
def btok (bytes : Nat) : Except Fault Nat :=
  if bytes = 0 then Except.error Fault.assertion
  else
    match shift_loop ((bytes + sizeof_avail) % 2 ^ 64) 64 0 with
    | none => Except.error Fault.shift
    | some kval => Except.ok kval

/-! ## `buddy_calc` -/

/-- The function `buddy_calc` of `lab.c`; `block` is the address of the header. -/
def buddy_calc (pool : BuddyPool) (block : Nat) : Nat :=
  let block_offset := block - pool.base
  let block_size := 2 ^ (pool.mem block).kval
  let buddy_offset := block_offset ^^^ block_size
  pool.base + buddy_offset

/-! ## `buddy_malloc` -/

/-- The two statements that take `block` out of its list:
`block->prev->next = block->next; block->next->prev = block->prev;`. -/
def unlink (pool : BuddyPool) (block : Nat) : BuddyPool :=
  let p1 := set_next pool (pool.mem block).prev (pool.mem block).next
  set_prev p1 (p1.mem block).next (p1.mem block).prev

/-- The test `pool->avail[i].next != NULL && pool->avail[i].next != &pool->avail[i]`. -/
def list_nonempty (pool : BuddyPool) (i : Nat) : Bool :=
  decide ((pool.avail i).next ≠ Ptr.null) && decide ((pool.avail i).next ≠ Ptr.sentinel i)

/-- The search of the `for (i = kval; i <= pool->kval_m; i++)` loop for the first
non-empty list; the first argument is the number of iterations left. -/
def scan (pool : BuddyPool) : Nat → Nat → Option Nat
  | 0, _ => none
  | n + 1, i => if list_nonempty pool i then some i else scan pool n (i + 1)

/-- The loop `while (i > kval) { i--; ... }` of `buddy_malloc`; the second argument
is `i - kval`, the number of splits left. -/
def split (kval : Nat) : Nat → BuddyPool → Nat → BuddyPool
  | 0, pool, _ => pool
  | n + 1, pool, block =>
    let i := kval + n
    let block_size := 2 ^ i
    let buddy := Ptr.addr (block + block_size)
    let p1 := set_tag pool buddy BLOCK_AVAIL
    let p2 := set_kval p1 buddy i
    let p3 := set_next p2 buddy (Ptr.sentinel i)
    let p4 := set_prev p3 buddy (p3.avail i).prev
    let p5 := set_next p4 (p4.avail i).prev buddy
    let p6 := set_prev p5 (Ptr.sentinel i) buddy
    let p7 := set_kval p6 (Ptr.addr block) i
    split kval n p7 block

/-- What a returning call of `buddy_malloc` leaves: the returned pointer, the value
assigned to `errno` if any, and the pool. -/
structure MallocRet where
  ptr : Ptr
  errno : Option Nat
  pool : BuddyPool

/-- The size class `buddy_malloc` computes for a request: `size += sizeof(struct avail)`
and the loop `while ((UINT64_C(1) << kval) < size) kval++;` started at `MIN_K`; `none`
when the loop would shift by 64. -/
def malloc_kval (size : Nat) : Option Nat :=
  shift_loop ((size + sizeof_avail) % 2 ^ 64) (64 - MIN_K) MIN_K

/-- The function `buddy_malloc` of `lab.c` (for a non-`NULL` pool).  The block taken
from a non-empty list is an arena address in every pool the allocator builds; a list
head whose `next` is another list head ends the call with `Fault.wild`. -/
def buddy_malloc (pool : BuddyPool) (size : Nat) : Except Fault MallocRet :=
  if size = 0 then Except.error Fault.assertion
  else
    match malloc_kval size with
    | none => Except.error Fault.shift
    | some kval =>
      match scan pool (pool.kval_m + 1 - kval) kval with
      | none => Except.ok ⟨Ptr.null, some ENOMEM, pool⟩
      | some i =>
        match (pool.avail i).next with
        | Ptr.addr block =>
          let p1 := unlink pool block
          let p2 := split kval (i - kval) p1 block
          let p3 := set_tag p2 (Ptr.addr block) BLOCK_RESERVED
          Except.ok ⟨Ptr.addr (block + sizeof_avail), none, p3⟩
        | _ => Except.error Fault.wild

/-! ## `buddy_free` -/

/-- The loop `while (true) { ... }` of `buddy_free`.  The first argument is
`64 - block->kval`: every pass that does not break raises `block->kval` by one, and at
`0` the call of `buddy_calc` would evaluate `1 << 64`.  Returns the pool and the
working block. -/
def coalesce : Nat → BuddyPool → Nat → Option (BuddyPool × Nat)
  | 0, _, _ => none
  | n + 1, pool, block =>
    let buddy := buddy_calc pool block
    if buddy < pool.base ∨ buddy ≥ pool.base + pool.numbytes ∨
        (pool.mem buddy).tag ≠ BLOCK_AVAIL ∨ (pool.mem buddy).kval ≠ (pool.mem block).kval then
      some (pool, block)
    else
      let p1 := unlink pool buddy
      let block := if buddy < block then buddy else block
      let p2 := set_kval p1 (Ptr.addr block) ((p1.mem block).kval + 1)
      coalesce n p2 block

/-- The loop `for (i = 0; i <= pool->kval_m; i++)` of the reset branch of
`buddy_free`; the argument is the number of iterations done. -/
def reset_loop (pool : BuddyPool) : Nat → BuddyPool
  | 0 => pool
  | n + 1 =>
    let p := reset_loop pool n
    set_next (set_prev p (Ptr.sentinel n) (Ptr.sentinel n)) (Ptr.sentinel n) (Ptr.sentinel n)

/-- The four statements of `buddy_free` under "Add the coalesced block back to the free
list". -/
def relink (pool : BuddyPool) (block : Nat) : BuddyPool :=
  let p1 := set_next pool (Ptr.addr block) (pool.avail (pool.mem block).kval).next
  let p2 := set_prev p1 (Ptr.addr block) (Ptr.sentinel (p1.mem block).kval)
  let p3 := set_prev p2 (p2.avail (p2.mem block).kval).next (Ptr.addr block)
  set_next p3 (Ptr.sentinel (p3.mem block).kval) (Ptr.addr block)

/-- The body of the branch of `buddy_free` commented "Reset the pool to its initial
state". -/
def reset (pool : BuddyPool) (block : Nat) : BuddyPool :=
  let p5 := reset_loop pool (pool.kval_m + 1)
  let p6 := set_prev p5 (Ptr.addr block) (Ptr.sentinel (p5.mem block).kval)
  set_next p6 (Ptr.addr block) (Ptr.sentinel (p6.mem block).kval)

/-- The tail of `buddy_free` from "Add the coalesced block back to the free list"
on. -/
def reinsert (pool : BuddyPool) (block : Nat) : BuddyPool :=
  let p4 := relink pool block
  if (p4.mem block).kval = p4.kval_m ∧ block = p4.base then reset p4 block else p4

/-- The function `buddy_free` of `lab.c` (for a non-`NULL` pool).  A pointer to a list
head lies in the pool structure, outside the arena, and fails the range assertion. -/
def buddy_free (pool : BuddyPool) (ptr : Ptr) : Except Fault BuddyPool :=
  match ptr with
  | Ptr.null => Except.error Fault.assertion
  | Ptr.sentinel _ => Except.error Fault.assertion
  | Ptr.addr p =>
    if p < pool.base + sizeof_avail then Except.error Fault.assertion
    else
      let block := p - sizeof_avail
      if pool.base + pool.numbytes ≤ block then Except.error Fault.assertion
      else
        let p1 := set_tag pool (Ptr.addr block) BLOCK_AVAIL
        match coalesce (64 - (p1.mem block).kval) p1 block with
        | none => Except.error Fault.shift
        | some (p2, block) => Except.ok (reinsert p2 block)

/-! ## `buddy_init` -/

/-- The loop `for (i = 0; i <= kval; i++)` of `buddy_init`; the argument is the number
of iterations done. -/
def init_loop (pool : BuddyPool) : Nat → BuddyPool
  | 0 => pool
  | n + 1 =>
    let p := init_loop pool n
    let p1 := set_next (set_prev p (Ptr.sentinel n) (Ptr.sentinel n)) (Ptr.sentinel n)
      (Ptr.sentinel n)
    set_tag (set_kval p1 (Ptr.sentinel n) n) (Ptr.sentinel n) BLOCK_UNUSED

/-- The exponent `buddy_init` settles on, before anything is mapped. -/
def init_kval (size : Nat) : Except Fault Nat :=
  (if size = 0 then Except.ok DEFAULT_K else btok size).map fun kval =>
    let kval := if kval < MIN_K then MIN_K else kval
    if kval > MAX_K then MAX_K - 1 else kval

/-- The function `buddy_init` of `lab.c`.  `mapped` is what `mmap` returns: `none` for
`MAP_FAILED`, else the address of a zero-filled region of `numbytes` bytes. -/
def buddy_init (size : Nat) (mapped : Option Nat) : Except Fault BuddyPool :=
  match init_kval size with
  | Except.error f => Except.error f
  | Except.ok kval =>
    match mapped with
    | none => Except.error Fault.killed
    | some base =>
      let p0 : BuddyPool := ⟨kval, 2 ^ kval, base, fun _ => zero_avail, fun _ => zero_avail⟩
      let p1 := init_loop p0 (kval + 1)
      let p2 := set_prev p1 (Ptr.sentinel kval) (Ptr.addr base)
      let p3 := set_next p2 (Ptr.sentinel kval) (Ptr.addr base)
      let m := (p3.avail kval).next
      let p4 := set_tag p3 m BLOCK_AVAIL
      let p5 := set_kval p4 m kval
      let p6 := set_prev p5 m (Ptr.sentinel kval)
      set_next p6 m (Ptr.sentinel kval) |> Except.ok

/-! ## The pool checks of `test-lab.c` -/

/-- The body of the loop shared by both checks: list head `i` points to itself and
keeps its tag and index. -/
def sentinel_idle (pool : BuddyPool) (i : Nat) : Bool :=
  decide ((pool.avail i).next = Ptr.sentinel i) && decide ((pool.avail i).prev = Ptr.sentinel i)
    && decide ((pool.avail i).tag = BLOCK_UNUSED) && decide ((pool.avail i).kval = i)

/-- The assertions of `check_buddy_pool_full`, as a test. -/
def check_buddy_pool_full (pool : BuddyPool) : Bool :=
  (List.range pool.kval_m).all (sentinel_idle pool)
    && decide ((load pool (pool.avail pool.kval_m).next).tag = BLOCK_AVAIL)
    && decide ((load pool (pool.avail pool.kval_m).next).next = Ptr.sentinel pool.kval_m)
    && decide ((load pool (pool.avail pool.kval_m).prev).prev = Ptr.sentinel pool.kval_m)
    && decide ((pool.avail pool.kval_m).next = Ptr.addr pool.base)

/-- The assertions of `check_buddy_pool_empty`, as a test. -/
def check_buddy_pool_empty (pool : BuddyPool) : Bool :=
  (List.range (pool.kval_m + 1)).all (sentinel_idle pool)

/-! ## Test scenarios -/

/-- A run of `buddy_malloc` calls, one per size; returns the pointers in call order. -/
def malloc_all : BuddyPool → List Nat → Except Fault (List Ptr × BuddyPool)
  | pool, [] => Except.ok ([], pool)
  | pool, size :: rest =>
    (buddy_malloc pool size).bind fun r =>
      (malloc_all r.pool rest).map fun x => (r.ptr :: x.1, x.2)

/-- A run of `buddy_free` calls, one per pointer. -/
def free_all : BuddyPool → List Ptr → Except Fault BuddyPool
  | pool, [] => Except.ok pool
  | pool, p :: rest => (buddy_free pool p).bind fun q => free_all q rest

/-- The shape of the allocate-then-free tests: `buddy_init(size)` on a region mapped
at `base`, one `buddy_malloc` per entry of `sizes`, then `buddy_free` of the returned
pointers in the order `order` (indices into the list of returned pointers). -/
def round_trip (size base : Nat) (sizes : List Nat) (order : List Nat) :
    Except Fault BuddyPool :=
  (buddy_init size (some base)).bind fun p =>
    (malloc_all p sizes).bind fun x =>
      free_all x.2 (order.map fun j => x.1.getD j Ptr.null)

/-- The headers met when following `next` from `p` up to the first pointer that is not
an arena address; the first argument bounds the number of steps. -/
def members (pool : BuddyPool) : Nat → Ptr → List Nat
  | 0, _ => []
  | n + 1, Ptr.addr a => a :: members pool n (pool.mem a).next
  | _ + 1, _ => []

/-- The sum of the sizes `2^kval` of the blocks found in free lists `0..kval_m`. -/
def free_bytes (pool : BuddyPool) (fuel : Nat) : Nat :=
  ((List.range (pool.kval_m + 1)).map fun i =>
    ((members pool fuel (pool.avail i).next).map fun a => 2 ^ (pool.mem a).kval).sum).sum

/-- The sum of the sizes `2^kval` of the blocks behind the payload pointers `out`. -/
def reserved_bytes (pool : BuddyPool) (out : List Ptr) : Nat :=
  (out.map fun p =>
    match p with
    | Ptr.addr a => 2 ^ (pool.mem (a - sizeof_avail)).kval
    | _ => 0).sum

/-- The pool a run ends with, or the zero-filled pool structure when the run faulted. -/
def final_pool (r : Except Fault BuddyPool) : BuddyPool :=
  match r with
  | Except.ok q => q
  | Except.error _ => ⟨0, 0, 0, fun _ => zero_avail, fun _ => zero_avail⟩

/-! ## Free lists and reachable pools -/

/-- The pointer reached from `x` by following `next` `n` times. -/
def walk (pool : BuddyPool) : Nat → Ptr → Ptr
  | 0, x => x
  | n + 1, x => walk pool n (load pool x).next

/-- The header at address `a` is a member of free list `i`: following `next` from the
list head `&pool->avail[i]` arrives at it. -/
def InList (pool : BuddyPool) (i a : Nat) : Prop :=
  ∃ n, walk pool n (Ptr.sentinel i) = Ptr.addr a

/-- A doubly linked chain: `next` leads from `x` through the headers `l`, in order, to
`y`, and `prev` leads back. -/
def Seg (pool : BuddyPool) : Ptr → List Nat → Ptr → Prop
  | x, [], y => (load pool x).next = y ∧ (load pool y).prev = x
  | x, a :: l, y =>
    (load pool x).next = Ptr.addr a ∧ (load pool (Ptr.addr a)).prev = x ∧
      Seg pool (Ptr.addr a) l y

/-- The payload pointer of the block whose header is at `a`. -/
def payload (a : Nat) : Ptr := Ptr.addr (a + sizeof_avail)

/-- Pool states reachable from `buddy_init` by returning calls of `buddy_malloc` and by
`buddy_free` of outstanding pointers, with the list of outstanding pointers (returned
by `buddy_malloc`, not yet freed). -/
inductive Reachable : BuddyPool → List Ptr → Prop where
  | init (size base : Nat) (p : BuddyPool) :
      buddy_init size (some base) = Except.ok p → Reachable p []
  | malloc (p : BuddyPool) (out : List Ptr) (size : Nat) (r : MallocRet) :
      Reachable p out → buddy_malloc p size = Except.ok r →
      Reachable r.pool (if r.ptr = Ptr.null then out else r.ptr :: out)
  | free (p : BuddyPool) (out : List Ptr) (ptr : Ptr) (q : BuddyPool) :
      Reachable p out → ptr ∈ out → buddy_free p ptr = Except.ok q →
      Reachable q (out.erase ptr)

/-- The geometry of the live blocks: `B` is the arena base, `M` the arena exponent,
`K a` the exponent stored in the header at `a`, and `L a` says the header at `a` is
that of a live block. -/
structure Geo (B M : Nat) (K : Nat → Nat) (L : Nat → Prop) : Prop where
  geom : ∀ a, L a → B ≤ a ∧ 2 ^ K a ∣ a - B ∧ a - B + 2 ^ K a ≤ 2 ^ M
  disj : ∀ a b, L a → L b → a ≠ b → a + 2 ^ K a ≤ b ∨ b + 2 ^ K b ≤ a
  cover : ∀ x, B ≤ x → x < B + 2 ^ M → ∃ a, L a ∧ a ≤ x ∧ x < a + 2 ^ K a

/-- The header at `a` belongs to a live block: outstanding (`out`), in flight inside a
call (`hs`), or a member of a free list (`fl i`). -/
def Live (fl : Nat → List Nat) (out : List Nat) (hs : List Nat) (a : Nat) : Prop :=
  a ∈ out ∨ a ∈ hs ∨ ∃ i, a ∈ fl i

/-- The pool represents the free lists `fl` (list `i` holds the headers `fl i`, in
`next` order), the outstanding blocks `out` and the blocks `hs` in flight inside a call
(taken off a list and not yet handed out or put back), and these blocks tile the
arena. -/
structure WF (p : BuddyPool) (fl : Nat → List Nat) (out : List Nat) (hs : List Nat) :
    Prop where
  kval_m_le : p.kval_m ≤ MAX_K
  numbytes_eq : p.numbytes = 2 ^ p.kval_m
  heads : ∀ i, i ≤ p.kval_m → (p.avail i).tag = BLOCK_UNUSED ∧ (p.avail i).kval = i
  seg : ∀ i, i ≤ p.kval_m → Seg p (Ptr.sentinel i) (fl i) (Ptr.sentinel i)
  nodup : ∀ i, (fl i).Nodup
  free_hdr : ∀ i a, a ∈ fl i → (p.mem a).tag = BLOCK_AVAIL ∧ (p.mem a).kval = i
  out_hdr : ∀ a, a ∈ out → (p.mem a).tag = BLOCK_RESERVED
  out_nodup : out.Nodup
  hs_nodup : hs.Nodup
  hs_fresh : ∀ a, a ∈ hs → a ∉ out ∧ ∀ i, a ∉ fl i
  geo : Geo p.base p.kval_m (fun a => (p.mem a).kval) (Live fl out hs)

/-- The state after the reset branch of `buddy_free`: every list head `0..kval_m`
points to itself. -/
structure Dead (p : BuddyPool) : Prop where
  kval_m_le : p.kval_m ≤ MAX_K
  numbytes_eq : p.numbytes = 2 ^ p.kval_m
  heads : ∀ i, i ≤ p.kval_m → (p.avail i).tag = BLOCK_UNUSED ∧ (p.avail i).kval = i
  idle : ∀ i, i ≤ p.kval_m →
    (p.avail i).next = Ptr.sentinel i ∧ (p.avail i).prev = Ptr.sentinel i

/-- What holds of every reachable pool with outstanding payload pointers `out`. -/
def Inv (p : BuddyPool) (out : List Ptr) : Prop :=
  (∃ fl outH, out = outH.map payload ∧ WF p fl outH []) ∨ (Dead p ∧ out = [])

/-- What a call of `buddy_malloc` returned, or a `NULL` result on the zero-filled pool
structure when it faulted. -/
def malloc_ret (r : Except Fault MallocRet) : MallocRet :=
  match r with
  | Except.ok x => x
  | Except.error f => ⟨Ptr.null, none, final_pool (Except.error f)⟩

/-- The pool of `test_buddy_malloc_one_byte` after `buddy_init`: `2^MIN_K` bytes
requested, region mapped at 4096. -/
def demo_init : BuddyPool := final_pool (buddy_init (2 ^ MIN_K) (some 4096))

/-- The first `buddy_malloc(&pool, 1)` on `demo_init`. -/
def demo_first : MallocRet := malloc_ret (buddy_malloc demo_init 1)

/-- A second `buddy_malloc(&pool, 1)`. -/
def demo_second : MallocRet := malloc_ret (buddy_malloc demo_first.pool 1)

/-! ## Ghost free lists and the `NULL` pool -/

/-- The free lists after the split loop of `buddy_malloc` has run `n` passes on the
block at `b` down to class `kval`: each list `kval + m`, `m < n`, has gained the upper
half `b + 2^(kval+m)` at its end. -/
def split_fl (kval b : Nat) : Nat → (Nat → List Nat) → Nat → List Nat
  | 0, fl => fl
  | n + 1, fl =>
    split_fl kval b n
      (Function.update fl (kval + n) (fl (kval + n) ++ [b + 2 ^ (kval + n)]))

/-- The bytes in the free lists `0..M`: a member of list `i` counts `2^i`. -/
def free_total (M : Nat) (fl : Nat → List Nat) : Nat :=
  ∑ i in Finset.range (M + 1), (fl i).length * 2 ^ i

/-- The function `buddy_malloc` of `lab.c` called through a pool pointer that may be
`NULL` (`none`): `assert(pool != NULL)` comes first. -/
def buddy_malloc_at (pool : Option BuddyPool) (size : Nat) : Except Fault MallocRet :=
  match pool with
  | none => Except.error Fault.assertion
  | some p => buddy_malloc p size

/-! ## The passes of the loops -/

/-- The test of the `if` in the loop of `buddy_free`: true when the pass breaks. -/
def coalesce_break (pool : BuddyPool) (block : Nat) : Bool :=
  let buddy := buddy_calc pool block
  decide (buddy < pool.base ∨ buddy ≥ pool.base + pool.numbytes ∨
    (pool.mem buddy).tag ≠ BLOCK_AVAIL ∨ (pool.mem buddy).kval ≠ (pool.mem block).kval)

/-- The statements of a pass of the loop of `buddy_free` that follow the `if`: the pool
and the working block the next pass starts from. -/
def coalesce_next (pool : BuddyPool) (block : Nat) : BuddyPool × Nat :=
  let buddy := buddy_calc pool block
  let p1 := unlink pool buddy
  let block := if buddy < block then buddy else block
  let p2 := set_kval p1 (Ptr.addr block) ((p1.mem block).kval + 1)
  (p2, block)

/-- The pool and working block at the start of every pass of the loop of `buddy_free`;
the first argument is as in `coalesce`. -/
def coalesce_trace : Nat → BuddyPool → Nat → List (BuddyPool × Nat)
  | 0, _, _ => []
  | n + 1, pool, block =>
    (pool, block) ::
      if coalesce_break pool block then []
      else coalesce_trace n (coalesce_next pool block).1 (coalesce_next pool block).2

/-- The number of passes of the loop of `buddy_free` that merge (do not break); the
first argument is as in `coalesce`. -/
def coalesce_merges : Nat → BuddyPool → Nat → Nat
  | 0, _, _ => 0
  | n + 1, pool, block =>
    if coalesce_break pool block then 0
    else coalesce_merges n (coalesce_next pool block).1 (coalesce_next pool block).2 + 1

/-- The pool and working block at the start of every pass of the loop in the call of
`buddy_free` on the payload pointer of `block`. -/
def free_trace (pool : BuddyPool) (block : Nat) : List (BuddyPool × Nat) :=
  let p1 := set_tag pool (Ptr.addr block) BLOCK_AVAIL
  coalesce_trace (64 - (p1.mem block).kval) p1 block

/-- The number of lists the `for (i = kval; i <= pool->kval_m; i++)` loop of
`buddy_malloc` tests; the arguments are as in `scan`. -/
def scan_count (pool : BuddyPool) : Nat → Nat → Nat
  | 0, _ => 0
  | n + 1, i => if list_nonempty pool i then 1 else scan_count pool n (i + 1) + 1

/-- The number of lists a call of `buddy_malloc` tests. -/
def malloc_scans (pool : BuddyPool) (size : Nat) : Nat :=
  match malloc_kval size with
  | none => 0
  | some kval => scan_count pool (pool.kval_m + 1 - kval) kval

/-- The number of passes of the loop `while (i > kval)` in a call of `buddy_malloc`. -/
def malloc_splits (pool : BuddyPool) (size : Nat) : Nat :=
  match malloc_kval size with
  | none => 0
  | some kval =>
    match scan pool (pool.kval_m + 1 - kval) kval with
    | none => 0
    | some i => i - kval

/-- The number of merging passes of the loop in the call of `buddy_free` on the payload
pointer of `block`. -/
def free_merges (pool : BuddyPool) (block : Nat) : Nat :=
  let p1 := set_tag pool (Ptr.addr block) BLOCK_AVAIL
  coalesce_merges (64 - (p1.mem block).kval) p1 block

/-- The pool `demo_second` after `buddy_free` of the second block handed out. -/
def demo_third : BuddyPool :=
  final_pool (buddy_free demo_second.pool (payload (4096 + 2 ^ MIN_K)))

/-! # Theorems -/

/-! ## Lemmas on `btok` -/

theorem shift_loop_some (bytes : Nat) :
    ∀ n k, 0 < n → bytes ≤ 2 ^ (k + n - 1) →
      ∃ r, shift_loop bytes n k = some r ∧ k ≤ r ∧ r < k + n ∧ bytes ≤ 2 ^ r ∧
        ∀ j, k ≤ j → j < r → 2 ^ j < bytes := by
  intro n
  induction n with
  | zero => intro k h; omega
  | succ n ih =>
    intro k _ hb
    unfold shift_loop
    by_cases hlt : 2 ^ k < bytes
    · have hn : 0 < n := by
        rcases Nat.eq_zero_or_pos n with h0 | h0
        · subst h0; simp at hb; omega
        · exact h0
      have hb2 : bytes ≤ 2 ^ (k + 1 + n - 1) := by
        have : k + 1 + n - 1 = k + (n + 1) - 1 := by omega
        rw [this]; exact hb
      obtain ⟨r, hr, hkr, hrn, hle, hmin⟩ := ih (k + 1) hn hb2
      refine ⟨r, ?_, by omega, by omega, hle, ?_⟩
      · simp [hlt, hr]
      · intro j hj hjr
        rcases Nat.eq_or_lt_of_le hj with h | h
        · subst h; exact hlt
        · exact hmin j h hjr
    · refine ⟨k, ?_, le_refl k, by omega, by omega, ?_⟩
      · simp [hlt]
      · intro j hj hjk; omega

theorem shift_loop_least (bytes n k r : Nat) (hn : 0 < n) (hb : bytes ≤ 2 ^ (k + n - 1))
    (hr : shift_loop bytes n k = some r) (j : Nat) (hk : k ≤ j) (hj : bytes ≤ 2 ^ j) : r ≤ j := by
  obtain ⟨r2, hr2, _, _, _, hmin⟩ := shift_loop_some bytes n k hn hb
  rw [hr] at hr2
  cases hr2
  by_contra hlt
  have := hmin j hk (by omega)
  omega

theorem btok_spec (bytes : Nat) (h0 : 0 < bytes) (h : bytes + sizeof_avail ≤ 2 ^ 63) :
    ∃ k, btok bytes = Except.ok k ∧ bytes + sizeof_avail ≤ 2 ^ k ∧
      ∀ j, bytes + sizeof_avail ≤ 2 ^ j → k ≤ j := by
  have hmod : (bytes + sizeof_avail) % 2 ^ 64 = bytes + sizeof_avail :=
    Nat.mod_eq_of_lt (by omega)
  have hb : (bytes + sizeof_avail) % 2 ^ 64 ≤ 2 ^ (0 + 64 - 1) := by rw [hmod]; exact h
  obtain ⟨r, hr, _, _, hle, hmin⟩ := shift_loop_some _ 64 0 (by omega) hb
  have hbt : btok bytes = Except.ok r := by
    unfold btok
    rw [if_neg (by omega), hr]
  refine ⟨r, hbt, by rw [hmod] at hle; exact hle, ?_⟩
  intro j hj
  exact shift_loop_least _ 64 0 r (by omega) hb hr j (Nat.zero_le j) (by rw [hmod]; exact hj)

/-! ## Loads and stores -/

@[simp]
theorem store_kval_m (p : BuddyPool) (x : Ptr) (v : Avail) :
    (store p x v).kval_m = p.kval_m := by cases x <;> rfl

@[simp]
theorem store_numbytes (p : BuddyPool) (x : Ptr) (v : Avail) :
    (store p x v).numbytes = p.numbytes := by cases x <;> rfl

@[simp]
theorem store_base (p : BuddyPool) (x : Ptr) (v : Avail) :
    (store p x v).base = p.base := by cases x <;> rfl

theorem load_store (p : BuddyPool) (x y : Ptr) (v : Avail) (hx : x ≠ Ptr.null) :
    load (store p x v) y = if y = x then v else load p y := by
  cases x with
  | null => exact absurd rfl hx
  | sentinel i =>
    cases y with
    | null => simp [load, store]
    | sentinel j => simp [load, store]
    | addr b => simp [load, store]
  | addr a =>
    cases y with
    | null => simp [load, store]
    | sentinel j => simp [load, store]
    | addr b => simp [load, store]

@[simp]
theorem load_sentinel (p : BuddyPool) (i : Nat) : load p (Ptr.sentinel i) = p.avail i := rfl

@[simp]
theorem load_addr (p : BuddyPool) (a : Nat) : load p (Ptr.addr a) = p.mem a := rfl

theorem avail_eq_load (p : BuddyPool) (i : Nat) : p.avail i = load p (Ptr.sentinel i) := rfl

theorem mem_eq_load (p : BuddyPool) (a : Nat) : p.mem a = load p (Ptr.addr a) := rfl

/-! ## `buddy_init` -/

theorem init_loop_fields (p : BuddyPool) (n : Nat) :
    (init_loop p n).kval_m = p.kval_m ∧ (init_loop p n).numbytes = p.numbytes ∧
    (init_loop p n).base = p.base ∧ (init_loop p n).mem = p.mem ∧
    ∀ i, (init_loop p n).avail i =
      if i < n then ⟨BLOCK_UNUSED, i, Ptr.sentinel i, Ptr.sentinel i⟩ else p.avail i := by
  induction n with
  | zero => simp [init_loop]
  | succ n ih =>
    obtain ⟨h1, h2, h3, h4, h5⟩ := ih
    refine ⟨?_, ?_, ?_, ?_, ?_⟩
    · simp [init_loop, set_tag, set_kval, set_next, set_prev, h1]
    · simp [init_loop, set_tag, set_kval, set_next, set_prev, h2]
    · simp [init_loop, set_tag, set_kval, set_next, set_prev, h3]
    · simp [init_loop, set_tag, set_kval, set_next, set_prev, store, h4]
    · intro i
      by_cases hi : i = n
      · subst hi
        simp [init_loop, set_tag, set_kval, set_next, set_prev, store]
      · have hlt : (i < n + 1) = (i < n) := by
          apply propext; omega
        simp [init_loop, set_tag, set_kval, set_next, set_prev, store, hi, h5, hlt]

/-- The pool `buddy_init` builds for exponent `kval` on a region mapped at `base`. -/
theorem buddy_init_state (size base kval : Nat) (hk : init_kval size = Except.ok kval) :
    ∃ p, buddy_init size (some base) = Except.ok p ∧ p.kval_m = kval ∧
      p.numbytes = 2 ^ kval ∧ p.base = base ∧
      (∀ i, i < kval → p.avail i = ⟨BLOCK_UNUSED, i, Ptr.sentinel i, Ptr.sentinel i⟩) ∧
      p.avail kval = ⟨BLOCK_UNUSED, kval, Ptr.addr base, Ptr.addr base⟩ ∧
      (∀ i, kval < i → p.avail i = zero_avail) ∧
      p.mem base = ⟨BLOCK_AVAIL, kval, Ptr.sentinel kval, Ptr.sentinel kval⟩ ∧
      ∀ a, a ≠ base → p.mem a = zero_avail := by
  obtain ⟨h1, h2, h3, h4, h5⟩ := init_loop_fields
    ⟨kval, 2 ^ kval, base, fun _ => zero_avail, fun _ => zero_avail⟩ (kval + 1)
  refine ⟨_, by simp only [buddy_init, hk]; rfl, ?_, ?_, ?_, ?_, ?_, ?_, ?_, ?_⟩
  · simp [set_tag, set_kval, set_next, set_prev, h1]
  · simp [set_tag, set_kval, set_next, set_prev, h2]
  · simp [set_tag, set_kval, set_next, set_prev, h3]
  · intro i hi
    have hne : i ≠ kval := by omega
    have hlt : i < kval + 1 := by omega
    simp [set_tag, set_kval, set_next, set_prev, store, h5, hne, hlt]
  · simp [set_tag, set_kval, set_next, set_prev, store, h5]
  · intro i hi
    have hne : i ≠ kval := by omega
    have hlt : ¬ i < kval + 1 := by omega
    simp [set_tag, set_kval, set_next, set_prev, store, h5, hne, hlt]
  · simp [set_tag, set_kval, set_next, set_prev, store, h5, h4]
  · intro a ha
    simp [set_tag, set_kval, set_next, set_prev, store, h5, h4, ha]

theorem init_kval_bounds (size kval : Nat) (hk : init_kval size = Except.ok kval) :
    MIN_K ≤ kval ∧ kval ≤ MAX_K := by
  unfold init_kval at hk
  cases hb : (if size = 0 then Except.ok DEFAULT_K else btok size) with
  | error f => rw [hb] at hk; simp [Except.map] at hk
  | ok k =>
    rw [hb] at hk
    simp only [Except.map, Except.ok.injEq] at hk
    subst hk
    simp only [MIN_K, MAX_K]
    split_ifs <;> omega

theorem init_kval_some (size : Nat) (h : size + sizeof_avail ≤ 2 ^ 63) :
    ∃ kval, init_kval size = Except.ok kval := by
  unfold init_kval
  by_cases h0 : size = 0
  · simp [h0, Except.map]
  · obtain ⟨k, hk, _⟩ := btok_spec size (by omega) h
    simp [h0, hk, Except.map]

/-! ## Arithmetic of aligned blocks -/

theorem dvd_gap (d a b : Nat) (ha : d ∣ a) (hb : d ∣ b) (h : a < b) : a + d ≤ b := by
  have h1 : d ∣ b - a := Nat.dvd_sub' hb ha
  have h2 : d ≤ b - a := Nat.le_of_dvd (by omega) h1
  omega

theorem xor_one_cases (o : Nat) :
    (o % 2 = 0 ∧ o ^^^ 1 = o + 1) ∨ (o % 2 = 1 ∧ o ^^^ 1 = o - 1) := by
  have h1 : (o ^^^ 1) / 2 = o / 2 := by rw [Nat.xor_div_two]; simp
  have h2 : (o ^^^ 1) % 2 = (o + 1) % 2 := Nat.xor_mod_two_eq
  omega

theorem xor_two_pow (k : Nat) : ∀ o, 2 ^ k ∣ o →
    (2 ^ (k + 1) ∣ o ∧ o ^^^ 2 ^ k = o + 2 ^ k) ∨
    (2 ^ k ≤ o ∧ 2 ^ (k + 1) ∣ o - 2 ^ k ∧ o ^^^ 2 ^ k = o - 2 ^ k) := by
  induction k with
  | zero =>
    intro o _
    rcases xor_one_cases o with ⟨h1, h2⟩ | ⟨h1, h2⟩
    · left; exact ⟨by simpa using Nat.dvd_of_mod_eq_zero h1, by simpa using h2⟩
    · right
      refine ⟨by simp; omega, ?_, by simpa using h2⟩
      simp
      omega
  | succ k ih =>
    intro o ho
    obtain ⟨q, hq⟩ := ho
    have hq2 : o = 2 * (2 ^ k * q) := by rw [hq, pow_succ]; ring
    have hdiv : (o ^^^ 2 ^ (k + 1)) / 2 = (2 ^ k * q) ^^^ 2 ^ k := by
      rw [Nat.xor_div_two, hq2, pow_succ]
      simp
    have hmod : (o ^^^ 2 ^ (k + 1)) % 2 = 0 := by
      rw [Nat.xor_mod_two_eq, hq2, pow_succ]
      omega
    have hx : o ^^^ 2 ^ (k + 1) = 2 * ((2 ^ k * q) ^^^ 2 ^ k) := by omega
    rcases ih (2 ^ k * q) (Dvd.intro _ rfl) with ⟨h1, h2⟩ | ⟨h1, h2, h3⟩
    · left
      refine ⟨?_, ?_⟩
      · obtain ⟨r, hr⟩ := h1
        exact ⟨r, by rw [hq2, hr, pow_succ 2 (k + 1)]; ring⟩
      · rw [hx, h2, hq2, pow_succ 2 k]; ring
    · right
      refine ⟨?_, ?_, ?_⟩
      · rw [hq2, pow_succ 2 k]; omega
      · obtain ⟨r, hr⟩ := h2
        refine ⟨r, ?_⟩
        have : o - 2 ^ (k + 1) = 2 * (2 ^ k * q - 2 ^ k) := by rw [hq2, pow_succ 2 k]; omega
        rw [this, hr, pow_succ 2 (k + 1)]; ring
      · rw [hx, h3, hq2, pow_succ 2 k]; omega

theorem Geo.congr {B M : Nat} {K K2 : Nat → Nat} {L L2 : Nat → Prop} (g : Geo B M K L)
    (hL : ∀ a, L2 a ↔ L a) (hK : ∀ a, L a → K2 a = K a) : Geo B M K2 L2 := by
  refine ⟨?_, ?_, ?_⟩
  · intro a ha
    have h := (hL a).mp ha
    rw [hK a h]
    exact g.geom a h
  · intro a b ha hb hab
    have h1 := (hL a).mp ha
    have h2 := (hL b).mp hb
    rw [hK a h1, hK b h2]
    exact g.disj a b h1 h2 hab
  · intro x h1 h2
    obtain ⟨a, ha, h3, h4⟩ := g.cover x h1 h2
    exact ⟨a, (hL a).mpr ha, h3, by rw [hK a ha]; exact h4⟩

theorem Geo.kval_le {B M : Nat} {K : Nat → Nat} {L : Nat → Prop} (g : Geo B M K L)
    (a : Nat) (ha : L a) : K a ≤ M := by
  have h := (g.geom a ha).2.2
  have h2 : 2 ^ K a ≤ 2 ^ M := by omega
  exact (Nat.pow_le_pow_iff_right (by decide)).mp h2

/-- A live block of the arena's own size is the only live block and starts at the
base. -/
theorem Geo.top {B M : Nat} {K : Nat → Nat} {L : Nat → Prop} (g : Geo B M K L)
    (b : Nat) (hb : L b) (hk : K b = M) : b = B ∧ ∀ a, L a → a = b := by
  have h := g.geom b hb
  rw [hk] at h
  have hbB : b = B := by omega
  refine ⟨hbB, ?_⟩
  intro a ha
  by_contra hab
  have h2 := g.geom a ha
  have hpos : 0 < 2 ^ K a := Nat.two_pow_pos _
  rcases g.disj a b ha hb hab with h3 | h3
  · omega
  · rw [hk] at h3; omega

theorem Geo.not_live_inside {B M : Nat} {K : Nat → Nat} {L : Nat → Prop} (g : Geo B M K L)
    (b c : Nat) (hb : L b) (h1 : b < c) (h2 : c < b + 2 ^ K b) : ¬ L c := by
  intro hc
  have hpos : 0 < 2 ^ K c := Nat.two_pow_pos _
  rcases g.disj b c hb hc (by omega) with h3 | h3 <;> omega

/-- Splitting the live block `b` of exponent `i + 1` into `b` and `b + 2^i`. -/
theorem Geo.split {B M : Nat} {K K2 : Nat → Nat} {L L2 : Nat → Prop} (g : Geo B M K L)
    (b i : Nat) (hb : L b) (hk : K b = i + 1)
    (hL : ∀ a, L2 a ↔ (L a ∨ a = b + 2 ^ i))
    (hKb : K2 b = i) (hKc : K2 (b + 2 ^ i) = i)
    (hK : ∀ a, a ≠ b → a ≠ b + 2 ^ i → K2 a = K a) : Geo B M K2 L2 := by
  have hpos : 0 < 2 ^ i := Nat.two_pow_pos _
  have hpow : 2 ^ (i + 1) = 2 * 2 ^ i := by rw [pow_succ]; ring
  have hg := g.geom b hb
  rw [hk, hpow] at hg
  obtain ⟨hg1, hg2, hg3⟩ := hg
  have hd : 2 ^ i ∣ b - B := Dvd.dvd.trans (Dvd.intro_left 2 rfl) hg2
  have hdisj : ∀ a, L a → a ≠ b → a + 2 ^ K a ≤ b ∨ b + 2 * 2 ^ i ≤ a := by
    intro a ha hab
    have := g.disj a b ha hb hab
    rw [hk, hpow] at this
    exact this
  have hK2 : ∀ a, L a → a ≠ b → K2 a = K a := by
    intro a ha hab
    apply hK a hab
    intro e
    have hp : 0 < 2 ^ K a := Nat.two_pow_pos _
    rcases hdisj a ha hab with h | h <;> omega
  refine ⟨?_, ?_, ?_⟩
  · intro a ha
    rcases (hL a).mp ha with h | h
    · by_cases hab : a = b
      · subst hab
        rw [hKb]
        exact ⟨hg1, hd, by omega⟩
      · rw [hK2 a h hab]; exact g.geom a h
    · subst h
      rw [hKc]
      refine ⟨by omega, ?_, by omega⟩
      have : b + 2 ^ i - B = (b - B) + 2 ^ i := by omega
      rw [this]
      exact Dvd.dvd.add hd (dvd_refl _)
  · have key : ∀ a, L a → a ≠ b → a ≠ b + 2 ^ i →
        (a + 2 ^ K2 a ≤ b ∨ b + 2 ^ K2 b ≤ a) ∧
        (a + 2 ^ K2 a ≤ b + 2 ^ i ∨ b + 2 ^ i + 2 ^ K2 (b + 2 ^ i) ≤ a) := by
      intro a ha hab hac
      rw [hK2 a ha hab, hKb, hKc]
      rcases hdisj a ha hab with h | h
      · exact ⟨Or.inl h, Or.inl (by omega)⟩
      · exact ⟨Or.inr (by omega), Or.inr (by omega)⟩
    intro a c ha hc hac
    by_cases hab : a = b
    · by_cases hcb : c = b
      · omega
      · by_cases hcc : c = b + 2 ^ i
        · subst hab; subst hcc
          left; rw [hKb]
        · have hLc : L c := by
            rcases (hL c).mp hc with h | h
            · exact h
            · exact absurd h hcc
          have := (key c hLc hcb hcc).1
          subst hab
          exact this.symm
    · by_cases hac2 : a = b + 2 ^ i
      · by_cases hcb : c = b
        · subst hac2; subst hcb
          right; rw [hKb]
        · have hcc : c ≠ b + 2 ^ i := by omega
          have hLc : L c := by
            rcases (hL c).mp hc with h | h
            · exact h
            · exact absurd h hcc
          have := (key c hLc hcb hcc).2
          subst hac2
          exact this.symm
      · have hLa : L a := by
          rcases (hL a).mp ha with h | h
          · exact h
          · exact absurd h hac2
        by_cases hcb : c = b
        · subst hcb; exact (key a hLa hab hac2).1
        · by_cases hcc : c = b + 2 ^ i
          · subst hcc; exact (key a hLa hab hac2).2
          · have hLc : L c := by
              rcases (hL c).mp hc with h | h
              · exact h
              · exact absurd h hcc
            rw [hK2 a hLa hab, hK2 c hLc hcb]
            exact g.disj a c hLa hLc hac
  · intro x h1 h2
    obtain ⟨a, ha, h3, h4⟩ := g.cover x h1 h2
    by_cases hab : a = b
    · subst hab
      rw [hk, hpow] at h4
      by_cases hx : x < a + 2 ^ i
      · exact ⟨a, (hL a).mpr (Or.inl ha), h3, by rw [hKb]; exact hx⟩
      · exact ⟨a + 2 ^ i, (hL _).mpr (Or.inr rfl), by omega, by rw [hKc]; omega⟩
    · exact ⟨a, (hL a).mpr (Or.inl ha), h3, by rw [hK2 a ha hab]; exact h4⟩

/-- The buddy of a live block smaller than the arena lies in the arena and is the
start of a live block that is not larger. -/
theorem Geo.buddy {B M : Nat} {K : Nat → Nat} {L : Nat → Prop} (g : Geo B M K L)
    (b k : Nat) (hb : L b) (hk : K b = k) (hlt : k < M) :
    ((B + ((b - B) ^^^ 2 ^ k) = b + 2 ^ k ∧ 2 ^ (k + 1) ∣ b - B) ∨
      (B + ((b - B) ^^^ 2 ^ k) + 2 ^ k = b ∧ B ≤ B + ((b - B) ^^^ 2 ^ k) ∧
        2 ^ (k + 1) ∣ B + ((b - B) ^^^ 2 ^ k) - B)) ∧
    B + ((b - B) ^^^ 2 ^ k) + 2 ^ k ≤ B + 2 ^ M ∧
    L (B + ((b - B) ^^^ 2 ^ k)) ∧ K (B + ((b - B) ^^^ 2 ^ k)) ≤ k := by
  have hpos : 0 < 2 ^ k := Nat.two_pow_pos _
  have hpow : 2 ^ (k + 1) = 2 * 2 ^ k := by rw [pow_succ]; ring
  obtain ⟨hg1, hg2, hg3⟩ := g.geom b hb
  rw [hk] at hg2 hg3
  have hDM : 2 ^ (k + 1) ∣ 2 ^ M := pow_dvd_pow 2 (by omega)
  -- the lower half `m` of the pair, as an offset
  have hcases : ∃ m, 2 ^ (k + 1) ∣ m ∧ m + 2 * 2 ^ k ≤ 2 ^ M ∧
      ((b - B = m ∧ (b - B) ^^^ 2 ^ k = m + 2 ^ k) ∨
       (b - B = m + 2 ^ k ∧ (b - B) ^^^ 2 ^ k = m)) := by
    rcases xor_two_pow k (b - B) hg2 with ⟨h1, h2⟩ | ⟨h1, h2, h3⟩
    · refine ⟨b - B, h1, ?_, Or.inl ⟨rfl, h2⟩⟩
      have := dvd_gap (2 ^ (k + 1)) (b - B) (2 ^ M) h1 hDM (by omega)
      omega
    · refine ⟨b - B - 2 ^ k, h2, ?_, Or.inr ⟨by omega, h3⟩⟩
      have := dvd_gap (2 ^ (k + 1)) (b - B - 2 ^ k) (2 ^ M) h2 hDM (by omega)
      omega
  obtain ⟨m, hm1, hm2, hm3⟩ := hcases
  have hdm : 2 ^ k ∣ m := Dvd.dvd.trans ⟨2, by rw [hpow]; ring⟩ hm1
  generalize hc : (b - B) ^^^ 2 ^ k = oc at hm3 ⊢
  have hoc : 2 ^ k ∣ oc := by
    rcases hm3 with ⟨_, h⟩ | ⟨_, h⟩
    · rw [h]; exact Dvd.dvd.add hdm (dvd_refl _)
    · rw [h]; exact hdm
  have hrange : B + oc + 2 ^ k ≤ B + 2 ^ M := by
    rcases hm3 with ⟨_, h⟩ | ⟨_, h⟩ <;> omega
  obtain ⟨a, ha, ha1, ha2⟩ := g.cover (B + oc) (by omega) (by omega)
  obtain ⟨hq1, hq2, hq3⟩ := g.geom a ha
  have hposa : 0 < 2 ^ K a := Nat.two_pow_pos _
  have hab : a ≠ b := by
    rcases hm3 with ⟨h, h2⟩ | ⟨h, h2⟩
    · intro e; rw [e, hk] at ha2; omega
    · intro e; rw [e] at ha1; omega
  have hjk : K a ≤ k := by
    by_contra hgt
    have hDa : 2 ^ (k + 1) ∣ 2 ^ K a := pow_dvd_pow 2 (by omega)
    have hDoa : 2 ^ (k + 1) ∣ a - B := Dvd.dvd.trans hDa hq2
    have hDend : 2 ^ (k + 1) ∣ a - B + 2 ^ K a := Dvd.dvd.add hDoa hDa
    have h1 : a - B ≤ m := by
      by_contra hlt2
      have := dvd_gap (2 ^ (k + 1)) m (a - B) hm1 hDoa (by omega)
      rcases hm3 with ⟨_, h⟩ | ⟨_, h⟩ <;> omega
    have h2 : m + 2 * 2 ^ k ≤ a - B + 2 ^ K a := by
      have := dvd_gap (2 ^ (k + 1)) m (a - B + 2 ^ K a) hm1 hDend
        (by rcases hm3 with ⟨_, h⟩ | ⟨_, h⟩ <;> omega)
      omega
    have := g.disj a b ha hb hab
    rw [hk] at this
    rcases hm3 with ⟨h, _⟩ | ⟨h, _⟩ <;> omega
  have hac : a = B + oc := by
    have hda : 2 ^ K a ∣ oc := Dvd.dvd.trans (pow_dvd_pow 2 hjk) hoc
    by_contra hne
    have := dvd_gap (2 ^ K a) (a - B) oc hq2 hda (by omega)
    omega
  refine ⟨?_, hrange, hac ▸ ha, hac ▸ hjk⟩
  rcases hm3 with ⟨h, h2⟩ | ⟨h, h2⟩
  · left
    refine ⟨by omega, ?_⟩
    rw [h]; exact hm1
  · right
    refine ⟨by omega, by omega, ?_⟩
    have : B + oc - B = m := by omega
    rw [this]; exact hm1

/-- Merging the live block `b`, aligned to twice its size, with the live block
`c = b + 2^k` of the same exponent. -/
theorem Geo.merge {B M : Nat} {K K2 : Nat → Nat} {L L2 : Nat → Prop} (g : Geo B M K L)
    (b c k : Nat) (hb : L b) (hc : L c) (hKb : K b = k) (hKc : K c = k)
    (hbc : c = b + 2 ^ k) (hal : 2 ^ (k + 1) ∣ b - B)
    (hL : ∀ a, L2 a ↔ (L a ∧ a ≠ c)) (hK2b : K2 b = k + 1)
    (hK : ∀ a, a ≠ b → K2 a = K a) : Geo B M K2 L2 := by
  have hpos : 0 < 2 ^ k := Nat.two_pow_pos _
  have hpow : 2 ^ (k + 1) = 2 * 2 ^ k := by rw [pow_succ]; ring
  obtain ⟨hg1, _, _⟩ := g.geom b hb
  obtain ⟨_, _, hc3⟩ := g.geom c hc
  rw [hKc] at hc3
  have key : ∀ a, L a → a ≠ b → a ≠ c → a + 2 ^ K a ≤ b ∨ b + 2 * 2 ^ k ≤ a := by
    intro a ha hab hac
    have hp : 0 < 2 ^ K a := Nat.two_pow_pos _
    have h1 := g.disj a b ha hb hab
    have h2 := g.disj a c ha hc hac
    rw [hKb] at h1
    rw [hKc] at h2
    omega
  refine ⟨?_, ?_, ?_⟩
  · intro a ha
    obtain ⟨h1, h2⟩ := (hL a).mp ha
    by_cases hab : a = b
    · subst hab
      rw [hK2b]
      exact ⟨hg1, hal, by omega⟩
    · rw [hK a hab]; exact g.geom a h1
  · intro a d ha hd had
    obtain ⟨h1, h2⟩ := (hL a).mp ha
    obtain ⟨h3, h4⟩ := (hL d).mp hd
    by_cases hab : a = b
    · have hdb : d ≠ b := by omega
      subst hab
      rw [hK2b, hK d hdb, hpow]
      have := key d h3 hdb h4
      omega
    · by_cases hdb : d = b
      · subst hdb
        rw [hK2b, hK a hab, hpow]
        exact key a h1 hab h2
      · rw [hK a hab, hK d hdb]
        exact g.disj a d h1 h3 had
  · intro x h1 h2
    obtain ⟨a, ha, h3, h4⟩ := g.cover x h1 h2
    by_cases hac : a = c
    · subst hac
      rw [hKc] at h4
      exact ⟨b, (hL b).mpr ⟨hb, by omega⟩, by omega, by rw [hK2b, hpow]; omega⟩
    · by_cases hab : a = b
      · subst hab
        rw [hKb] at h4
        exact ⟨a, (hL a).mpr ⟨ha, hac⟩, h3, by rw [hK2b, hpow]; omega⟩
      · exact ⟨a, (hL a).mpr ⟨ha, hac⟩, h3, by rw [hK a hab]; exact h4⟩

/-! ## Field assignments -/

theorem load_store_if (p : BuddyPool) (x z : Ptr) (v : Avail) :
    load (store p x v) z = if z = x ∧ x ≠ Ptr.null then v else load p z := by
  by_cases hx : x = Ptr.null
  · subst hx; simp [store]
  · rw [load_store p x z v hx]; simp [hx]

@[simp]
theorem set_tag_kval_m (p : BuddyPool) (x : Ptr) (v : Nat) :
    (set_tag p x v).kval_m = p.kval_m := by simp [set_tag]

@[simp]
theorem set_tag_numbytes (p : BuddyPool) (x : Ptr) (v : Nat) :
    (set_tag p x v).numbytes = p.numbytes := by simp [set_tag]

@[simp]
theorem set_tag_base (p : BuddyPool) (x : Ptr) (v : Nat) :
    (set_tag p x v).base = p.base := by simp [set_tag]

theorem set_tag_tag (p : BuddyPool) (x z : Ptr) (v : Nat) (hx : x ≠ Ptr.null) :
    (load (set_tag p x v) z).tag = if z = x then v else (load p z).tag := by
  unfold set_tag
  rw [load_store_if]
  by_cases hz : z = x
  · simp [hz, hx]
  · simp [hz]

@[simp]
theorem set_tag_kval (p : BuddyPool) (x z : Ptr) (v : Nat) :
    (load (set_tag p x v) z).kval = (load p z).kval := by
  unfold set_tag
  rw [load_store_if]
  by_cases hz : z = x ∧ x ≠ Ptr.null
  · simp [hz, hz.1]
  · simp [hz]

@[simp]
theorem set_tag_next (p : BuddyPool) (x z : Ptr) (v : Nat) :
    (load (set_tag p x v) z).next = (load p z).next := by
  unfold set_tag
  rw [load_store_if]
  by_cases hz : z = x ∧ x ≠ Ptr.null
  · simp [hz, hz.1]
  · simp [hz]

@[simp]
theorem set_tag_prev (p : BuddyPool) (x z : Ptr) (v : Nat) :
    (load (set_tag p x v) z).prev = (load p z).prev := by
  unfold set_tag
  rw [load_store_if]
  by_cases hz : z = x ∧ x ≠ Ptr.null
  · simp [hz, hz.1]
  · simp [hz]

@[simp]
theorem set_kval_kval_m (p : BuddyPool) (x : Ptr) (v : Nat) :
    (set_kval p x v).kval_m = p.kval_m := by simp [set_kval]

@[simp]
theorem set_kval_numbytes (p : BuddyPool) (x : Ptr) (v : Nat) :
    (set_kval p x v).numbytes = p.numbytes := by simp [set_kval]

@[simp]
theorem set_kval_base (p : BuddyPool) (x : Ptr) (v : Nat) :
    (set_kval p x v).base = p.base := by simp [set_kval]

@[simp]
theorem set_kval_tag (p : BuddyPool) (x z : Ptr) (v : Nat) :
    (load (set_kval p x v) z).tag = (load p z).tag := by
  unfold set_kval
  rw [load_store_if]
  by_cases hz : z = x ∧ x ≠ Ptr.null
  · simp [hz, hz.1]
  · simp [hz]

theorem set_kval_kval (p : BuddyPool) (x z : Ptr) (v : Nat) (hx : x ≠ Ptr.null) :
    (load (set_kval p x v) z).kval = if z = x then v else (load p z).kval := by
  unfold set_kval
  rw [load_store_if]
  by_cases hz : z = x
  · simp [hz, hx]
  · simp [hz]

@[simp]
theorem set_kval_next (p : BuddyPool) (x z : Ptr) (v : Nat) :
    (load (set_kval p x v) z).next = (load p z).next := by
  unfold set_kval
  rw [load_store_if]
  by_cases hz : z = x ∧ x ≠ Ptr.null
  · simp [hz, hz.1]
  · simp [hz]

@[simp]
theorem set_kval_prev (p : BuddyPool) (x z : Ptr) (v : Nat) :
    (load (set_kval p x v) z).prev = (load p z).prev := by
  unfold set_kval
  rw [load_store_if]
  by_cases hz : z = x ∧ x ≠ Ptr.null
  · simp [hz, hz.1]
  · simp [hz]

@[simp]
theorem set_next_kval_m (p : BuddyPool) (x : Ptr) (v : Ptr) :
    (set_next p x v).kval_m = p.kval_m := by simp [set_next]

@[simp]
theorem set_next_numbytes (p : BuddyPool) (x : Ptr) (v : Ptr) :
    (set_next p x v).numbytes = p.numbytes := by simp [set_next]

@[simp]
theorem set_next_base (p : BuddyPool) (x : Ptr) (v : Ptr) :
    (set_next p x v).base = p.base := by simp [set_next]

@[simp]
theorem set_next_tag (p : BuddyPool) (x z : Ptr) (v : Ptr) :
    (load (set_next p x v) z).tag = (load p z).tag := by
  unfold set_next
  rw [load_store_if]
  by_cases hz : z = x ∧ x ≠ Ptr.null
  · simp [hz, hz.1]
  · simp [hz]

@[simp]
theorem set_next_kval (p : BuddyPool) (x z : Ptr) (v : Ptr) :
    (load (set_next p x v) z).kval = (load p z).kval := by
  unfold set_next
  rw [load_store_if]
  by_cases hz : z = x ∧ x ≠ Ptr.null
  · simp [hz, hz.1]
  · simp [hz]

theorem set_next_next (p : BuddyPool) (x z : Ptr) (v : Ptr) (hx : x ≠ Ptr.null) :
    (load (set_next p x v) z).next = if z = x then v else (load p z).next := by
  unfold set_next
  rw [load_store_if]
  by_cases hz : z = x
  · simp [hz, hx]
  · simp [hz]

@[simp]
theorem set_next_prev (p : BuddyPool) (x z : Ptr) (v : Ptr) :
    (load (set_next p x v) z).prev = (load p z).prev := by
  unfold set_next
  rw [load_store_if]
  by_cases hz : z = x ∧ x ≠ Ptr.null
  · simp [hz, hz.1]
  · simp [hz]

@[simp]
theorem set_prev_kval_m (p : BuddyPool) (x : Ptr) (v : Ptr) :
    (set_prev p x v).kval_m = p.kval_m := by simp [set_prev]

@[simp]
theorem set_prev_numbytes (p : BuddyPool) (x : Ptr) (v : Ptr) :
    (set_prev p x v).numbytes = p.numbytes := by simp [set_prev]

@[simp]
theorem set_prev_base (p : BuddyPool) (x : Ptr) (v : Ptr) :
    (set_prev p x v).base = p.base := by simp [set_prev]

@[simp]
theorem set_prev_tag (p : BuddyPool) (x z : Ptr) (v : Ptr) :
    (load (set_prev p x v) z).tag = (load p z).tag := by
  unfold set_prev
  rw [load_store_if]
  by_cases hz : z = x ∧ x ≠ Ptr.null
  · simp [hz, hz.1]
  · simp [hz]

@[simp]
theorem set_prev_kval (p : BuddyPool) (x z : Ptr) (v : Ptr) :
    (load (set_prev p x v) z).kval = (load p z).kval := by
  unfold set_prev
  rw [load_store_if]
  by_cases hz : z = x ∧ x ≠ Ptr.null
  · simp [hz, hz.1]
  · simp [hz]

@[simp]
theorem set_prev_next (p : BuddyPool) (x z : Ptr) (v : Ptr) :
    (load (set_prev p x v) z).next = (load p z).next := by
  unfold set_prev
  rw [load_store_if]
  by_cases hz : z = x ∧ x ≠ Ptr.null
  · simp [hz, hz.1]
  · simp [hz]

theorem set_prev_prev (p : BuddyPool) (x z : Ptr) (v : Ptr) (hx : x ≠ Ptr.null) :
    (load (set_prev p x v) z).prev = if z = x then v else (load p z).prev := by
  unfold set_prev
  rw [load_store_if]
  by_cases hz : z = x
  · simp [hz, hx]
  · simp [hz]

/-! ## What the list operations store -/

theorem unlink_loads (p : BuddyPool) (a : Nat) (hP : (p.mem a).prev ≠ Ptr.null)
    (hN : (p.mem a).next ≠ Ptr.null) (hPa : (p.mem a).prev ≠ Ptr.addr a) :
    (unlink p a).kval_m = p.kval_m ∧ (unlink p a).numbytes = p.numbytes ∧
    (unlink p a).base = p.base ∧
    (∀ z, (load (unlink p a) z).tag = (load p z).tag) ∧
    (∀ z, (load (unlink p a) z).kval = (load p z).kval) ∧
    (∀ z, (load (unlink p a) z).next =
      if z = (p.mem a).prev then (p.mem a).next else (load p z).next) ∧
    (∀ z, (load (unlink p a) z).prev =
      if z = (p.mem a).next then (p.mem a).prev else (load p z).prev) := by
  have e1 : ((set_next p (p.mem a).prev (p.mem a).next).mem a).next = (p.mem a).next := by
    have := set_next_next p (p.mem a).prev (Ptr.addr a) (p.mem a).next hP
    simp only [load_addr] at this
    rw [this, if_neg hPa.symm]
  have e2 : ((set_next p (p.mem a).prev (p.mem a).next).mem a).prev = (p.mem a).prev := by
    have := set_next_prev p (p.mem a).prev (Ptr.addr a) (p.mem a).next
    simpa only [load_addr] using this
  unfold unlink
  simp only [e1, e2]
  refine ⟨by simp, by simp, by simp, by simp, by simp, ?_, ?_⟩
  · intro z
    rw [set_prev_next, set_next_next _ _ _ _ hP]
  · intro z
    rw [set_prev_prev _ _ _ _ hN, set_next_prev]

theorem split_step_loads (p : BuddyPool) (kval n b : Nat)
    (hT : (p.avail (kval + n)).prev ≠ Ptr.null) :
    ∃ q, split kval (n + 1) p b = split kval n q b ∧
      q.kval_m = p.kval_m ∧ q.numbytes = p.numbytes ∧ q.base = p.base ∧
      (∀ z, (load q z).tag =
        if z = Ptr.addr (b + 2 ^ (kval + n)) then BLOCK_AVAIL else (load p z).tag) ∧
      (∀ z, (load q z).kval =
        if z = Ptr.addr b then kval + n
        else if z = Ptr.addr (b + 2 ^ (kval + n)) then kval + n else (load p z).kval) ∧
      (∀ z, (load q z).next =
        if z = (p.avail (kval + n)).prev then Ptr.addr (b + 2 ^ (kval + n))
        else if z = Ptr.addr (b + 2 ^ (kval + n)) then Ptr.sentinel (kval + n)
        else (load p z).next) ∧
      (∀ z, (load q z).prev =
        if z = Ptr.sentinel (kval + n) then Ptr.addr (b + 2 ^ (kval + n))
        else if z = Ptr.addr (b + 2 ^ (kval + n)) then (p.avail (kval + n)).prev
        else (load p z).prev) := by
  have hc : Ptr.addr (b + 2 ^ (kval + n)) ≠ Ptr.null := by simp
  have hs : Ptr.sentinel (kval + n) ≠ Ptr.null := by simp
  have hb : Ptr.addr b ≠ Ptr.null := by simp
  have e3 : ((set_next (set_kval (set_tag p (Ptr.addr (b + 2 ^ (kval + n))) BLOCK_AVAIL)
      (Ptr.addr (b + 2 ^ (kval + n))) (kval + n)) (Ptr.addr (b + 2 ^ (kval + n)))
      (Ptr.sentinel (kval + n))).avail (kval + n)).prev = (p.avail (kval + n)).prev := by
    simp only [avail_eq_load, set_next_prev, set_kval_prev, set_tag_prev]
  have e4 : ((set_prev (set_next (set_kval (set_tag p (Ptr.addr (b + 2 ^ (kval + n))) BLOCK_AVAIL)
      (Ptr.addr (b + 2 ^ (kval + n))) (kval + n)) (Ptr.addr (b + 2 ^ (kval + n)))
      (Ptr.sentinel (kval + n))) (Ptr.addr (b + 2 ^ (kval + n)))
      (p.avail (kval + n)).prev).avail (kval + n)).prev = (p.avail (kval + n)).prev := by
    rw [avail_eq_load, set_prev_prev _ _ _ _ hc]
    simp only [set_next_prev, set_kval_prev, set_tag_prev, load_sentinel]
    exact e3
  refine ⟨_, rfl, ?_, ?_, ?_, ?_, ?_, ?_, ?_⟩
  · simp
  · simp
  · simp
  · intro z
    simp only [set_kval_tag, set_prev_tag, set_next_tag]
    rw [set_tag_tag _ _ _ _ hc]
  · intro z
    rw [set_kval_kval _ _ _ _ hb]
    simp only [set_prev_kval, set_next_kval]
    rw [set_kval_kval _ _ _ _ hc]
    simp only [set_tag_kval]
  · intro z
    simp only [set_kval_next, set_prev_next, e3, e4]
    rw [set_next_next _ _ _ _ hT]
    simp only [set_prev_next]
    rw [set_next_next _ _ _ _ hc]
    simp only [set_kval_next, set_tag_next]
  · intro z
    simp only [set_kval_prev, e3, e4]
    rw [set_prev_prev _ _ _ _ hs]
    simp only [set_next_prev]
    rw [set_prev_prev _ _ _ _ hc]
    simp only [set_next_prev, set_kval_prev, set_tag_prev]

/-! ## Doubly linked chains -/

theorem Seg_congr (p q : BuddyPool) (l : List Nat) :
    ∀ x y, (∀ z, z = x ∨ (∃ a, a ∈ l ∧ z = Ptr.addr a) → (load q z).next = (load p z).next) →
      (∀ z, z = y ∨ (∃ a, a ∈ l ∧ z = Ptr.addr a) → (load q z).prev = (load p z).prev) →
      Seg p x l y → Seg q x l y := by
  induction l with
  | nil =>
    intro x y hn hp h
    simp only [Seg] at h ⊢
    rw [hn x (Or.inl rfl), hp y (Or.inl rfl)]
    exact h
  | cons a l ih =>
    intro x y hn hp h
    simp only [Seg] at h ⊢
    obtain ⟨h1, h2, h3⟩ := h
    refine ⟨?_, ?_, ?_⟩
    · rw [hn x (Or.inl rfl)]; exact h1
    · rw [hp _ (Or.inr ⟨a, List.mem_cons_self a l, rfl⟩)]; exact h2
    · apply ih _ _ _ _ h3
      · intro z hz
        rcases hz with hz | ⟨b, hb, hz⟩
        · exact hn z (Or.inr ⟨a, List.mem_cons_self a l, hz⟩)
        · exact hn z (Or.inr ⟨b, List.mem_cons_of_mem a hb, hz⟩)
      · intro z hz
        rcases hz with hz | ⟨b, hb, hz⟩
        · exact hp z (Or.inl hz)
        · exact hp z (Or.inr ⟨b, List.mem_cons_of_mem a hb, hz⟩)

/-- In a chain, `prev` of a member is the start or an earlier member. -/
theorem Seg_prev_mem (p : BuddyPool) (a : Nat) (l2 : List Nat) (y : Ptr) :
    ∀ (l1 : List Nat) (x : Ptr), Seg p x (l1 ++ a :: l2) y →
      (p.mem a).prev = x ∨ ∃ b, b ∈ l1 ∧ (p.mem a).prev = Ptr.addr b := by
  intro l1
  induction l1 with
  | nil =>
    intro x h
    simp only [List.nil_append, Seg, load_addr] at h
    exact Or.inl h.2.1
  | cons c l1 ih =>
    intro x h
    simp only [List.cons_append, Seg] at h
    rcases ih _ h.2.2 with h1 | ⟨b, hb, h1⟩
    · exact Or.inr ⟨c, List.mem_cons_self c l1, h1⟩
    · exact Or.inr ⟨b, List.mem_cons_of_mem c hb, h1⟩

/-- In a chain, `next` of a member is the end or a later member. -/
theorem Seg_next_mem (p : BuddyPool) (a : Nat) (l2 : List Nat) (y : Ptr) :
    ∀ (l1 : List Nat) (x : Ptr), Seg p x (l1 ++ a :: l2) y →
      (p.mem a).next = y ∨ ∃ b, b ∈ l2 ∧ (p.mem a).next = Ptr.addr b := by
  intro l1
  induction l1 with
  | nil =>
    intro x h
    simp only [List.nil_append, Seg] at h
    cases l2 with
    | nil =>
      simp only [Seg, load_addr] at h
      exact Or.inl h.2.2.1
    | cons b l2 =>
      simp only [Seg, load_addr] at h
      exact Or.inr ⟨b, List.mem_cons_self b l2, h.2.2.1⟩
  | cons c l1 ih =>
    intro x h
    simp only [List.cons_append, Seg] at h
    exact ih _ h.2.2

/-- The end of a chain has its `prev` at the start or at a member. -/
theorem Seg_last_mem (p : BuddyPool) (y : Ptr) :
    ∀ (l : List Nat) (x : Ptr), Seg p x l y →
      (load p y).prev = x ∨ ∃ b, b ∈ l ∧ (load p y).prev = Ptr.addr b := by
  intro l
  induction l with
  | nil =>
    intro x h
    exact Or.inl h.2
  | cons c l ih =>
    intro x h
    simp only [Seg] at h
    rcases ih _ h.2.2 with h1 | ⟨b, hb, h1⟩
    · exact Or.inr ⟨c, List.mem_cons_self c l, h1⟩
    · exact Or.inr ⟨b, List.mem_cons_of_mem c hb, h1⟩

/-- Taking a member out of a chain: the state `q` differs from `p` in `next` of the
member's predecessor and `prev` of its successor. -/
theorem Seg_unlink (p q : BuddyPool) (a : Nat) (l2 : List Nat) (y : Ptr)
    (hnext : ∀ z, (load q z).next =
      if z = (p.mem a).prev then (p.mem a).next else (load p z).next)
    (hprev : ∀ z, (load q z).prev =
      if z = (p.mem a).next then (p.mem a).prev else (load p z).prev) :
    ∀ (l1 : List Nat) (x : Ptr), Seg p x (l1 ++ a :: l2) y → (l1 ++ a :: l2).Nodup →
      (∀ b, b ∈ l1 ++ a :: l2 → x ≠ Ptr.addr b) → (∀ b, b ∈ l1 ++ a :: l2 → y ≠ Ptr.addr b) →
      Seg q x (l1 ++ l2) y := by
  intro l1
  induction l1 with
  | nil =>
    intro x h hnd hx hy
    simp only [List.nil_append] at h hnd hx hy ⊢
    have hax : x ≠ Ptr.addr a := hx a (List.mem_cons_self a l2)
    have hay : y ≠ Ptr.addr a := hy a (List.mem_cons_self a l2)
    cases l2 with
    | nil =>
      simp only [Seg, load_addr] at h ⊢
      obtain ⟨_, h2, h3, _⟩ := h
      rw [hnext, hprev, h2, h3]
      simp
    | cons b l2 =>
      simp only [Seg, load_addr] at h ⊢
      obtain ⟨_, h2, h3, _, h5⟩ := h
      have hab : a ≠ b := by
        intro hab
        rw [hab] at hnd
        exact (List.nodup_cons.mp hnd).1 (List.mem_cons_self b l2)
      have hbl : b ∉ l2 := (List.nodup_cons.mp (List.nodup_cons.mp hnd).2).1
      refine ⟨?_, ?_, ?_⟩
      · rw [hnext, h2, h3]; simp
      · have := hprev (Ptr.addr b)
        rw [h2, h3] at this
        simpa using this
      · apply Seg_congr p q l2 _ _ _ _ h5
        · intro z hz
          rw [hnext, h2, if_neg]
          rcases hz with hz | ⟨c, hc, hz⟩
          · rw [hz]; exact fun e => hx b (List.mem_cons_of_mem a (List.mem_cons_self b l2)) e.symm
          · rw [hz]
            exact fun e => hx c (List.mem_cons_of_mem a (List.mem_cons_of_mem b hc)) e.symm
        · intro z hz
          rw [hprev, h3, if_neg]
          rcases hz with hz | ⟨c, hc, hz⟩
          · rw [hz]; exact hy b (List.mem_cons_of_mem a (List.mem_cons_self b l2))
          · rw [hz]
            intro e
            have : c = b := by injection e
            exact hbl (this ▸ hc)
  | cons c l1 ih =>
    intro x h hnd hx hy
    simp only [List.cons_append, Seg] at h hnd ⊢
    obtain ⟨h1, h2, h3⟩ := h
    have hcl : c ∉ l1 ++ a :: l2 := (List.nodup_cons.mp hnd).1
    have hP := Seg_prev_mem p a l2 y l1 _ h3
    have hN := Seg_next_mem p a l2 y l1 _ h3
    refine ⟨?_, ?_, ?_⟩
    · rw [hnext, if_neg, h1]
      intro e
      rcases hP with hP | ⟨b, hb, hP⟩
      · rw [hP] at e
        exact hx c (by simp) e
      · rw [hP] at e
        exact hx b (by simp [hb]) e
    · rw [hprev, if_neg, h2]
      intro e
      rcases hN with hN | ⟨b, hb, hN⟩
      · rw [hN] at e
        exact hy c (by simp) e.symm
      · rw [hN] at e
        have : c = b := by injection e
        exact hcl (by simp [this, hb])
    · apply ih _ h3 (List.nodup_cons.mp hnd).2
      · intro b hb e
        have : c = b := by injection e
        exact hcl (this ▸ hb)
      · intro b hb
        exact hy b (by simp only [List.cons_append]; exact List.mem_cons_of_mem c hb)

/-- Putting the header `b` in front of a list: `q` differs from `p` in `next` of the
list head and of `b`, and in `prev` of the old first node and of `b`. -/
theorem Seg_push_front (p q : BuddyPool) (b : Nat) (s : Ptr) (l : List Nat)
    (hnext : ∀ z, (load q z).next =
      if z = s then Ptr.addr b else if z = Ptr.addr b then (load p s).next else (load p z).next)
    (hprev : ∀ z, (load q z).prev =
      if z = (load p s).next then Ptr.addr b else if z = Ptr.addr b then s else (load p z).prev)
    (h : Seg p s l s) (hnd : l.Nodup) (hb : b ∉ l) (hs : ∀ c, c ∈ l → s ≠ Ptr.addr c)
    (hsb : s ≠ Ptr.addr b) : Seg q s (b :: l) s := by
  cases l with
  | nil =>
    simp only [Seg] at h ⊢
    obtain ⟨h1, h2⟩ := h
    refine ⟨?_, ?_, ?_, ?_⟩
    · rw [hnext]; simp
    · rw [hprev, h1, if_neg hsb.symm]; simp
    · rw [hnext, if_neg hsb.symm, h1]; simp
    · rw [hprev, h1]; simp
  | cons c l =>
    simp only [Seg] at h ⊢
    obtain ⟨h1, h2, h3⟩ := h
    have hbc : b ≠ c := fun e => hb (e ▸ List.mem_cons_self b l)
    have hsc : s ≠ Ptr.addr c := hs c (List.mem_cons_self c l)
    have hcl : c ∉ l := (List.nodup_cons.mp hnd).1
    refine ⟨?_, ?_, ?_, ?_, ?_⟩
    · rw [hnext]; simp
    · rw [hprev, h1]; simp [hbc]
    · rw [hnext, if_neg hsb.symm, h1]; simp
    · rw [hprev, h1]; simp
    · apply Seg_congr p q l _ _ _ _ h3
      · intro z hz
        have hzs : z ≠ s := by
          rcases hz with hz | ⟨d, hd, hz⟩
          · rw [hz]; exact hsc.symm
          · rw [hz]; exact (hs d (List.mem_cons_of_mem c hd)).symm
        have hzb : z ≠ Ptr.addr b := by
          rcases hz with hz | ⟨d, hd, hz⟩
          · rw [hz]; intro e; injection e with e; exact hbc e.symm
          · rw [hz]; intro e; injection e with e; exact hb (e ▸ List.mem_cons_of_mem c hd)
        rw [hnext, if_neg hzs, if_neg hzb]
      · intro z hz
        have hzc : z ≠ Ptr.addr c := by
          rcases hz with hz | ⟨d, hd, hz⟩
          · rw [hz]; exact hsc
          · rw [hz]; intro e; injection e with e; exact hcl (e ▸ hd)
        have hzb : z ≠ Ptr.addr b := by
          rcases hz with hz | ⟨d, hd, hz⟩
          · rw [hz]; exact hsb
          · rw [hz]; intro e; injection e with e; exact hb (e ▸ List.mem_cons_of_mem c hd)
        rw [hprev, h1, if_neg hzc, if_neg hzb]

/-- Putting the header `b` at the end of a list: `q` differs from `p` in `next` of the
old last node and of `b`, and in `prev` of the list head and of `b`. -/
theorem Seg_push_back (p q : BuddyPool) (b : Nat) (s : Ptr)
    (hnext : ∀ z, (load q z).next =
      if z = (load p s).prev then Ptr.addr b else if z = Ptr.addr b then s else (load p z).next)
    (hprev : ∀ z, (load q z).prev =
      if z = s then Ptr.addr b else if z = Ptr.addr b then (load p s).prev else (load p z).prev)
    (hsb : s ≠ Ptr.addr b) :
    ∀ (l : List Nat) (x : Ptr), Seg p x l s → (x :: l.map Ptr.addr).Nodup → b ∉ l →
      x ≠ Ptr.addr b → (∀ c, c ∈ l → s ≠ Ptr.addr c) → Seg q x (l ++ [b]) s := by
  intro l
  induction l with
  | nil =>
    intro x h _ _ hxb _
    simp only [Seg, List.nil_append] at h ⊢
    obtain ⟨h1, h2⟩ := h
    refine ⟨?_, ?_, ?_, ?_⟩
    · rw [hnext, h2]; simp
    · rw [hprev, h2, if_neg hsb.symm]; simp
    · rw [hnext, h2, if_neg hxb.symm]; simp
    · rw [hprev]; simp
  | cons c l ih =>
    intro x h hnd hb hxb hs
    simp only [Seg, List.cons_append] at h ⊢
    obtain ⟨h1, h2, h3⟩ := h
    have hxc : x ∉ (Ptr.addr c :: l.map Ptr.addr) := (List.nodup_cons.mp hnd).1
    have hbc : b ≠ c := fun e => hb (e ▸ List.mem_cons_self b l)
    have hT := Seg_last_mem p s l _ h3
    refine ⟨?_, ?_, ?_⟩
    · rw [hnext, if_neg, if_neg hxb, h1]
      intro e
      rcases hT with hT | ⟨d, hd, hT⟩
      · rw [hT] at e; exact hxc (by simp [e])
      · rw [hT] at e
        exact hxc (by rw [e]; exact List.mem_cons_of_mem _ (List.mem_map_of_mem Ptr.addr hd))
    · rw [hprev, if_neg (hs c (List.mem_cons_self c l)).symm, if_neg, h2]
      intro e; injection e with e; exact hbc e.symm
    · apply ih _ h3
      · exact (List.nodup_cons.mp hnd).2
      · exact fun hm => hb (List.mem_cons_of_mem c hm)
      · intro e; injection e with e; exact hbc e.symm
      · exact fun d hd => hs d (List.mem_cons_of_mem c hd)

/-! ## Walking a list -/

theorem walk_succ (p : BuddyPool) :
    ∀ (n : Nat) (x : Ptr), walk p (n + 1) x = (load p (walk p n x)).next := by
  intro n
  induction n with
  | zero => intro x; rfl
  | succ n ih =>
    intro x
    show walk p (n + 1) (load p x).next = _
    rw [ih]
    rfl

theorem walk_of_mem (p : BuddyPool) (a : Nat) (y : Ptr) :
    ∀ (l : List Nat) (x : Ptr), Seg p x l y → a ∈ l → ∃ n, walk p n x = Ptr.addr a := by
  intro l
  induction l with
  | nil => intro x _ ha; simp at ha
  | cons c l ih =>
    intro x h ha
    simp only [Seg] at h
    rcases List.mem_cons.mp ha with e | hm
    · refine ⟨1, ?_⟩
      show walk p 0 (load p x).next = _
      rw [h.1, e]
      rfl
    · obtain ⟨n, hn⟩ := ih _ h.2.2 hm
      refine ⟨n + 1, ?_⟩
      show walk p n (load p x).next = _
      rw [h.1]
      exact hn

theorem Seg_next_closed (p : BuddyPool) (y : Ptr) :
    ∀ (l : List Nat) (x : Ptr), Seg p x l y →
      ∀ z, (z = x ∨ ∃ a, a ∈ l ∧ z = Ptr.addr a) →
        (load p z).next = y ∨ ∃ b, b ∈ l ∧ (load p z).next = Ptr.addr b := by
  intro l
  induction l with
  | nil =>
    intro x h z hz
    rcases hz with hz | ⟨a, ha, _⟩
    · rw [hz]; exact Or.inl h.1
    · simp at ha
  | cons c l ih =>
    intro x h z hz
    simp only [Seg] at h
    rcases hz with hz | ⟨a, ha, hz⟩
    · rw [hz]; exact Or.inr ⟨c, List.mem_cons_self c l, h.1⟩
    · have hz2 : z = Ptr.addr c ∨ ∃ a, a ∈ l ∧ z = Ptr.addr a := by
        rcases List.mem_cons.mp ha with e | hm
        · exact Or.inl (by rw [hz, e])
        · exact Or.inr ⟨a, hm, hz⟩
      rcases ih _ h.2.2 z hz2 with h1 | ⟨b, hb, h1⟩
      · exact Or.inl h1
      · exact Or.inr ⟨b, List.mem_cons_of_mem c hb, h1⟩

/-- For a circular list, the headers reached from the list head are the members. -/
theorem InList_iff_mem (p : BuddyPool) (i a : Nat) (l : List Nat)
    (h : Seg p (Ptr.sentinel i) l (Ptr.sentinel i)) : InList p i a ↔ a ∈ l := by
  constructor
  · rintro ⟨n, hn⟩
    have key : ∀ n, walk p n (Ptr.sentinel i) = Ptr.sentinel i ∨
        ∃ b, b ∈ l ∧ walk p n (Ptr.sentinel i) = Ptr.addr b := by
      intro n
      induction n with
      | zero => exact Or.inl rfl
      | succ n ih =>
        rw [walk_succ]
        exact Seg_next_closed p _ l _ h _ ih
    rcases key n with h1 | ⟨b, hb, h1⟩
    · rw [h1] at hn; cases hn
    · rw [h1] at hn; injection hn with e; exact e ▸ hb
  · intro ha
    exact walk_of_mem p a _ l _ h ha

/-! ## Consequences of well-formedness -/

theorem mem_update_iff (fl : Nat → List Nat) (i j a : Nat) (l : List Nat) :
    a ∈ Function.update fl i l j ↔ (j = i ∧ a ∈ l) ∨ (j ≠ i ∧ a ∈ fl j) := by
  by_cases h : j = i
  · subst h; simp
  · simp [Function.update_noteq h, h]

theorem WF.live_fl {p : BuddyPool} {fl : Nat → List Nat} {out hs : List Nat}
    (_ : WF p fl out hs) {i a : Nat} (ha : a ∈ fl i) : Live fl out hs a :=
  Or.inr (Or.inr ⟨i, ha⟩)

theorem WF.fl_le {p : BuddyPool} {fl : Nat → List Nat} {out hs : List Nat}
    (w : WF p fl out hs) {i a : Nat} (ha : a ∈ fl i) : i ≤ p.kval_m := by
  have h := w.geo.kval_le a (w.live_fl ha)
  simp only [(w.free_hdr i a ha).2] at h
  exact h

theorem WF.fl_unique {p : BuddyPool} {fl : Nat → List Nat} {out hs : List Nat}
    (w : WF p fl out hs) {i j a : Nat} (hi : a ∈ fl i) (hj : a ∈ fl j) : i = j := by
  rw [← (w.free_hdr i a hi).2, ← (w.free_hdr j a hj).2]

theorem WF.out_not_fl {p : BuddyPool} {fl : Nat → List Nat} {out hs : List Nat}
    (w : WF p fl out hs) {i a : Nat} (ha : a ∈ out) : a ∉ fl i := by
  intro hi
  have h1 := w.out_hdr a ha
  have h2 := (w.free_hdr i a hi).1
  rw [h1] at h2
  exact absurd h2 (by decide)

/-- Taking a member off its free list leaves it in flight. -/
theorem WF_take {p : BuddyPool} {fl : Nat → List Nat} {out hs : List Nat}
    (w : WF p fl out hs) (i a : Nat) (l1 l2 : List Nat) (hi : i ≤ p.kval_m)
    (hfl : fl i = l1 ++ a :: l2) :
    WF (unlink p a) (Function.update fl i (l1 ++ l2)) out (a :: hs) ∧
      ∀ z, (load (unlink p a) z).kval = (load p z).kval := by
  have hai : a ∈ fl i := by rw [hfl]; simp
  have hseg := w.seg i hi
  rw [hfl] at hseg
  have hnd := w.nodup i
  rw [hfl] at hnd
  have hPm := Seg_prev_mem p a l2 _ l1 _ hseg
  have hNm := Seg_next_mem p a l2 _ l1 _ hseg
  have ha1 : a ∉ l1 := by
    intro h
    have := List.nodup_append.mp hnd
    exact this.2.2 h (List.mem_cons_self a l2)
  have ha2 : a ∉ l2 := by
    have := (List.nodup_append.mp hnd).2.1
    exact (List.nodup_cons.mp this).1
  have hP : (p.mem a).prev ≠ Ptr.null := by
    rcases hPm with h | ⟨b, _, h⟩ <;> rw [h] <;> simp
  have hN : (p.mem a).next ≠ Ptr.null := by
    rcases hNm with h | ⟨b, _, h⟩ <;> rw [h] <;> simp
  have hPa : (p.mem a).prev ≠ Ptr.addr a := by
    rcases hPm with h | ⟨b, hb, h⟩
    · rw [h]; simp
    · rw [h]; intro e; injection e with e; exact ha1 (e ▸ hb)
  obtain ⟨e1, e2, e3, htag, hkval, hnext, hprev⟩ := unlink_loads p a hP hN hPa
  have hsub : ∀ j b, b ∈ Function.update fl i (l1 ++ l2) j → b ∈ fl j ∧ b ≠ a := by
    intro j b hb
    rcases (mem_update_iff fl i j b _).mp hb with ⟨h1, h2⟩ | ⟨h1, h2⟩
    · subst h1
      rw [hfl]
      refine ⟨?_, ?_⟩
      · rcases List.mem_append.mp h2 with h | h
        · exact List.mem_append_left _ h
        · exact List.mem_append_right _ (List.mem_cons_of_mem a h)
      · intro e
        rcases List.mem_append.mp h2 with h | h
        · exact ha1 (e ▸ h)
        · exact ha2 (e ▸ h)
    · refine ⟨h2, ?_⟩
      intro e
      exact h1 (w.fl_unique (e ▸ h2) hai)
  refine ⟨⟨?_, ?_, ?_, ?_, ?_, ?_, ?_, w.out_nodup, ?_, ?_, ?_⟩, hkval⟩
  · rw [e1]; exact w.kval_m_le
  · rw [e1, e2]; exact w.numbytes_eq
  · intro j hj
    rw [e1] at hj
    have h1 := htag (Ptr.sentinel j)
    have h2 := hkval (Ptr.sentinel j)
    simp only [load_sentinel] at h1 h2
    rw [h1, h2]
    exact w.heads j hj
  · intro j hj
    rw [e1] at hj
    by_cases hji : j = i
    · subst hji
      rw [Function.update_same]
      apply Seg_unlink p _ a l2 _ hnext hprev l1 _ hseg hnd <;> intro b _ <;> simp
    · rw [Function.update_noteq hji]
      have hsegj := w.seg j hj
      apply Seg_congr p _ (fl j) _ _ _ _ hsegj
      · intro z hz
        rw [hnext, if_neg]
        intro e
        rcases hPm with h | ⟨b, hb, h⟩
        · rw [h] at e
          rcases hz with hz | ⟨c, _, hz⟩
          · rw [hz] at e; injection e with e; exact hji e
          · rw [hz] at e; cases e
        · rw [h] at e
          rcases hz with hz | ⟨c, hc, hz⟩
          · rw [hz] at e; cases e
          · rw [hz] at e; injection e with e
            have hbi : b ∈ fl i := by rw [hfl]; exact List.mem_append_left _ hb
            exact hji (w.fl_unique hc (e ▸ hbi))
      · intro z hz
        rw [hprev, if_neg]
        intro e
        rcases hNm with h | ⟨b, hb, h⟩
        · rw [h] at e
          rcases hz with hz | ⟨c, _, hz⟩
          · rw [hz] at e; injection e with e; exact hji e
          · rw [hz] at e; cases e
        · rw [h] at e
          rcases hz with hz | ⟨c, hc, hz⟩
          · rw [hz] at e; cases e
          · rw [hz] at e; injection e with e
            have hbi : b ∈ fl i := by
              rw [hfl]; exact List.mem_append_right _ (List.mem_cons_of_mem a hb)
            exact hji (w.fl_unique hc (e ▸ hbi))
  · intro j
    by_cases hji : j = i
    · subst hji
      rw [Function.update_same]
      have := List.nodup_append.mp hnd
      refine List.nodup_append.mpr ⟨this.1, (List.nodup_cons.mp this.2.1).2, ?_⟩
      intro x hx1 hx2
      exact this.2.2 hx1 (List.mem_cons_of_mem a hx2)
    · rw [Function.update_noteq hji]; exact w.nodup j
  · intro j b hb
    have h1 := htag (Ptr.addr b)
    have h2 := hkval (Ptr.addr b)
    simp only [load_addr] at h1 h2
    rw [h1, h2]
    exact w.free_hdr j b (hsub j b hb).1
  · intro b hb
    have h1 := htag (Ptr.addr b)
    simp only [load_addr] at h1
    rw [h1]
    exact w.out_hdr b hb
  · refine List.nodup_cons.mpr ⟨?_, w.hs_nodup⟩
    intro h
    exact (w.hs_fresh a h).2 i hai
  · intro b hb
    rcases List.mem_cons.mp hb with e | h
    · subst e
      refine ⟨fun ho => w.out_not_fl ho hai, ?_⟩
      intro j hj
      exact (hsub j b hj).2 rfl
    · refine ⟨(w.hs_fresh b h).1, ?_⟩
      intro j hj
      exact (w.hs_fresh b h).2 j (hsub j b hj).1
  · rw [e1, e3]
    apply w.geo.congr
    · intro b
      constructor
      · rintro (h | h | ⟨j, hj⟩)
        · exact Or.inl h
        · rcases List.mem_cons.mp h with e | h
          · exact Or.inr (Or.inr ⟨i, e ▸ hai⟩)
          · exact Or.inr (Or.inl h)
        · exact Or.inr (Or.inr ⟨j, (hsub j b hj).1⟩)
      · rintro (h | h | ⟨j, hj⟩)
        · exact Or.inl h
        · exact Or.inr (Or.inl (List.mem_cons_of_mem a h))
        · by_cases hba : b = a
          · exact Or.inr (Or.inl (hba ▸ List.mem_cons_self a hs))
          · refine Or.inr (Or.inr ⟨j, ?_⟩)
            apply (mem_update_iff fl i j b _).mpr
            by_cases hji : j = i
            · left
              refine ⟨hji, ?_⟩
              subst hji
              rw [hfl] at hj
              rcases List.mem_append.mp hj with h | h
              · exact List.mem_append_left _ h
              · rcases List.mem_cons.mp h with e | h
                · exact absurd e hba
                · exact List.mem_append_right _ h
            · exact Or.inr ⟨hji, hj⟩
    · intro b _
      have h2 := hkval (Ptr.addr b)
      simp only [load_addr] at h2
      exact h2

theorem Seg_same (p q : BuddyPool) (l : List Nat) (x y : Ptr)
    (hn : ∀ z, (load q z).next = (load p z).next)
    (hp : ∀ z, (load q z).prev = (load p z).prev) (h : Seg p x l y) : Seg q x l y :=
  Seg_congr p q l x y (fun z _ => hn z) (fun z _ => hp z) h

/-- Tagging the in-flight block `BLOCK_RESERVED` makes it outstanding. -/
theorem WF_reserve {p : BuddyPool} {fl : Nat → List Nat} {out hs : List Nat} (b : Nat)
    (w : WF p fl out (b :: hs)) :
    WF (set_tag p (Ptr.addr b) BLOCK_RESERVED) fl (b :: out) hs := by
  have hb : Ptr.addr b ≠ Ptr.null := by simp
  have hbf := w.hs_fresh b (List.mem_cons_self b hs)
  have hnd := List.nodup_cons.mp w.hs_nodup
  refine ⟨?_, ?_, ?_, ?_, w.nodup, ?_, ?_, ?_, hnd.2, ?_, ?_⟩
  · simpa using w.kval_m_le
  · simpa using w.numbytes_eq
  · intro j hj
    simp only [set_tag_kval_m] at hj
    have h1 := set_tag_tag p (Ptr.addr b) (Ptr.sentinel j) BLOCK_RESERVED hb
    have h2 := set_tag_kval p (Ptr.addr b) (Ptr.sentinel j) BLOCK_RESERVED
    simp only [load_sentinel] at h1 h2
    rw [h1, h2, if_neg (by simp)]
    exact w.heads j hj
  · intro j hj
    simp only [set_tag_kval_m] at hj
    exact Seg_same p _ _ _ _ (fun z => set_tag_next p _ z _) (fun z => set_tag_prev p _ z _)
      (w.seg j hj)
  · intro j a ha
    have h1 := set_tag_tag p (Ptr.addr b) (Ptr.addr a) BLOCK_RESERVED hb
    have h2 := set_tag_kval p (Ptr.addr b) (Ptr.addr a) BLOCK_RESERVED
    simp only [load_addr] at h1 h2
    have hab : a ≠ b := fun e => hbf.2 j (e ▸ ha)
    rw [h1, h2, if_neg (by simpa using hab)]
    exact w.free_hdr j a ha
  · intro a ha
    have h1 := set_tag_tag p (Ptr.addr b) (Ptr.addr a) BLOCK_RESERVED hb
    simp only [load_addr] at h1
    rw [h1]
    rcases List.mem_cons.mp ha with e | h
    · simp [e]
    · have hab : a ≠ b := fun e => hbf.1 (e ▸ h)
      rw [if_neg (by simpa using hab)]
      exact w.out_hdr a h
  · exact List.nodup_cons.mpr ⟨hbf.1, w.out_nodup⟩
  · intro a ha
    have h := w.hs_fresh a (List.mem_cons_of_mem b ha)
    refine ⟨?_, h.2⟩
    intro hm
    rcases List.mem_cons.mp hm with e | h2
    · exact hnd.1 (e ▸ ha)
    · exact h.1 h2
  · simp only [set_tag_kval_m, set_tag_base]
    apply w.geo.congr
    · intro a
      simp only [Live, List.mem_cons]
      tauto
    · intro a _
      have h2 := set_tag_kval p (Ptr.addr b) (Ptr.addr a) BLOCK_RESERVED
      simp only [load_addr] at h2
      exact h2

/-- Tagging an outstanding block `BLOCK_AVAIL` puts it in flight. -/
theorem WF_release {p : BuddyPool} {fl : Nat → List Nat} {out hs : List Nat} (a : Nat)
    (w : WF p fl out hs) (ha : a ∈ out) :
    WF (set_tag p (Ptr.addr a) BLOCK_AVAIL) fl (out.erase a) (a :: hs) ∧
      ((set_tag p (Ptr.addr a) BLOCK_AVAIL).mem a).tag = BLOCK_AVAIL ∧
      ((set_tag p (Ptr.addr a) BLOCK_AVAIL).mem a).kval = (p.mem a).kval := by
  have hb : Ptr.addr a ≠ Ptr.null := by simp
  have hmem : ∀ x, x ∈ out.erase a ↔ x ≠ a ∧ x ∈ out := fun x =>
    List.Nodup.mem_erase_iff w.out_nodup
  have hah : a ∉ hs := fun h => (w.hs_fresh a h).1 ha
  refine ⟨⟨?_, ?_, ?_, ?_, w.nodup, ?_, ?_, ?_, ?_, ?_, ?_⟩, ?_, ?_⟩
  · simpa using w.kval_m_le
  · simpa using w.numbytes_eq
  · intro j hj
    simp only [set_tag_kval_m] at hj
    have h1 := set_tag_tag p (Ptr.addr a) (Ptr.sentinel j) BLOCK_AVAIL hb
    have h2 := set_tag_kval p (Ptr.addr a) (Ptr.sentinel j) BLOCK_AVAIL
    simp only [load_sentinel] at h1 h2
    rw [h1, h2, if_neg (by simp)]
    exact w.heads j hj
  · intro j hj
    simp only [set_tag_kval_m] at hj
    exact Seg_same p _ _ _ _ (fun z => set_tag_next p _ z _) (fun z => set_tag_prev p _ z _)
      (w.seg j hj)
  · intro j c hc
    have h1 := set_tag_tag p (Ptr.addr a) (Ptr.addr c) BLOCK_AVAIL hb
    have h2 := set_tag_kval p (Ptr.addr a) (Ptr.addr c) BLOCK_AVAIL
    simp only [load_addr] at h1 h2
    have hab : c ≠ a := fun e => w.out_not_fl ha (e ▸ hc)
    rw [h1, h2, if_neg (by simpa using hab)]
    exact w.free_hdr j c hc
  · intro c hc
    have h1 := set_tag_tag p (Ptr.addr a) (Ptr.addr c) BLOCK_AVAIL hb
    simp only [load_addr] at h1
    have hc2 := (hmem c).mp hc
    rw [h1, if_neg (by simpa using hc2.1)]
    exact w.out_hdr c hc2.2
  · exact List.Nodup.erase a w.out_nodup
  · exact List.nodup_cons.mpr ⟨hah, w.hs_nodup⟩
  · intro c hc
    rcases List.mem_cons.mp hc with e | h
    · subst e
      exact ⟨fun h => ((hmem c).mp h).1 rfl, fun j hj => w.out_not_fl ha hj⟩
    · exact ⟨fun h2 => (w.hs_fresh c h).1 ((hmem c).mp h2).2, (w.hs_fresh c h).2⟩
  · simp only [set_tag_kval_m, set_tag_base]
    apply w.geo.congr
    · intro c
      simp only [Live, List.mem_cons, hmem]
      constructor
      · rintro (h | h | h)
        · exact Or.inl h.2
        · rcases h with e | h
          · exact Or.inl (e ▸ ha)
          · exact Or.inr (Or.inl h)
        · exact Or.inr (Or.inr h)
      · rintro (h | h | h)
        · by_cases e : c = a
          · exact Or.inr (Or.inl (Or.inl e))
          · exact Or.inl ⟨e, h⟩
        · exact Or.inr (Or.inl (Or.inr h))
        · exact Or.inr (Or.inr h)
    · intro c _
      have h2 := set_tag_kval p (Ptr.addr a) (Ptr.addr c) BLOCK_AVAIL
      simp only [load_addr] at h2
      exact h2
  · have h1 := set_tag_tag p (Ptr.addr a) (Ptr.addr a) BLOCK_AVAIL hb
    simp only [load_addr] at h1
    rw [h1]; simp
  · have h2 := set_tag_kval p (Ptr.addr a) (Ptr.addr a) BLOCK_AVAIL
    simp only [load_addr] at h2
    exact h2

/-- Raising the exponent of the lower of two in-flight buddies merges them. -/
theorem WF_merge {p : BuddyPool} {fl : Nat → List Nat} {out hs : List Nat} (b c k : Nat)
    (w : WF p fl out hs) (hb : b ∈ hs) (hc : c ∈ hs) (hkb : (p.mem b).kval = k)
    (hkc : (p.mem c).kval = k) (hbc : c = b + 2 ^ k) (hal : 2 ^ (k + 1) ∣ b - p.base) :
    WF (set_kval p (Ptr.addr b) (k + 1)) fl out (hs.erase c) := by
  have hbn : Ptr.addr b ≠ Ptr.null := by simp
  have hpos : 0 < 2 ^ k := Nat.two_pow_pos _
  have hmem : ∀ x, x ∈ hs.erase c ↔ x ≠ c ∧ x ∈ hs := fun x =>
    List.Nodup.mem_erase_iff w.hs_nodup
  have hkv : ∀ a, a ≠ b →
      ((set_kval p (Ptr.addr b) (k + 1)).mem a).kval = (p.mem a).kval := by
    intro a hab
    have h2 := set_kval_kval p (Ptr.addr b) (Ptr.addr a) (k + 1) hbn
    simp only [load_addr] at h2
    rw [h2, if_neg (by simpa using hab)]
  have hkvb : ((set_kval p (Ptr.addr b) (k + 1)).mem b).kval = k + 1 := by
    have h2 := set_kval_kval p (Ptr.addr b) (Ptr.addr b) (k + 1) hbn
    simp only [load_addr] at h2
    rw [h2]; simp
  refine ⟨?_, ?_, ?_, ?_, w.nodup, ?_, ?_, w.out_nodup, ?_, ?_, ?_⟩
  · simpa using w.kval_m_le
  · simpa using w.numbytes_eq
  · intro j hj
    simp only [set_kval_kval_m] at hj
    have h1 := set_kval_tag p (Ptr.addr b) (Ptr.sentinel j) (k + 1)
    have h2 := set_kval_kval p (Ptr.addr b) (Ptr.sentinel j) (k + 1) hbn
    simp only [load_sentinel] at h1 h2
    rw [h1, h2, if_neg (by simp)]
    exact w.heads j hj
  · intro j hj
    simp only [set_kval_kval_m] at hj
    exact Seg_same p _ _ _ _ (fun z => set_kval_next p _ z _) (fun z => set_kval_prev p _ z _)
      (w.seg j hj)
  · intro j a ha
    have h1 := set_kval_tag p (Ptr.addr b) (Ptr.addr a) (k + 1)
    simp only [load_addr] at h1
    have hab : a ≠ b := fun e => (w.hs_fresh b hb).2 j (e ▸ ha)
    rw [h1, hkv a hab]
    exact w.free_hdr j a ha
  · intro a ha
    have h1 := set_kval_tag p (Ptr.addr b) (Ptr.addr a) (k + 1)
    simp only [load_addr] at h1
    rw [h1]
    exact w.out_hdr a ha
  · exact List.Nodup.erase c w.hs_nodup
  · intro a ha
    exact w.hs_fresh a ((hmem a).mp ha).2
  · simp only [set_kval_kval_m, set_kval_base]
    apply w.geo.merge b c k (Or.inr (Or.inl hb)) (Or.inr (Or.inl hc)) hkb hkc hbc hal
    · intro a
      simp only [Live, hmem]
      constructor
      · rintro (h | h | ⟨j, h⟩)
        · exact ⟨Or.inl h, fun e => (w.hs_fresh c hc).1 (e ▸ h)⟩
        · exact ⟨Or.inr (Or.inl h.2), h.1⟩
        · exact ⟨Or.inr (Or.inr ⟨j, h⟩), fun e => (w.hs_fresh c hc).2 j (e ▸ h)⟩
      · rintro ⟨h | h | h, hne⟩
        · exact Or.inl h
        · exact Or.inr (Or.inl ⟨hne, h⟩)
        · exact Or.inr (Or.inr h)
    · exact hkvb
    · exact hkv

theorem WF.head_ptr {p : BuddyPool} {fl : Nat → List Nat} {out hs : List Nat}
    (w : WF p fl out hs) {i : Nat} (hi : i ≤ p.kval_m) :
    ((p.avail i).next = Ptr.sentinel i ∧ fl i = []) ∨
      ∃ a l, fl i = a :: l ∧ (p.avail i).next = Ptr.addr a := by
  have h := w.seg i hi
  cases hfl : fl i with
  | nil =>
    rw [hfl] at h
    exact Or.inl ⟨h.1, rfl⟩
  | cons a l =>
    rw [hfl] at h
    exact Or.inr ⟨a, l, rfl, h.1⟩

theorem WF.last_ptr {p : BuddyPool} {fl : Nat → List Nat} {out hs : List Nat}
    (w : WF p fl out hs) {i : Nat} (hi : i ≤ p.kval_m) :
    (p.avail i).prev = Ptr.sentinel i ∨ ∃ a, a ∈ fl i ∧ (p.avail i).prev = Ptr.addr a :=
  Seg_last_mem p _ _ _ (w.seg i hi)

/-- One pass of the split loop: the upper half of the in-flight block joins list `i`. -/
theorem WF_split {p q : BuddyPool} {fl : Nat → List Nat} {out hs : List Nat} (b i : Nat)
    (w : WF p fl out hs) (hb : b ∈ hs) (hk : (p.mem b).kval = i + 1)
    (e1 : q.kval_m = p.kval_m) (e2 : q.numbytes = p.numbytes) (e3 : q.base = p.base)
    (htag : ∀ z, (load q z).tag =
        if z = Ptr.addr (b + 2 ^ i) then BLOCK_AVAIL else (load p z).tag)
    (hkval : ∀ z, (load q z).kval =
        if z = Ptr.addr b then i
        else if z = Ptr.addr (b + 2 ^ i) then i else (load p z).kval)
    (hnext : ∀ z, (load q z).next =
        if z = (p.avail i).prev then Ptr.addr (b + 2 ^ i)
        else if z = Ptr.addr (b + 2 ^ i) then Ptr.sentinel i
        else (load p z).next)
    (hprev : ∀ z, (load q z).prev =
        if z = Ptr.sentinel i then Ptr.addr (b + 2 ^ i)
        else if z = Ptr.addr (b + 2 ^ i) then (p.avail i).prev
        else (load p z).prev) :
    WF q (Function.update fl i (fl i ++ [b + 2 ^ i])) out hs ∧ (q.mem b).kval = i := by
  have hpos : 0 < 2 ^ i := Nat.two_pow_pos _
  have hpow : 2 ^ (i + 1) = 2 * 2 ^ i := by rw [pow_succ]; ring
  have hLb : Live fl out hs b := Or.inr (Or.inl hb)
  have hile : i + 1 ≤ p.kval_m := by
    have := w.geo.kval_le b hLb
    simp only [hk] at this
    exact this
  have hi : i ≤ p.kval_m := by omega
  have hnl : ¬ Live fl out hs (b + 2 ^ i) := by
    apply w.geo.not_live_inside b _ hLb (by omega)
    simp only [hk, hpow]
    omega
  have hco : b + 2 ^ i ∉ out := fun h => hnl (Or.inl h)
  have hch : b + 2 ^ i ∉ hs := fun h => hnl (Or.inr (Or.inl h))
  have hcf : ∀ j, b + 2 ^ i ∉ fl j := fun j h => hnl (Or.inr (Or.inr ⟨j, h⟩))
  have hbc : b ≠ b + 2 ^ i := by omega
  have hT := w.last_ptr hi
  have hsub : ∀ j a, a ∈ Function.update fl i (fl i ++ [b + 2 ^ i]) j →
      a ∈ fl j ∨ (j = i ∧ a = b + 2 ^ i) := by
    intro j a ha
    rcases (mem_update_iff fl i j a _).mp ha with ⟨h1, h2⟩ | ⟨_, h2⟩
    · rcases List.mem_append.mp h2 with h | h
      · exact Or.inl (h1 ▸ h)
      · exact Or.inr ⟨h1, by simpa using h⟩
    · exact Or.inl h2
  have hkv : ∀ a, a ≠ b → a ≠ b + 2 ^ i → (q.mem a).kval = (p.mem a).kval := by
    intro a h1 h2
    have := hkval (Ptr.addr a)
    simp only [load_addr] at this
    rw [this, if_neg (by simpa using h1), if_neg (by simpa using h2)]
  have hkvb : (q.mem b).kval = i := by
    have := hkval (Ptr.addr b)
    simp only [load_addr] at this
    rw [this]; simp
  have hkvc : (q.mem (b + 2 ^ i)).kval = i := by
    have := hkval (Ptr.addr (b + 2 ^ i))
    simp only [load_addr] at this
    rw [this]; simp
  have htg : ∀ a, a ≠ b + 2 ^ i → (q.mem a).tag = (p.mem a).tag := by
    intro a h2
    have := htag (Ptr.addr a)
    simp only [load_addr] at this
    rw [this, if_neg (by simpa using h2)]
  refine ⟨⟨?_, ?_, ?_, ?_, ?_, ?_, ?_, w.out_nodup, w.hs_nodup, ?_, ?_⟩, hkvb⟩
  · rw [e1]; exact w.kval_m_le
  · rw [e1, e2]; exact w.numbytes_eq
  · intro j hj
    rw [e1] at hj
    have h1 := htag (Ptr.sentinel j)
    have h2 := hkval (Ptr.sentinel j)
    simp only [load_sentinel] at h1 h2
    rw [h1, h2, if_neg (by simp), if_neg (by simp), if_neg (by simp)]
    exact w.heads j hj
  · intro j hj
    rw [e1] at hj
    by_cases hji : j = i
    · subst hji
      rw [Function.update_same]
      apply Seg_push_back p q (b + 2 ^ j) (Ptr.sentinel j) hnext hprev (by simp) _ _ (w.seg j hj)
      · refine List.nodup_cons.mpr ⟨by simp, ?_⟩
        exact List.Nodup.map (fun x y e => by injection e) (w.nodup j)
      · exact hcf j
      · simp
      · intro c _; simp
    · rw [Function.update_noteq hji]
      apply Seg_congr p q (fl j) _ _ _ _ (w.seg j hj)
      · intro z hz
        have hz1 : z ≠ (p.avail i).prev := by
          intro e
          rcases hT with h | ⟨c, hc, h⟩
          · rw [h] at e
            rcases hz with hz | ⟨d, _, hz⟩
            · rw [hz] at e; injection e with e; exact hji e
            · rw [hz] at e; cases e
          · rw [h] at e
            rcases hz with hz | ⟨d, hd, hz⟩
            · rw [hz] at e; cases e
            · rw [hz] at e; injection e with e
              exact hji (w.fl_unique hd (e ▸ hc))
        have hz2 : z ≠ Ptr.addr (b + 2 ^ i) := by
          intro e
          rcases hz with hz | ⟨d, hd, hz⟩
          · rw [hz] at e; cases e
          · rw [hz] at e; injection e with e; exact hcf j (e ▸ hd)
        rw [hnext, if_neg hz1, if_neg hz2]
      · intro z hz
        have hz1 : z ≠ Ptr.sentinel i := by
          intro e
          rcases hz with hz | ⟨d, _, hz⟩
          · rw [hz] at e; injection e with e; exact hji e
          · rw [hz] at e; cases e
        have hz2 : z ≠ Ptr.addr (b + 2 ^ i) := by
          intro e
          rcases hz with hz | ⟨d, hd, hz⟩
          · rw [hz] at e; cases e
          · rw [hz] at e; injection e with e; exact hcf j (e ▸ hd)
        rw [hprev, if_neg hz1, if_neg hz2]
  · intro j
    by_cases hji : j = i
    · subst hji
      rw [Function.update_same]
      refine List.nodup_append.mpr ⟨w.nodup j, List.nodup_singleton _, ?_⟩
      intro x hx1 hx2
      have : x = b + 2 ^ j := by simpa using hx2
      exact hcf j (this ▸ hx1)
    · rw [Function.update_noteq hji]; exact w.nodup j
  · intro j a ha
    rcases hsub j a ha with h | ⟨h1, h2⟩
    · have hab : a ≠ b := fun e => (w.hs_fresh b hb).2 j (e ▸ h)
      have hac : a ≠ b + 2 ^ i := fun e => hcf j (e ▸ h)
      rw [htg a hac, hkv a hab hac]
      exact w.free_hdr j a h
    · subst h1; subst h2
      refine ⟨?_, hkvc⟩
      have := htag (Ptr.addr (b + 2 ^ j))
      simp only [load_addr] at this
      rw [this]; simp
  · intro a ha
    have hac : a ≠ b + 2 ^ i := fun e => hco (e ▸ ha)
    rw [htg a hac]
    exact w.out_hdr a ha
  · intro a ha
    refine ⟨(w.hs_fresh a ha).1, ?_⟩
    intro j hj
    rcases hsub j a hj with h | ⟨_, h2⟩
    · exact (w.hs_fresh a ha).2 j h
    · exact hch (h2 ▸ ha)
  · rw [e1, e3]
    apply w.geo.split b i hLb hk _ hkvb hkvc hkv
    intro a
    simp only [Live]
    constructor
    · rintro (h | h | ⟨j, h⟩)
      · exact Or.inl (Or.inl h)
      · exact Or.inl (Or.inr (Or.inl h))
      · rcases hsub j a h with h | ⟨_, h2⟩
        · exact Or.inl (Or.inr (Or.inr ⟨j, h⟩))
        · exact Or.inr h2
    · rintro ((h | h | ⟨j, h⟩) | h)
      · exact Or.inl h
      · exact Or.inr (Or.inl h)
      · refine Or.inr (Or.inr ⟨j, ?_⟩)
        apply (mem_update_iff fl i j a _).mpr
        by_cases hji : j = i
        · exact Or.inl ⟨hji, List.mem_append_left _ (hji ▸ h)⟩
        · exact Or.inr ⟨hji, h⟩
      · refine Or.inr (Or.inr ⟨i, ?_⟩)
        rw [Function.update_same, h]
        simp

theorem relink_loads (p : BuddyPool) (b : Nat)
    (hH : (p.avail (p.mem b).kval).next ≠ Ptr.null) :
    (relink p b).kval_m = p.kval_m ∧ (relink p b).numbytes = p.numbytes ∧
    (relink p b).base = p.base ∧
    (∀ z, (load (relink p b) z).tag = (load p z).tag) ∧
    (∀ z, (load (relink p b) z).kval = (load p z).kval) ∧
    (∀ z, (load (relink p b) z).next =
      if z = Ptr.sentinel (p.mem b).kval then Ptr.addr b
      else if z = Ptr.addr b then (p.avail (p.mem b).kval).next else (load p z).next) ∧
    (∀ z, (load (relink p b) z).prev =
      if z = (p.avail (p.mem b).kval).next then Ptr.addr b
      else if z = Ptr.addr b then Ptr.sentinel (p.mem b).kval else (load p z).prev) := by
  have hb : Ptr.addr b ≠ Ptr.null := by simp
  have hs : Ptr.sentinel (p.mem b).kval ≠ Ptr.null := by simp
  have k1 : ((set_next p (Ptr.addr b) (p.avail (p.mem b).kval).next).mem b).kval
      = (p.mem b).kval := by
    simp only [mem_eq_load, set_next_kval]
  have k2 : ((set_prev (set_next p (Ptr.addr b) (p.avail (p.mem b).kval).next) (Ptr.addr b)
      (Ptr.sentinel (p.mem b).kval)).mem b).kval = (p.mem b).kval := by
    simp only [mem_eq_load, set_prev_kval, set_next_kval]
  have n2 : ((set_prev (set_next p (Ptr.addr b) (p.avail (p.mem b).kval).next) (Ptr.addr b)
      (Ptr.sentinel (p.mem b).kval)).avail (p.mem b).kval).next
      = (p.avail (p.mem b).kval).next := by
    rw [avail_eq_load, set_prev_next, set_next_next _ _ _ _ hb, if_neg (by simp)]
    rfl
  have k3 : ((set_prev (set_prev (set_next p (Ptr.addr b) (p.avail (p.mem b).kval).next)
      (Ptr.addr b) (Ptr.sentinel (p.mem b).kval)) (p.avail (p.mem b).kval).next
      (Ptr.addr b)).mem b).kval = (p.mem b).kval := by
    simp only [mem_eq_load, set_prev_kval, set_next_kval]
  unfold relink
  simp only [k1, k2, n2, k3]
  refine ⟨by simp, by simp, by simp, by simp, by simp, ?_, ?_⟩
  · intro z
    rw [set_next_next _ _ _ _ hs]
    simp only [set_prev_next]
    rw [set_next_next _ _ _ _ hb]
  · intro z
    simp only [set_next_prev]
    rw [set_prev_prev _ _ _ _ hH, set_prev_prev _ _ _ _ hb]
    simp only [set_next_prev]

/-- Putting the in-flight block back at the front of the list of its exponent. -/
theorem WF_relink {p : BuddyPool} {fl : Nat → List Nat} {out hs : List Nat} (b k : Nat)
    (w : WF p fl out hs) (hb : b ∈ hs) (hk : (p.mem b).kval = k)
    (ht : (p.mem b).tag = BLOCK_AVAIL) :
    WF (relink p b) (Function.update fl k (b :: fl k)) out (hs.erase b) ∧
      (∀ z, (load (relink p b) z).kval = (load p z).kval) := by
  have hLb : Live fl out hs b := Or.inr (Or.inl hb)
  have hkle : k ≤ p.kval_m := by
    have := w.geo.kval_le b hLb
    simp only [hk] at this
    exact this
  have hbf := w.hs_fresh b hb
  have hmem : ∀ x, x ∈ hs.erase b ↔ x ≠ b ∧ x ∈ hs := fun x =>
    List.Nodup.mem_erase_iff w.hs_nodup
  have hH := w.head_ptr hkle
  have hHn : (p.avail (p.mem b).kval).next ≠ Ptr.null := by
    rw [hk]
    rcases hH with ⟨h, _⟩ | ⟨a, l, _, h⟩ <;> rw [h] <;> simp
  obtain ⟨e1, e2, e3, htag, hkval, hnext, hprev⟩ := relink_loads p b hHn
  rw [hk] at hnext hprev
  have hsub : ∀ j a, a ∈ Function.update fl k (b :: fl k) j →
      a ∈ fl j ∨ (j = k ∧ a = b) := by
    intro j a ha
    rcases (mem_update_iff fl k j a _).mp ha with ⟨h1, h2⟩ | ⟨_, h2⟩
    · rcases List.mem_cons.mp h2 with h | h
      · exact Or.inr ⟨h1, h⟩
      · exact Or.inl (h1 ▸ h)
    · exact Or.inl h2
  have htg : ∀ a, ((relink p b).mem a).tag = (p.mem a).tag := by
    intro a
    have := htag (Ptr.addr a)
    simpa only [load_addr] using this
  have hkv : ∀ a, ((relink p b).mem a).kval = (p.mem a).kval := by
    intro a
    have := hkval (Ptr.addr a)
    simpa only [load_addr] using this
  refine ⟨⟨?_, ?_, ?_, ?_, ?_, ?_, ?_, w.out_nodup, ?_, ?_, ?_⟩, hkval⟩
  · rw [e1]; exact w.kval_m_le
  · rw [e1, e2]; exact w.numbytes_eq
  · intro j hj
    rw [e1] at hj
    have h1 := htag (Ptr.sentinel j)
    have h2 := hkval (Ptr.sentinel j)
    simp only [load_sentinel] at h1 h2
    rw [h1, h2]
    exact w.heads j hj
  · intro j hj
    rw [e1] at hj
    by_cases hji : j = k
    · subst hji
      rw [Function.update_same]
      apply Seg_push_front p _ b (Ptr.sentinel j) (fl j) hnext hprev (w.seg j hj) (w.nodup j)
        (hbf.2 j)
      · intro c _; simp
      · simp
    · rw [Function.update_noteq hji]
      apply Seg_congr p _ (fl j) _ _ _ _ (w.seg j hj)
      · intro z hz
        have hz1 : z ≠ Ptr.sentinel k := by
          intro e
          rcases hz with hz | ⟨d, _, hz⟩
          · rw [hz] at e; injection e with e; exact hji e
          · rw [hz] at e; cases e
        have hz2 : z ≠ Ptr.addr b := by
          intro e
          rcases hz with hz | ⟨d, hd, hz⟩
          · rw [hz] at e; cases e
          · rw [hz] at e; injection e with e; exact hbf.2 j (e ▸ hd)
        rw [hnext, if_neg hz1, if_neg hz2]
      · intro z hz
        have hz1 : z ≠ (p.avail k).next := by
          intro e
          rcases hH with ⟨h, _⟩ | ⟨a, l, hfl, h⟩
          · rw [h] at e
            rcases hz with hz | ⟨d, _, hz⟩
            · rw [hz] at e; injection e with e; exact hji e
            · rw [hz] at e; cases e
          · rw [h] at e
            rcases hz with hz | ⟨d, hd, hz⟩
            · rw [hz] at e; cases e
            · rw [hz] at e; injection e with e
              have hak : a ∈ fl k := by rw [hfl]; exact List.mem_cons_self a l
              exact hji (w.fl_unique hd (e ▸ hak))
        have hz2 : z ≠ Ptr.addr b := by
          intro e
          rcases hz with hz | ⟨d, hd, hz⟩
          · rw [hz] at e; cases e
          · rw [hz] at e; injection e with e; exact hbf.2 j (e ▸ hd)
        rw [hprev, if_neg hz1, if_neg hz2]
  · intro j
    by_cases hji : j = k
    · subst hji
      rw [Function.update_same]
      exact List.nodup_cons.mpr ⟨hbf.2 j, w.nodup j⟩
    · rw [Function.update_noteq hji]; exact w.nodup j
  · intro j a ha
    rw [htg, hkv]
    rcases hsub j a ha with h | ⟨h1, h2⟩
    · exact w.free_hdr j a h
    · subst h1; subst h2
      exact ⟨ht, hk⟩
  · intro a ha
    rw [htg]
    exact w.out_hdr a ha
  · exact List.Nodup.erase b w.hs_nodup
  · intro a ha
    have ha2 := (hmem a).mp ha
    refine ⟨(w.hs_fresh a ha2.2).1, ?_⟩
    intro j hj
    rcases hsub j a hj with h | ⟨_, h2⟩
    · exact (w.hs_fresh a ha2.2).2 j h
    · exact ha2.1 h2
  · rw [e1, e3]
    apply w.geo.congr
    · intro a
      simp only [Live, hmem]
      constructor
      · rintro (h | h | ⟨j, h⟩)
        · exact Or.inl h
        · exact Or.inr (Or.inl h.2)
        · rcases hsub j a h with h | ⟨_, h2⟩
          · exact Or.inr (Or.inr ⟨j, h⟩)
          · exact Or.inr (Or.inl (h2 ▸ hb))
      · rintro (h | h | ⟨j, h⟩)
        · exact Or.inl h
        · by_cases e : a = b
          · refine Or.inr (Or.inr ⟨k, ?_⟩)
            rw [Function.update_same, e]
            exact List.mem_cons_self b _
          · exact Or.inr (Or.inl ⟨e, h⟩)
        · refine Or.inr (Or.inr ⟨j, ?_⟩)
          apply (mem_update_iff fl k j a _).mpr
          by_cases hji : j = k
          · exact Or.inl ⟨hji, List.mem_cons_of_mem b (hji ▸ h)⟩
          · exact Or.inr ⟨hji, h⟩
    · intro a _
      exact hkv a

theorem reset_loop_fields (p : BuddyPool) (n : Nat) :
    (reset_loop p n).kval_m = p.kval_m ∧ (reset_loop p n).numbytes = p.numbytes ∧
    (reset_loop p n).base = p.base ∧ (reset_loop p n).mem = p.mem ∧
    ∀ i, (reset_loop p n).avail i =
      if i < n then ⟨(p.avail i).tag, (p.avail i).kval, Ptr.sentinel i, Ptr.sentinel i⟩
      else p.avail i := by
  induction n with
  | zero => simp [reset_loop]
  | succ n ih =>
    obtain ⟨h1, h2, h3, h4, h5⟩ := ih
    refine ⟨?_, ?_, ?_, ?_, ?_⟩
    · simp [reset_loop, set_next, set_prev, h1]
    · simp [reset_loop, set_next, set_prev, h2]
    · simp [reset_loop, set_next, set_prev, h3]
    · simp [reset_loop, set_next, set_prev, store, h4]
    · intro i
      by_cases hi : i = n
      · subst hi
        simp [reset_loop, set_next, set_prev, store, h5]
      · have hlt : (i < n + 1) = (i < n) := by
          apply propext; omega
        simp [reset_loop, set_next, set_prev, store, hi, h5, hlt]

/-- The reset branch leaves every list head `0..kval_m` pointing to itself. -/
theorem reset_dead (p : BuddyPool) (b : Nat) (h1 : p.kval_m ≤ MAX_K)
    (h2 : p.numbytes = 2 ^ p.kval_m)
    (h3 : ∀ i, i ≤ p.kval_m → (p.avail i).tag = BLOCK_UNUSED ∧ (p.avail i).kval = i) :
    Dead (reset p b) := by
  obtain ⟨e1, e2, _, _, e5⟩ := reset_loop_fields p (p.kval_m + 1)
  have ha : ∀ i, (reset p b).avail i = (reset_loop p (p.kval_m + 1)).avail i := by
    intro i
    simp [reset, set_next, set_prev, store]
  refine ⟨?_, ?_, ?_, ?_⟩
  · simpa [reset, e1] using h1
  · simpa [reset, e1, e2] using h2
  · intro i hi
    have hi2 : i ≤ p.kval_m := by simpa [reset, e1] using hi
    rw [ha, e5, if_pos (by omega)]
    exact h3 i hi2
  · intro i hi
    have hi2 : i ≤ p.kval_m := by simpa [reset, e1] using hi
    rw [ha, e5, if_pos (by omega)]
    exact ⟨rfl, rfl⟩

/-! ## The loops of `buddy_malloc` and `buddy_free` -/

theorem scan_spec (p : BuddyPool) : ∀ n i,
    (scan p n i = none ∧ ∀ j, i ≤ j → j < i + n → list_nonempty p j = false) ∨
    (∃ j, scan p n i = some j ∧ i ≤ j ∧ j < i + n ∧ list_nonempty p j = true ∧
      ∀ j2, i ≤ j2 → j2 < j → list_nonempty p j2 = false) := by
  intro n
  induction n with
  | zero =>
    intro i
    left
    exact ⟨rfl, fun j h1 h2 => by omega⟩
  | succ n ih =>
    intro i
    by_cases hne : list_nonempty p i = true
    · right
      refine ⟨i, by simp [scan, hne], le_refl i, by omega, hne, fun j2 h1 h2 => by omega⟩
    · have hf : list_nonempty p i = false := by simpa using hne
      rcases ih (i + 1) with ⟨h1, h2⟩ | ⟨j, h1, h2, h3, h4, h5⟩
      · left
        refine ⟨by simp [scan, hf, h1], ?_⟩
        intro j hj1 hj2
        rcases Nat.eq_or_lt_of_le hj1 with e | e
        · exact e ▸ hf
        · exact h2 j e (by omega)
      · right
        refine ⟨j, by simp [scan, hf, h1], by omega, by omega, h4, ?_⟩
        intro j2 hj1 hj2
        rcases Nat.eq_or_lt_of_le hj1 with e | e
        · exact e ▸ hf
        · exact h5 j2 e hj2

theorem WF.nonempty_iff {p : BuddyPool} {fl : Nat → List Nat} {out hs : List Nat}
    (w : WF p fl out hs) {i : Nat} (hi : i ≤ p.kval_m) :
    list_nonempty p i = true ↔ fl i ≠ [] := by
  rcases w.head_ptr hi with ⟨h1, h2⟩ | ⟨a, l, h1, h2⟩
  · simp [list_nonempty, h1, h2]
  · simp [list_nonempty, h1, h2]

/-- The split loop keeps the pool well formed and leaves the in-flight block with the
target exponent. -/
theorem split_wf (kval b : Nat) (out hs : List Nat) (hb : b ∈ hs) :
    ∀ (n : Nat) (p : BuddyPool) (fl : Nat → List Nat), WF p fl out hs →
      (p.mem b).kval = kval + n →
      ∃ fl2, WF (split kval n p b) fl2 out hs ∧ ((split kval n p b).mem b).kval = kval ∧
        (split kval n p b).kval_m = p.kval_m ∧ (split kval n p b).base = p.base := by
  intro n
  induction n with
  | zero =>
    intro p fl w hk
    exact ⟨fl, w, hk, rfl, rfl⟩
  | succ n ih =>
    intro p fl w hk
    have hLb : Live fl out hs b := Or.inr (Or.inl hb)
    have hile : kval + n + 1 ≤ p.kval_m := by
      have := w.geo.kval_le b hLb
      simp only [hk] at this
      exact this
    have hT : (p.avail (kval + n)).prev ≠ Ptr.null := by
      rcases w.last_ptr (show kval + n ≤ p.kval_m by omega) with h | ⟨a, _, h⟩ <;>
        rw [h] <;> simp
    obtain ⟨q, hq, e1, e2, e3, htag, hkval, hnext, hprev⟩ := split_step_loads p kval n b hT
    obtain ⟨w2, hk2⟩ := WF_split b (kval + n) w hb hk e1 e2 e3 htag hkval hnext hprev
    obtain ⟨fl2, w3, hk3, e4, e5⟩ := ih q _ w2 hk2
    rw [hq]
    exact ⟨fl2, w3, hk3, by rw [e4, e1], by rw [e5, e3]⟩

/-- The coalescing loop ends, with the pool well formed around the merged block. -/
theorem coalesce_wf (out : List Nat) :
    ∀ (n : Nat) (p : BuddyPool) (fl : Nat → List Nat) (b : Nat), WF p fl out [b] →
      (p.mem b).tag = BLOCK_AVAIL → (p.mem b).kval + n = 64 →
      ∃ q b2 fl2, coalesce n p b = some (q, b2) ∧ WF q fl2 out [b2] ∧
        (q.mem b2).tag = BLOCK_AVAIL := by
  intro n
  induction n with
  | zero =>
    intro p fl b w _ hk
    have hLb : Live fl out [b] b := Or.inr (Or.inl (List.mem_singleton_self b))
    have h1 := w.geo.kval_le b hLb
    have h2 := w.kval_m_le
    simp only [MAX_K] at h2
    simp only at h1
    omega
  | succ n ih =>
    intro p fl b w ht hk
    have hLb : Live fl out [b] b := Or.inr (Or.inl (List.mem_singleton_self b))
    have hkle := w.geo.kval_le b hLb
    simp only at hkle
    unfold coalesce
    simp only
    by_cases hcond : buddy_calc p b < p.base ∨ buddy_calc p b ≥ p.base + p.numbytes ∨
        (p.mem (buddy_calc p b)).tag ≠ BLOCK_AVAIL ∨
        (p.mem (buddy_calc p b)).kval ≠ (p.mem b).kval
    · rw [if_pos hcond]
      exact ⟨p, b, fl, rfl, w, ht⟩
    · rw [if_neg hcond]
      simp only [not_or, not_lt, ge_iff_le, not_le, ne_eq, not_not] at hcond
      obtain ⟨hc1, hc2, hc3, hc4⟩ := hcond
      have hcalc : buddy_calc p b = p.base + ((b - p.base) ^^^ 2 ^ (p.mem b).kval) := rfl
      have hlt : (p.mem b).kval < p.kval_m := by
        rcases Nat.eq_or_lt_of_le hkle with e | e
        · exfalso
          have hbase := (w.geo.top b hLb e).1
          rw [hcalc, e, hbase, w.numbytes_eq] at hc2
          simp at hc2
        · exact e
      obtain ⟨hgeo, _, hLc, _⟩ := w.geo.buddy b (p.mem b).kval hLb rfl hlt
      rw [← hcalc] at hgeo hLc
      generalize buddy_calc p b = c at hc1 hc2 hc3 hc4 hgeo hLc ⊢
      generalize hkk : (p.mem b).kval = k at hc4 hgeo hlt hk
      have hpos : 0 < 2 ^ k := Nat.two_pow_pos _
      have hcb : c ≠ b := by
        rcases hgeo with ⟨h, _⟩ | ⟨h, _⟩ <;> omega
      have hck : c ∈ fl k := by
        rcases hLc with h | h | ⟨j, h⟩
        · have := w.out_hdr c h
          rw [hc3] at this
          exact absurd this (by decide)
        · exact absurd (List.mem_singleton.mp h) hcb
        · have := (w.free_hdr j c h).2
          rw [hc4] at this
          exact this ▸ h
      obtain ⟨l1, l2, hfl⟩ := List.append_of_mem hck
      obtain ⟨w1, hkv1⟩ := WF_take w k c l1 l2 (by omega) hfl
      have hkvm : ∀ a, ((unlink p c).mem a).kval = (p.mem a).kval := by
        intro a
        have := hkv1 (Ptr.addr a)
        simpa only [load_addr] using this
      have htg1 : ∀ a, ((unlink p c).mem a).tag = (p.mem a).tag := by
        intro a
        have hseg := w.seg k (by omega)
        rw [hfl] at hseg
        have hnd := w.nodup k
        rw [hfl] at hnd
        have hPm := Seg_prev_mem p c l2 _ l1 _ hseg
        have hNm := Seg_next_mem p c l2 _ l1 _ hseg
        have hc1n : c ∉ l1 := fun h =>
          (List.nodup_append.mp hnd).2.2 h (List.mem_cons_self c l2)
        have hP : (p.mem c).prev ≠ Ptr.null := by
          rcases hPm with h | ⟨d, _, h⟩ <;> rw [h] <;> simp
        have hN : (p.mem c).next ≠ Ptr.null := by
          rcases hNm with h | ⟨d, _, h⟩ <;> rw [h] <;> simp
        have hPa : (p.mem c).prev ≠ Ptr.addr c := by
          rcases hPm with h | ⟨d, hd, h⟩
          · rw [h]; simp
          · rw [h]; intro e; injection e with e; exact hc1n (e ▸ hd)
        have := (unlink_loads p c hP hN hPa).2.2.2.1 (Ptr.addr a)
        simpa only [load_addr] using this
      have hbase1 : (unlink p c).base = p.base := by
        simp [unlink]
      rcases hgeo with ⟨h1, h2⟩ | ⟨h1, _, h2⟩
      · -- the buddy is the upper half
        have hnlt : ¬ c < b := by omega
        rw [if_neg hnlt]
        have hw2 := WF_merge b c k w1 (by simp) (by simp) (by rw [hkvm, hkk])
          (by rw [hkvm, hc4]) h1 (by rw [hbase1]; exact h2)
        have herase : (c :: [b]).erase c = [b] := by simp
        rw [herase] at hw2
        rw [hkvm, hkk]
        apply ih _ _ _ hw2
        · have := set_kval_tag (unlink p c) (Ptr.addr b) (Ptr.addr b) (k + 1)
          simp only [load_addr] at this
          rw [this, htg1, ht]
        · have := set_kval_kval (unlink p c) (Ptr.addr b) (Ptr.addr b) (k + 1) (by simp)
          simp only [load_addr] at this
          rw [this]
          simp
          omega
      · -- the buddy is the lower half
        have hclt : c < b := by omega
        rw [if_pos hclt]
        have h2b : 2 ^ (k + 1) ∣ c - p.base := by
          have : p.base + (c - p.base) = c := by omega
          simpa using h2
        have hw2 := WF_merge c b k w1 (by simp) (by simp) (by rw [hkvm, hc4])
          (by rw [hkvm, hkk]) (by omega) (by rw [hbase1]; exact h2b)
        have herase : (c :: [b]).erase b = [c] := by
          simp [List.erase_cons, hcb]
        rw [herase] at hw2
        rw [hkvm, hc4]
        apply ih _ _ _ hw2
        · have := set_kval_tag (unlink p c) (Ptr.addr c) (Ptr.addr c) (k + 1)
          simp only [load_addr] at this
          rw [this, htg1, hc3]
        · have := set_kval_kval (unlink p c) (Ptr.addr c) (Ptr.addr c) (k + 1) (by simp)
          simp only [load_addr] at this
          rw [this]
          simp
          omega

/-! ## The calls preserve well-formedness -/

theorem unlink_kval_m (p : BuddyPool) (a : Nat) : (unlink p a).kval_m = p.kval_m := by
  simp [unlink]

theorem unlink_base (p : BuddyPool) (a : Nat) : (unlink p a).base = p.base := by
  simp [unlink]

/-- The pool `buddy_init` returns is well formed: list `kval_m` holds the arena. -/
theorem init_wf (size base : Nat) (p : BuddyPool)
    (h : buddy_init size (some base) = Except.ok p) :
    WF p (Function.update (fun _ => []) p.kval_m [base]) [] [] := by
  cases hk : init_kval size with
  | error f => simp [buddy_init, hk] at h
  | ok kval =>
    obtain ⟨q, hq, h1, h2, h3, h4, h5, _, h7, _⟩ := buddy_init_state size base kval hk
    rw [h] at hq
    cases hq
    have hb := (init_kval_bounds size kval hk).2
    subst h1
    subst h3
    have hLive : ∀ a, Live (Function.update (fun _ => []) p.kval_m [p.base]) [] [] a ↔
        a = p.base := by
      intro a
      simp only [Live, List.not_mem_nil, false_or]
      constructor
      · rintro ⟨i, hi⟩
        rcases (mem_update_iff _ _ _ _ _).mp hi with ⟨_, h⟩ | ⟨_, h⟩
        · simpa using h
        · simp at h
      · intro e
        exact ⟨p.kval_m, by rw [Function.update_same, e]; simp⟩
    refine ⟨hb, h2, ?_, ?_, ?_, ?_, ?_, List.nodup_nil, List.nodup_nil, ?_, ?_⟩
    · intro i hi
      rcases Nat.eq_or_lt_of_le hi with e | e
      · rw [e, h5]; exact ⟨rfl, rfl⟩
      · rw [h4 i e]; exact ⟨rfl, rfl⟩
    · intro i hi
      rcases Nat.eq_or_lt_of_le hi with e | e
      · subst e
        rw [Function.update_same]
        simp only [Seg, load_sentinel, load_addr]
        rw [h5, h7]
        exact ⟨rfl, rfl, rfl, rfl⟩
      · rw [Function.update_noteq (by omega)]
        simp only [Seg, load_sentinel]
        rw [h4 i e]
        exact ⟨rfl, rfl⟩
    · intro i
      by_cases e : i = p.kval_m
      · rw [e, Function.update_same]; exact List.nodup_singleton _
      · rw [Function.update_noteq e]; exact List.nodup_nil
    · intro i a ha
      rcases (mem_update_iff _ _ _ _ _).mp ha with ⟨e, h⟩ | ⟨_, h⟩
      · have : a = p.base := by simpa using h
        rw [this, e, h7]
        exact ⟨rfl, rfl⟩
      · simp at h
    · intro a ha; simp at ha
    · intro a ha; simp at ha
    · refine ⟨?_, ?_, ?_⟩
      · intro a ha
        have e := (hLive a).mp ha
        subst e
        rw [h7]
        simp
      · intro a b ha hb hab
        exact absurd (((hLive a).mp ha).trans ((hLive b).mp hb).symm) hab
      · intro x hx1 hx2
        refine ⟨p.base, (hLive p.base).mpr rfl, hx1, ?_⟩
        rw [h7]
        exact hx2

/-- The two ways a call of `buddy_malloc` on a well-formed pool ends. -/
theorem malloc_wf {p : BuddyPool} {fl : Nat → List Nat} {outH : List Nat}
    (w : WF p fl outH []) (size kval : Nat) (h0 : size ≠ 0)
    (hk : malloc_kval size = some kval) :
    ((∀ j, kval ≤ j → j ≤ p.kval_m → fl j = []) ∧
      buddy_malloc p size = Except.ok ⟨Ptr.null, some ENOMEM, p⟩) ∨
    (∃ i b l fl2 q, kval ≤ i ∧ i ≤ p.kval_m ∧ fl i = b :: l ∧
      buddy_malloc p size = Except.ok ⟨payload b, none, q⟩ ∧ WF q fl2 (b :: outH) [] ∧
      (q.mem b).kval = kval ∧ q.kval_m = p.kval_m ∧ q.base = p.base) := by
  unfold buddy_malloc
  rw [if_neg h0, hk]
  simp only
  rcases scan_spec p (p.kval_m + 1 - kval) kval with ⟨h1, h2⟩ | ⟨i, h1, h2, h3, h4, _⟩
  · left
    rw [h1]
    refine ⟨?_, rfl⟩
    intro j hj1 hj2
    have := h2 j hj1 (by omega)
    by_contra hne
    have := (w.nonempty_iff hj2).mpr hne
    simp_all
  · right
    have hi : i ≤ p.kval_m := by omega
    have hne := (w.nonempty_iff hi).mp h4
    rcases w.head_ptr hi with ⟨_, h5⟩ | ⟨b, l, h5, h6⟩
    · exact absurd h5 hne
    · rw [h1]
      simp only [h6]
      obtain ⟨w1, hkv1⟩ := WF_take w i b [] l hi (by simpa using h5)
      have hkb : ((unlink p b).mem b).kval = kval + (i - kval) := by
        have := hkv1 (Ptr.addr b)
        simp only [load_addr] at this
        rw [this, (w.free_hdr i b (by rw [h5]; simp)).2]
        omega
      obtain ⟨fl2, w2, hk2, e4, e5⟩ :=
        split_wf kval b outH [b] (by simp) (i - kval) _ _ w1 hkb
      have w3 := WF_reserve b w2
      refine ⟨i, b, l, fl2, _, h2, hi, h5, rfl, w3, ?_, ?_, ?_⟩
      · have := set_tag_kval (split kval (i - kval) (unlink p b) b) (Ptr.addr b) (Ptr.addr b)
          BLOCK_RESERVED
        simp only [load_addr] at this
        rw [this, hk2]
      · rw [set_tag_kval_m, e4, unlink_kval_m]
      · rw [set_tag_base, e5, unlink_base]

/-- On a pool whose list heads all point to themselves `buddy_malloc` finds nothing. -/
theorem malloc_dead {p : BuddyPool} (d : Dead p) (size kval : Nat) (h0 : size ≠ 0)
    (hk : malloc_kval size = some kval) :
    buddy_malloc p size = Except.ok ⟨Ptr.null, some ENOMEM, p⟩ := by
  unfold buddy_malloc
  rw [if_neg h0, hk]
  simp only
  rcases scan_spec p (p.kval_m + 1 - kval) kval with ⟨h1, _⟩ | ⟨i, _, h2, h3, h4, _⟩
  · rw [h1]
  · exfalso
    have := (d.idle i (by omega)).1
    simp [list_nonempty, this] at h4

/-- Freeing an outstanding block of a well-formed pool returns, and leaves the pool
well formed or, when the whole arena was merged, with every list head pointing to
itself. -/
theorem free_wf {p : BuddyPool} {fl : Nat → List Nat} {outH : List Nat}
    (w : WF p fl outH []) (a : Nat) (ha : a ∈ outH) :
    ∃ q, buddy_free p (payload a) = Except.ok q ∧
      ((∃ fl2, WF q fl2 (outH.erase a) []) ∨ (Dead q ∧ outH.erase a = [])) := by
  have hLa : Live fl outH [] a := Or.inl ha
  obtain ⟨g1, _, g3⟩ := w.geo.geom a hLa
  have hpos : 0 < 2 ^ (p.mem a).kval := Nat.two_pow_pos _
  have hkle := w.geo.kval_le a hLa
  simp only at hkle
  have hm := w.kval_m_le
  simp only [MAX_K] at hm
  obtain ⟨w1, ht1, hk1⟩ := WF_release a w ha
  obtain ⟨q, b, fl2, hco, w2, ht2⟩ := coalesce_wf (outH.erase a) (64 - (p.mem a).kval) _ fl a w1
    ht1 (by rw [hk1]; omega)
  have hfree : buddy_free p (payload a) = Except.ok (reinsert q b) := by
    unfold buddy_free payload
    simp only
    rw [if_neg (by omega)]
    have e : a + sizeof_avail - sizeof_avail = a := by omega
    rw [e, if_neg (by rw [w.numbytes_eq]; omega), hk1, hco]
  refine ⟨reinsert q b, hfree, ?_⟩
  obtain ⟨w3, _⟩ := WF_relink b (q.mem b).kval w2 (by simp) rfl ht2
  have herase : [b].erase b = [] := by simp
  rw [herase] at w3
  unfold reinsert
  simp only
  by_cases hc : ((relink q b).mem b).kval = (relink q b).kval_m ∧ b = (relink q b).base
  · rw [if_pos hc]
    right
    refine ⟨reset_dead _ b w3.kval_m_le w3.numbytes_eq w3.heads, ?_⟩
    have hbf : b ∈ Function.update fl2 (q.mem b).kval (b :: fl2 (q.mem b).kval) (q.mem b).kval := by
      rw [Function.update_same]; exact List.mem_cons_self _ _
    have hLb := w3.live_fl hbf
    have htop := (w3.geo.top b hLb hc.1).2
    cases hout : outH.erase a with
    | nil => rfl
    | cons c l =>
      exfalso
      have hcm : c ∈ outH.erase a := by rw [hout]; exact List.mem_cons_self c l
      have := htop c (Or.inl hcm)
      exact w3.out_not_fl (this ▸ hcm) hbf
  · rw [if_neg hc]
    exact Or.inl ⟨_, w3⟩

/-- On a reachable pool `buddy_free` of an outstanding pointer returns. -/
theorem free_returns_of_inv (p : BuddyPool) (out : List Ptr) (hinv : Inv p out) (ptr : Ptr)
    (hm : ptr ∈ out) : ∃ q, buddy_free p ptr = Except.ok q := by
  rcases hinv with ⟨fl, outH, ho, w⟩ | ⟨_, ho⟩
  · rw [ho] at hm
    obtain ⟨a, ha, hpa⟩ := List.mem_map.mp hm
    obtain ⟨q, hq, _⟩ := free_wf w a ha
    exact ⟨q, hpa ▸ hq⟩
  · rw [ho] at hm
    simp at hm

theorem payload_injective : Function.Injective payload := by
  intro a b h
  simp only [payload, Ptr.addr.injEq] at h
  omega

/-- Every reachable pool satisfies the invariant. -/
theorem reachable_inv (p : BuddyPool) (out : List Ptr) (h : Reachable p out) : Inv p out := by
  induction h with
  | init size base p h =>
    exact Or.inl ⟨_, [], rfl, init_wf size base p h⟩
  | malloc p out size r _ hr ih =>
    have h0 : size ≠ 0 := by
      intro e
      simp [buddy_malloc, e] at hr
    cases hk : malloc_kval size with
    | none => simp [buddy_malloc, h0, hk] at hr
    | some kval =>
      rcases ih with ⟨fl, outH, ho, w⟩ | ⟨d, ho⟩
      · rcases malloc_wf w size kval h0 hk with ⟨_, h2⟩ | ⟨i, b, l, fl2, q, _, _, _, h2, w2, _⟩
        · rw [hr] at h2
          cases h2
          exact Or.inl ⟨fl, outH, by simpa using ho, w⟩
        · rw [hr] at h2
          cases h2
          refine Or.inl ⟨fl2, b :: outH, ?_, w2⟩
          simp [payload, ho]
      · have h2 := malloc_dead d size kval h0 hk
        rw [hr] at h2
        cases h2
        exact Or.inr ⟨d, by simpa using ho⟩
  | free p out ptr q _ hm hf ih =>
    rcases ih with ⟨fl, outH, ho, w⟩ | ⟨_, ho⟩
    · rw [ho] at hm
      obtain ⟨a, ha, hpa⟩ := List.mem_map.mp hm
      obtain ⟨q2, hq2, hres⟩ := free_wf w a ha
      rw [← hpa, hq2] at hf
      cases hf
      have herase : out.erase ptr = (outH.erase a).map payload := by
        rw [ho, ← hpa, List.map_erase payload_injective]
      rcases hres with ⟨fl2, w2⟩ | ⟨d, he⟩
      · exact Or.inl ⟨fl2, outH.erase a, herase, w2⟩
      · exact Or.inr ⟨d, by rw [herase, he]; rfl⟩
    · rw [ho] at hm
      simp at hm

theorem shift_loop_le (bytes : Nat) : ∀ n k r, shift_loop bytes n k = some r →
    bytes ≤ 2 ^ r ∧ k ≤ r := by
  intro n
  induction n with
  | zero => intro k r h; simp [shift_loop] at h
  | succ n ih =>
    intro k r h
    unfold shift_loop at h
    by_cases hlt : 2 ^ k < bytes
    · rw [if_pos hlt] at h
      have := ih (k + 1) r h
      exact ⟨this.1, by omega⟩
    · rw [if_neg hlt] at h
      cases h
      exact ⟨by omega, le_refl k⟩

theorem demo_init_reachable : Reachable demo_init [] :=
  Reachable.init (2 ^ MIN_K) 4096 demo_init rfl

theorem demo_first_reachable : Reachable demo_first.pool [payload 4096] :=
  Reachable.malloc demo_init [] 1 demo_first demo_init_reachable rfl

theorem demo_second_reachable :
    Reachable demo_second.pool [payload (4096 + 2 ^ MIN_K), payload 4096] :=
  Reachable.malloc demo_first.pool [payload 4096] 1 demo_second demo_first_reachable rfl

/-! ## Flipping one bit of an offset -/

theorem xor_two_pow_ne (o k : Nat) : o ^^^ 2 ^ k ≠ o := by
  intro h
  have h1 : (o ^^^ 2 ^ k) ^^^ o = 0 := by rw [h]; exact Nat.xor_self o
  rw [Nat.xor_comm, ← Nat.xor_assoc, Nat.xor_self, Nat.zero_xor] at h1
  have := Nat.two_pow_pos k
  omega

/-- Adding a multiple of `2^(k+1)` commutes with flipping bit `k`. -/
theorem add_xor_two_pow (k : Nat) : ∀ c x, 2 ^ (k + 1) ∣ c →
    (c + x) ^^^ 2 ^ k = c + (x ^^^ 2 ^ k) := by
  induction k with
  | zero =>
    intro c x hc
    have hc2 : c % 2 = 0 := Nat.mod_eq_zero_of_dvd (by simpa using hc)
    rcases xor_one_cases (c + x) with ⟨h1, h2⟩ | ⟨h1, h2⟩ <;>
      rcases xor_one_cases x with ⟨h3, h4⟩ | ⟨h3, h4⟩ <;>
      simp only [pow_zero] <;> omega
  | succ k ih =>
    intro c x hc
    obtain ⟨q, hq⟩ := hc
    have hc2 : c = 2 * (2 ^ (k + 1) * q) := by rw [hq, pow_succ 2 (k + 1)]; ring
    have hd : 2 ^ (k + 1) ∣ 2 ^ (k + 1) * q := Dvd.intro _ rfl
    have hp : 2 ^ (k + 1) = 2 * 2 ^ k := by rw [pow_succ]; ring
    have e1 : ((c + x) ^^^ 2 ^ (k + 1)) / 2 = (2 ^ (k + 1) * q + x / 2) ^^^ 2 ^ k := by
      have h1 : (c + x) / 2 = 2 ^ (k + 1) * q + x / 2 := by omega
      have h2 : 2 ^ (k + 1) / 2 = 2 ^ k := by omega
      rw [Nat.xor_div_two, h1, h2]
    have e2 : ((c + x) ^^^ 2 ^ (k + 1)) % 2 = x % 2 := by
      rw [Nat.xor_mod_two_eq]; omega
    have e3 : (x ^^^ 2 ^ (k + 1)) / 2 = (x / 2) ^^^ 2 ^ k := by
      have h2 : 2 ^ (k + 1) / 2 = 2 ^ k := by omega
      rw [Nat.xor_div_two, h2]
    have e4 : (x ^^^ 2 ^ (k + 1)) % 2 = x % 2 := by
      rw [Nat.xor_mod_two_eq]; omega
    rw [ih _ (x / 2) hd] at e1
    omega

/-! ## The free lists a call of `buddy_malloc` leaves -/

theorem split_fl_apply (kval b : Nat) : ∀ (n : Nat) (fl : Nat → List Nat) (i : Nat),
    split_fl kval b n fl i =
      if kval ≤ i ∧ i < kval + n then fl i ++ [b + 2 ^ i] else fl i := by
  intro n
  induction n with
  | zero =>
    intro fl i
    have h1 : ¬ (kval ≤ i ∧ i < kval + 0) := by omega
    rw [if_neg h1]
    rfl
  | succ n ih =>
    intro fl i
    show split_fl kval b n _ i = _
    rw [ih]
    by_cases hi : i = kval + n
    · subst hi
      have h1 : ¬ (kval ≤ kval + n ∧ kval + n < kval + n) := by omega
      have h2 : kval ≤ kval + n ∧ kval + n < kval + (n + 1) := by omega
      rw [if_neg h1, if_pos h2, Function.update_same]
    · rw [Function.update_noteq hi]
      by_cases h1 : kval ≤ i ∧ i < kval + n
      · have h2 : kval ≤ i ∧ i < kval + (n + 1) := by omega
        rw [if_pos h1, if_pos h2]
      · have h2 : ¬ (kval ≤ i ∧ i < kval + (n + 1)) := by omega
        rw [if_neg h1, if_neg h2]

/-- The split loop keeps the pool well formed, with the free lists `split_fl`. -/
theorem split_wf_fl (kval b : Nat) (out hs : List Nat) (hb : b ∈ hs) :
    ∀ (n : Nat) (p : BuddyPool) (fl : Nat → List Nat), WF p fl out hs →
      (p.mem b).kval = kval + n →
      WF (split kval n p b) (split_fl kval b n fl) out hs ∧
        ((split kval n p b).mem b).kval = kval ∧
        (split kval n p b).kval_m = p.kval_m ∧ (split kval n p b).base = p.base := by
  intro n
  induction n with
  | zero =>
    intro p fl w hk
    exact ⟨w, hk, rfl, rfl⟩
  | succ n ih =>
    intro p fl w hk
    have hLb : Live fl out hs b := Or.inr (Or.inl hb)
    have hile : kval + n + 1 ≤ p.kval_m := by
      have := w.geo.kval_le b hLb
      simp only [hk] at this
      exact this
    have hT : (p.avail (kval + n)).prev ≠ Ptr.null := by
      rcases w.last_ptr (show kval + n ≤ p.kval_m by omega) with h | ⟨a, _, h⟩ <;>
        rw [h] <;> simp
    obtain ⟨q, hq, e1, e2, e3, htag, hkval, hnext, hprev⟩ := split_step_loads p kval n b hT
    obtain ⟨w2, hk2⟩ := WF_split b (kval + n) w hb hk e1 e2 e3 htag hkval hnext hprev
    obtain ⟨w3, hk3, e4, e5⟩ := ih q _ w2 hk2
    rw [hq]
    exact ⟨w3, hk3, by rw [e4, e1], by rw [e5, e3]⟩

/-- The two ways a call of `buddy_malloc` on a well-formed pool ends, with the list the
block came from and the free lists left. -/
theorem malloc_wf_fl {p : BuddyPool} {fl : Nat → List Nat} {outH : List Nat}
    (w : WF p fl outH []) (size kval : Nat) (h0 : size ≠ 0)
    (hk : malloc_kval size = some kval) :
    ((∀ j, kval ≤ j → j ≤ p.kval_m → fl j = []) ∧
      buddy_malloc p size = Except.ok ⟨Ptr.null, some ENOMEM, p⟩) ∨
    (∃ i b l q, kval ≤ i ∧ i ≤ p.kval_m ∧ fl i = b :: l ∧
      (∀ j, kval ≤ j → j < i → fl j = []) ∧
      buddy_malloc p size = Except.ok ⟨payload b, none, q⟩ ∧
      WF q (split_fl kval b (i - kval) (Function.update fl i l)) (b :: outH) [] ∧
      (q.mem b).kval = kval ∧ q.kval_m = p.kval_m ∧ q.base = p.base) := by
  unfold buddy_malloc
  rw [if_neg h0, hk]
  simp only
  rcases scan_spec p (p.kval_m + 1 - kval) kval with ⟨h1, h2⟩ | ⟨i, h1, h2, h3, h4, h7⟩
  · left
    rw [h1]
    refine ⟨?_, rfl⟩
    intro j hj1 hj2
    have := h2 j hj1 (by omega)
    by_contra hne
    have := (w.nonempty_iff hj2).mpr hne
    simp_all
  · right
    have hi : i ≤ p.kval_m := by omega
    have hne := (w.nonempty_iff hi).mp h4
    rcases w.head_ptr hi with ⟨_, h5⟩ | ⟨b, l, h5, h6⟩
    · exact absurd h5 hne
    · rw [h1]
      simp only [h6]
      obtain ⟨w1, hkv1⟩ := WF_take w i b [] l hi (by simpa using h5)
      have hkb : ((unlink p b).mem b).kval = kval + (i - kval) := by
        have := hkv1 (Ptr.addr b)
        simp only [load_addr] at this
        rw [this, (w.free_hdr i b (by rw [h5]; simp)).2]
        omega
      obtain ⟨w2, hk2, e4, e5⟩ :=
        split_wf_fl kval b outH [b] (by simp) (i - kval) _ _ w1 hkb
      have w3 := WF_reserve b w2
      refine ⟨i, b, l, _, h2, hi, h5, ?_, rfl, by simpa using w3, ?_, ?_, ?_⟩
      · intro j hj1 hj2
        have := h7 j hj1 hj2
        by_contra hne2
        have := (w.nonempty_iff (show j ≤ p.kval_m by omega)).mpr hne2
        simp_all
      · have := set_tag_kval (split kval (i - kval) (unlink p b) b) (Ptr.addr b) (Ptr.addr b)
          BLOCK_RESERVED
        simp only [load_addr] at this
        rw [this, hk2]
      · rw [set_tag_kval_m, e4, unlink_kval_m]
      · rw [set_tag_base, e5, unlink_base]

/-! ## Claims on `btok` and `buddy_init` -/

/-- C6: for `bytes > 0` with `bytes + sizeof(struct avail) <= 2^63`, `btok` returns the
least `k` with `2^k >= bytes + sizeof(struct avail)`; in particular `btok(2^n - H) = n`. -/
theorem btok_least (bytes : Nat) (h0 : 0 < bytes) (h : bytes + sizeof_avail ≤ 2 ^ 63) :
    (∃ k, btok bytes = Except.ok k ∧ bytes + sizeof_avail ≤ 2 ^ k ∧
      ∀ j, bytes + sizeof_avail ≤ 2 ^ j → k ≤ j) ∧
    ∀ n, bytes = 2 ^ n - sizeof_avail → btok bytes = Except.ok n := by
  obtain ⟨r, hbt, hle, hleast⟩ := btok_spec bytes h0 h
  refine ⟨⟨r, hbt, hle, hleast⟩, ?_⟩
  intro n hn
  have hsum : bytes + sizeof_avail = 2 ^ n := by omega
  have h1 : r ≤ n := hleast n (by omega)
  have h2 : n ≤ r := by
    rw [hsum] at hle
    exact (Nat.pow_le_pow_iff_right (by decide)).mp hle
  have : r = n := by omega
  rw [hbt, this]

/-- A payload of 40 bytes is `2^6 - 24`, and `btok` sends it to 6. -/
theorem btok_least_witness :
    0 < 40 ∧ 40 + sizeof_avail ≤ 2 ^ 63 ∧ btok 40 = Except.ok 6 :=
  ⟨by decide, by decide, (btok_least 40 (by decide) (by decide)).2 6 (by decide)⟩

/-- C7: `btok` adds the header size before rounding, so the values asserted by
`test_btok_exact_power_of_two`, `test_btok_non_power_of_two` and
`test_btok_large_values` are not the ones it returns. -/
theorem btok_test_values :
    btok 1 = Except.ok 5 ∧ btok 2 = Except.ok 5 ∧ btok 16 = Except.ok 6 ∧
    btok 1024 = Except.ok 11 ∧ btok (2 ^ 20) = Except.ok 21 ∧
    btok 3 = Except.ok 5 ∧ btok 17 = Except.ok 6 ∧ btok 5000 = Except.ok 13 :=
  ⟨rfl, rfl, rfl, rfl, rfl, rfl, rfl, rfl⟩

/-- C8: `buddy_init(pool, 2^n)` runs `btok(2^n)`, which adds the header size before
rounding: for `n = MIN_K` the pool gets `kval_m = MIN_K + 1` and `2^(MIN_K+1)` bytes, and
after the allocation of `test_buddy_malloc_one_large` list `MIN_K` still holds a block,
so `check_buddy_pool_empty` fails. -/
theorem buddy_init_pow_two_kval :
    (buddy_init (2 ^ MIN_K) (some 4096)).map (fun p => (p.kval_m, p.numbytes))
      = Except.ok (MIN_K + 1, 2 ^ (MIN_K + 1)) ∧
    ((buddy_init (2 ^ MIN_K) (some 4096)).bind fun p =>
      (buddy_malloc p (2 ^ MIN_K - sizeof_avail)).map fun r =>
        (decide (r.ptr = Ptr.addr (4096 + sizeof_avail)), (r.pool.mem 4096).kval,
          (r.pool.avail MIN_K).next, check_buddy_pool_empty r.pool))
      = Except.ok (true, MIN_K, Ptr.addr (4096 + 2 ^ MIN_K), false) :=
  ⟨rfl, rfl⟩

/-- C9: whenever `buddy_init` returns, the pool satisfies `check_buddy_pool_full`:
`numbytes = 2^kval_m`, every list head below `kval_m` points to itself with tag
`BLOCK_UNUSED` and its own index, and list `kval_m` holds exactly the block at `base`,
tagged `BLOCK_AVAIL` with `kval = kval_m`, linked both ways with its list head.  It
returns for every size with `size + sizeof(struct avail) <= 2^63`, and size 0 selects
`DEFAULT_K`. -/
theorem buddy_init_full (size base : Nat) :
    (∀ p, buddy_init size (some base) = Except.ok p →
      check_buddy_pool_full p = true ∧ p.numbytes = 2 ^ p.kval_m ∧ p.base = base ∧
      (∀ i, i < p.kval_m →
        p.avail i = ⟨BLOCK_UNUSED, i, Ptr.sentinel i, Ptr.sentinel i⟩) ∧
      p.avail p.kval_m = ⟨BLOCK_UNUSED, p.kval_m, Ptr.addr base, Ptr.addr base⟩ ∧
      p.mem base = ⟨BLOCK_AVAIL, p.kval_m, Ptr.sentinel p.kval_m, Ptr.sentinel p.kval_m⟩ ∧
      (size = 0 → p.kval_m = DEFAULT_K)) ∧
    (size + sizeof_avail ≤ 2 ^ 63 → ∃ p, buddy_init size (some base) = Except.ok p) := by
  constructor
  · intro p hp
    cases hk : init_kval size with
    | error f => simp [buddy_init, hk] at hp
    | ok kval =>
      obtain ⟨q, hq, h1, h2, h3, h4, h5, _, h7, _⟩ := buddy_init_state size base kval hk
      rw [hp] at hq
      cases hq
      refine ⟨?_, by rw [h2, h1], h3, by rw [h1]; exact h4, by rw [h1]; exact h5,
        by rw [h1]; exact h7, ?_⟩
      · simp only [check_buddy_pool_full, h1, h5, h3, load_addr, h7, Bool.and_eq_true,
          decide_eq_true_eq, List.all_eq_true, List.mem_range, and_true]
        intro i hi
        simp [sentinel_idle, h4 i hi]
      · intro h0
        rw [h1]
        simp [init_kval, h0, Except.map, DEFAULT_K, MIN_K, MAX_K] at hk
        simp [DEFAULT_K, ← hk]
  · intro h
    obtain ⟨kval, hk⟩ := init_kval_some size h
    obtain ⟨q, hq, _⟩ := buddy_init_state size base kval hk
    exact ⟨q, hq⟩

/-- The default pool: size 0 on a region mapped at 4096. -/
theorem buddy_init_full_witness :
    (buddy_init 0 (some 4096)).map (fun p => (check_buddy_pool_full p, p.kval_m))
      = Except.ok (true, DEFAULT_K) ∧
    ∃ p, buddy_init 0 (some 4096) = Except.ok p :=
  ⟨rfl, (buddy_init_full 0 4096).2 (by decide)⟩

/-- C10: the clamp of `buddy_init` tests `kval > MAX_K`, so the size class `MAX_K`
itself passes: a request of `2^47` bytes has `btok = 48` and the pool gets
`kval_m = MAX_K = 48` and `numbytes = 2^48`. -/
theorem buddy_init_reaches_max_k :
    (buddy_init (2 ^ 47) (some 4096)).map (fun p => (p.kval_m, p.numbytes))
      = Except.ok (MAX_K, 2 ^ MAX_K) :=
  rfl

/-! ## Allocate-then-free runs -/

theorem members_sentinel (p : BuddyPool) (n i : Nat) : members p n (Ptr.sentinel i) = [] := by
  cases n <;> rfl

set_option maxRecDepth 100000 in
/-- C1: the reset branch of `buddy_free` points list head `kval_m` at itself after the
block has been reinserted, so after the last free list `kval_m` is empty and
`check_buddy_pool_full` fails: for one 1-byte allocation on a pool initialised with
`2^MIN_K`, and for allocations of 32, 128 and 512 bytes freed in each of the six
orders. -/
theorem round_trip_not_full :
    (round_trip (2 ^ MIN_K) 4096 [1] [0]).map
        (fun q => (check_buddy_pool_full q, (q.avail q.kval_m).next, (q.avail q.kval_m).prev))
      = Except.ok (false, Ptr.sentinel (MIN_K + 1), Ptr.sentinel (MIN_K + 1)) ∧
    (buddy_init (2 ^ MIN_K) (some 4096)).map
        (fun q => (check_buddy_pool_full q, (q.avail q.kval_m).next, (q.avail q.kval_m).prev))
      = Except.ok (true, Ptr.addr 4096, Ptr.addr 4096) ∧
    ([[0, 1, 2], [0, 2, 1], [1, 0, 2], [1, 2, 0], [2, 0, 1], [2, 1, 0]].map fun order =>
      (round_trip (2 ^ DEFAULT_K) 4096 [32, 128, 512] order).map
        (fun q => (check_buddy_pool_full q, (q.avail q.kval_m).next)))
      = List.replicate 6 (Except.ok (false, Ptr.sentinel (DEFAULT_K + 1))) :=
  ⟨rfl, rfl, rfl⟩

/-- C3: after `buddy_init(2^MIN_K)`, `buddy_malloc(1)` and `buddy_free` of the returned
pointer nothing is outstanding and every free list `0..kval_m` is empty, so the sizes
of the free and outstanding blocks sum to 0, not to `2^kval_m`; a further
`buddy_malloc(1)` returns `NULL`. -/
theorem round_trip_loses_arena :
    ∃ q, round_trip (2 ^ MIN_K) 4096 [1] [0] = Except.ok q ∧ q.kval_m = MIN_K + 1 ∧
      (∀ fuel, free_bytes q fuel + reserved_bytes q [] = 0) ∧
      (buddy_malloc q 1).map (fun r => (r.ptr, r.errno)) = Except.ok (Ptr.null, some ENOMEM) := by
  refine ⟨final_pool (round_trip (2 ^ MIN_K) 4096 [1] [0]), rfl, rfl, ?_, rfl⟩
  intro fuel
  have hk : (final_pool (round_trip (2 ^ MIN_K) 4096 [1] [0])).kval_m = 21 := rfl
  have hs : ∀ i, i < 22 →
      ((final_pool (round_trip (2 ^ MIN_K) 4096 [1] [0])).avail i).next = Ptr.sentinel i := by
    decide
  have hz : ∀ i ∈ List.range 22,
      ((members (final_pool (round_trip (2 ^ MIN_K) 4096 [1] [0])) fuel
        ((final_pool (round_trip (2 ^ MIN_K) 4096 [1] [0])).avail i).next).map fun a =>
          2 ^ ((final_pool (round_trip (2 ^ MIN_K) 4096 [1] [0])).mem a).kval).sum = 0 := by
    intro i hi
    rw [hs i (List.mem_range.mp hi), members_sentinel]
    rfl
  simp only [free_bytes, reserved_bytes, hk, List.map_nil, List.sum_nil, Nat.add_zero]
  rw [List.map_congr_left hz]
  simp

/-! ## Claims on reachable pools -/

/-- C2: in every reachable pool the outstanding allocations are distinct, each
outstanding block `[off, off + 2^kval)` lies inside the arena `[0, 2^kval_m)`, two
distinct outstanding blocks are disjoint, and no outstanding block overlaps a member of
a free list. -/
theorem outstanding_disjoint (p : BuddyPool) (out : List Ptr) (h : Reachable p out) :
    out.Nodup ∧
    (∀ x, x ∈ out → ∃ a, x = payload a ∧ p.base ≤ a ∧
      a - p.base + 2 ^ (p.mem a).kval ≤ 2 ^ p.kval_m) ∧
    (∀ a b, payload a ∈ out → payload b ∈ out → a ≠ b →
      a - p.base + 2 ^ (p.mem a).kval ≤ b - p.base ∨
      b - p.base + 2 ^ (p.mem b).kval ≤ a - p.base) ∧
    (∀ a i b, payload a ∈ out → i ≤ p.kval_m → InList p i b →
      p.base ≤ b ∧
      (a - p.base + 2 ^ (p.mem a).kval ≤ b - p.base ∨
       b - p.base + 2 ^ (p.mem b).kval ≤ a - p.base)) := by
  rcases reachable_inv p out h with ⟨fl, outH, ho, w⟩ | ⟨_, ho⟩
  · have hmem : ∀ a, payload a ∈ out ↔ a ∈ outH := by
      intro a
      rw [ho]
      exact List.mem_map_of_injective payload_injective
    have key : ∀ a b, Live fl outH [] a → Live fl outH [] b → a ≠ b →
        p.base ≤ a ∧ p.base ≤ b ∧
        (a - p.base + 2 ^ (p.mem a).kval ≤ b - p.base ∨
         b - p.base + 2 ^ (p.mem b).kval ≤ a - p.base) := by
      intro a b ha hb hab
      have h1 := (w.geo.geom a ha).1
      have h2 := (w.geo.geom b hb).1
      have h3 := w.geo.disj a b ha hb hab
      simp only at h3
      refine ⟨h1, h2, ?_⟩
      omega
    refine ⟨?_, ?_, ?_, ?_⟩
    · rw [ho]
      exact List.Nodup.map payload_injective w.out_nodup
    · intro x hx
      rw [ho] at hx
      obtain ⟨a, ha, hxa⟩ := List.mem_map.mp hx
      have hg := w.geo.geom a (Or.inl ha)
      exact ⟨a, hxa.symm, hg.1, hg.2.2⟩
    · intro a b ha hb hab
      exact (key a b (Or.inl ((hmem a).mp ha)) (Or.inl ((hmem b).mp hb)) hab).2.2
    · intro a i b ha hi hb
      have hbf : b ∈ fl i := (InList_iff_mem p i b (fl i) (w.seg i hi)).mp hb
      have hao := (hmem a).mp ha
      have hab : a ≠ b := fun e => w.out_not_fl hao (e ▸ hbf)
      have := key a b (Or.inl hao) (w.live_fl hbf) hab
      exact ⟨this.2.1, this.2.2⟩
  · subst ho
    simp

/-- Two 1-byte allocations on a pool of `2^21` bytes mapped at 4096: the blocks at
offsets 0 and `2^20` are disjoint. -/
theorem outstanding_disjoint_witness :
    Reachable demo_second.pool [payload (4096 + 2 ^ MIN_K), payload 4096] ∧
    (4096 - demo_second.pool.base + 2 ^ (demo_second.pool.mem 4096).kval
        ≤ 4096 + 2 ^ MIN_K - demo_second.pool.base ∨
      4096 + 2 ^ MIN_K - demo_second.pool.base
        + 2 ^ (demo_second.pool.mem (4096 + 2 ^ MIN_K)).kval ≤ 4096 - demo_second.pool.base) :=
  ⟨demo_second_reachable,
    (outstanding_disjoint _ _ demo_second_reachable).2.2.1 4096 (4096 + 2 ^ MIN_K)
      (by simp) (by simp) (by decide)⟩

/-- C4: on a reachable pool, for `size > 0` with `size + sizeof(struct avail)`
representable, a non-`NULL` result of `buddy_malloc` is the address just past the header
of a block tagged `BLOCK_RESERVED` that is in no free list and whose usable capacity
`2^kval - sizeof(struct avail)` is at least `size`. -/
theorem malloc_block (p : BuddyPool) (out : List Ptr) (h : Reachable p out) (size : Nat)
    (r : MallocRet) (h0 : 0 < size) (hrep : size + sizeof_avail < 2 ^ 64)
    (hr : buddy_malloc p size = Except.ok r) (hnn : r.ptr ≠ Ptr.null) :
    ∃ block, r.ptr = Ptr.addr (block + sizeof_avail) ∧
      (r.pool.mem block).tag = BLOCK_RESERVED ∧
      (∀ i, i ≤ r.pool.kval_m → ¬ InList r.pool i block) ∧
      sizeof_avail ≤ 2 ^ (r.pool.mem block).kval ∧
      size ≤ 2 ^ (r.pool.mem block).kval - sizeof_avail := by
  have hs0 : size ≠ 0 := by omega
  cases hk : malloc_kval size with
  | none => simp [buddy_malloc, hs0, hk] at hr
  | some kval =>
    have hle := (shift_loop_le _ _ _ _ hk).1
    rw [Nat.mod_eq_of_lt hrep] at hle
    rcases reachable_inv p out h with ⟨fl, outH, _, w⟩ | ⟨d, _⟩
    · rcases malloc_wf w size kval hs0 hk with ⟨_, h2⟩ | ⟨i, b, l, fl2, q, _, _, _, h2, w2, hkv, _⟩
      · rw [hr] at h2
        cases h2
        exact absurd rfl hnn
      · rw [hr] at h2
        cases h2
        refine ⟨b, rfl, w2.out_hdr b (List.mem_cons_self b outH), ?_, ?_, ?_⟩
        · intro j hj hin
          have := (InList_iff_mem q j b (fl2 j) (w2.seg j hj)).mp hin
          exact w2.out_not_fl (List.mem_cons_self b outH) this
        · show sizeof_avail ≤ 2 ^ (q.mem b).kval
          rw [hkv]; omega
        · show size ≤ 2 ^ (q.mem b).kval - sizeof_avail
          rw [hkv]; omega
    · have h2 := malloc_dead d size kval hs0 hk
      rw [hr] at h2
      cases h2
      exact absurd rfl hnn

/-- The first 1-byte allocation on the fresh pool returns a block of `2^20` bytes. -/
theorem malloc_block_witness :
    Reachable demo_init [] ∧ 0 < 1 ∧ 1 + sizeof_avail < 2 ^ 64 ∧
    buddy_malloc demo_init 1 = Except.ok demo_first ∧ demo_first.ptr ≠ Ptr.null ∧
    ∃ block, demo_first.ptr = Ptr.addr (block + sizeof_avail) ∧
      (demo_first.pool.mem block).tag = BLOCK_RESERVED ∧
      (∀ i, i ≤ demo_first.pool.kval_m → ¬ InList demo_first.pool i block) ∧
      sizeof_avail ≤ 2 ^ (demo_first.pool.mem block).kval ∧
      1 ≤ 2 ^ (demo_first.pool.mem block).kval - sizeof_avail :=
  ⟨demo_init_reachable, by decide, by decide, rfl, by decide,
    malloc_block demo_init [] demo_init_reachable 1 demo_first (by decide) (by decide) rfl
      (by decide)⟩

/-- C5: on a reachable pool, for `size > 0` with target class `k`, `buddy_malloc`
returns, and it returns `NULL` exactly when every free list `k..kval_m` is empty (list
head `next` and `prev` point to the head); it then sets `errno` to `ENOMEM` and leaves
the pool as it was. -/
theorem malloc_null_iff (p : BuddyPool) (out : List Ptr) (h : Reachable p out)
    (size k : Nat) (h0 : 0 < size) (hk : malloc_kval size = some k) :
    ∃ r, buddy_malloc p size = Except.ok r ∧
      (r.ptr = Ptr.null ↔ ∀ i, k ≤ i → i ≤ p.kval_m →
        (p.avail i).next = Ptr.sentinel i ∧ (p.avail i).prev = Ptr.sentinel i) ∧
      (r.ptr = Ptr.null → r.errno = some ENOMEM ∧ r.pool = p) := by
  have hs0 : size ≠ 0 := by omega
  rcases reachable_inv p out h with ⟨fl, outH, _, w⟩ | ⟨d, _⟩
  · rcases malloc_wf w size k hs0 hk with ⟨h1, h2⟩ | ⟨i, b, l, fl2, q, h1, h3, h4, h2, _⟩
    · refine ⟨_, h2, ?_, fun _ => ⟨rfl, rfl⟩⟩
      constructor
      · intro _ i hi1 hi2
        have hseg := w.seg i hi2
        rw [h1 i hi1 hi2] at hseg
        exact hseg
      · intro _; rfl
    · refine ⟨_, h2, ?_, ?_⟩
      · constructor
        · intro e; simp [payload] at e
        · intro hall
          exfalso
          have hseg := w.seg i h3
          rw [h4] at hseg
          have h5 := (hall i h1 h3).1
          have h6 : (p.avail i).next = Ptr.addr b := hseg.1
          rw [h6] at h5
          cases h5
      · intro e; simp [payload] at e
  · refine ⟨_, malloc_dead d size k hs0 hk, ?_, fun _ => ⟨rfl, rfl⟩⟩
    constructor
    · intro _ i _ hi2
      exact d.idle i hi2
    · intro _; rfl

/-- A 1-byte request on the fresh pool has target class `MIN_K` and does not return
`NULL`: list `MIN_K + 1` holds the arena. -/
theorem malloc_null_iff_witness :
    Reachable demo_init [] ∧ 0 < 1 ∧ malloc_kval 1 = some MIN_K ∧
    ∃ r, buddy_malloc demo_init 1 = Except.ok r ∧
      (r.ptr = Ptr.null ↔ ∀ i, MIN_K ≤ i → i ≤ demo_init.kval_m →
        (demo_init.avail i).next = Ptr.sentinel i ∧
        (demo_init.avail i).prev = Ptr.sentinel i) ∧
      (r.ptr = Ptr.null → r.errno = some ENOMEM ∧ r.pool = demo_init) :=
  ⟨demo_init_reachable, by decide, rfl,
    malloc_null_iff demo_init [] demo_init_reachable 1 MIN_K (by decide) rfl⟩

/-! ## Further lemmas -/

theorem add_xor_self_pow (o i : Nat) (h : 2 ^ (i + 1) ∣ o) :
    o ^^^ 2 ^ i = o + 2 ^ i ∧ (o + 2 ^ i) ^^^ 2 ^ i = o := by
  have h1 := add_xor_two_pow i o 0 h
  have h2 := add_xor_two_pow i o (2 ^ i) h
  simp only [Nat.add_zero, Nat.zero_xor, Nat.xor_self] at h1 h2
  exact ⟨h1, h2⟩

/-- A list of one member, as pointers. -/
theorem Seg_single (p : BuddyPool) (i c : Nat)
    (h : Seg p (Ptr.sentinel i) [c] (Ptr.sentinel i)) :
    (p.avail i).next = Ptr.addr c ∧ (p.avail i).prev = Ptr.addr c ∧
    (p.mem c).next = Ptr.sentinel i ∧ (p.mem c).prev = Ptr.sentinel i := by
  simp only [Seg, load_sentinel, load_addr] at h
  exact ⟨h.1, h.2.2.2, h.2.2.1, h.2.1⟩

/-! ## Counting the free bytes -/

theorem free_total_update (M : Nat) (fl : Nat → List Nat) (i : Nat) (l : List Nat)
    (hi : i ≤ M) :
    free_total M (Function.update fl i l) + (fl i).length * 2 ^ i =
      free_total M fl + l.length * 2 ^ i := by
  unfold free_total
  have hmem : i ∈ Finset.range (M + 1) := Finset.mem_range.mpr (by omega)
  rw [← Finset.add_sum_erase _ _ hmem,
    ← Finset.add_sum_erase _ (fun j => (fl j).length * 2 ^ j) hmem]
  have hrest : ∑ x in (Finset.range (M + 1)).erase i,
      (Function.update fl i l x).length * 2 ^ x =
      ∑ x in (Finset.range (M + 1)).erase i, (fl x).length * 2 ^ x := by
    apply Finset.sum_congr rfl
    intro x hx
    rw [Function.update_noteq (Finset.ne_of_mem_erase hx)]
  rw [hrest, Function.update_same]
  omega

theorem free_total_split (M kval b : Nat) : ∀ (n : Nat) (fl : Nat → List Nat),
    kval + n ≤ M + 1 →
    free_total M (split_fl kval b n fl) + 2 ^ kval = free_total M fl + 2 ^ (kval + n) := by
  intro n
  induction n with
  | zero => intro fl _; rfl
  | succ n ih =>
    intro fl hn
    show free_total M (split_fl kval b n _) + 2 ^ kval = _
    have h1 := ih (Function.update fl (kval + n) (fl (kval + n) ++ [b + 2 ^ (kval + n)]))
      (by omega)
    have h2 := free_total_update M fl (kval + n) (fl (kval + n) ++ [b + 2 ^ (kval + n)])
      (by omega)
    simp only [List.length_append, List.length_singleton] at h2
    have h3 : 2 ^ (kval + (n + 1)) = 2 * 2 ^ (kval + n) := by
      rw [← Nat.add_assoc, pow_succ]; ring
    rw [h3]
    have h4 : (List.length (fl (kval + n)) + 1) * 2 ^ (kval + n) =
        List.length (fl (kval + n)) * 2 ^ (kval + n) + 2 ^ (kval + n) := by ring
    omega

theorem free_total_zero (M : Nat) (fl : Nat → List Nat) (h : free_total M fl = 0) :
    ∀ i, i ≤ M → fl i = [] := by
  intro i hi
  unfold free_total at h
  have := (Finset.sum_eq_zero_iff.mp h) i (Finset.mem_range.mpr (by omega))
  have hp : 0 < 2 ^ i := Nat.two_pow_pos i
  have hl : (fl i).length = 0 := by
    rcases Nat.mul_eq_zero.mp this with h1 | h1
    · exact h1
    · omega
  exact List.length_eq_zero.mp hl

theorem free_total_nil (M : Nat) (fl : Nat → List Nat) (h : ∀ i, i ≤ M → fl i = []) :
    free_total M fl = 0 := by
  unfold free_total
  apply Finset.sum_eq_zero
  intro i hi
  rw [h i (by have := Finset.mem_range.mp hi; omega)]
  simp

/-- One call of `buddy_malloc` for class `k` on a pool whose free blocks and `n`
outstanding blocks of class `k` fill the arena: it succeeds while bytes are free, and
takes `2^k` of them. -/
theorem malloc_count_step {p : BuddyPool} {fl : Nat → List Nat} {outH : List Nat}
    (w : WF p fl outH []) (size k : Nat) (h0 : size ≠ 0)
    (hk : malloc_kval size = some k) (hlow : ∀ i, i < k → fl i = [])
    (hsum : free_total p.kval_m fl + outH.length * 2 ^ k = 2 ^ p.kval_m) :
    (free_total p.kval_m fl = 0 ∧
      buddy_malloc p size = Except.ok ⟨Ptr.null, some ENOMEM, p⟩) ∨
    (0 < free_total p.kval_m fl ∧ ∃ b q fl2,
      buddy_malloc p size = Except.ok ⟨payload b, none, q⟩ ∧ WF q fl2 (b :: outH) [] ∧
      q.kval_m = p.kval_m ∧ (∀ i, i < k → fl2 i = []) ∧
      free_total q.kval_m fl2 + (b :: outH).length * 2 ^ k = 2 ^ q.kval_m) := by
  rcases malloc_wf_fl w size k h0 hk with ⟨h1, h2⟩ | ⟨i, b, l, q, hki, hi, hfl, _, h2, wq, _, e1, _⟩
  · left
    refine ⟨free_total_nil _ _ ?_, h2⟩
    intro i hi
    by_cases hik : i < k
    · exact hlow i hik
    · exact h1 i (by omega) hi
  · right
    have hu := free_total_update p.kval_m fl i l hi
    rw [hfl] at hu
    simp only [List.length_cons] at hu
    have hs := free_total_split p.kval_m k b (i - k) (Function.update fl i l) (by omega)
    have hki2 : k + (i - k) = i := by omega
    rw [hki2] at hs
    have h4 : (l.length + 1) * 2 ^ i = l.length * 2 ^ i + 2 ^ i := by ring
    have hpos : 0 < 2 ^ i := Nat.two_pow_pos i
    refine ⟨by omega, b, q, _, h2, wq, e1, ?_, ?_⟩
    · intro j hj
      rw [split_fl_apply, if_neg (by omega), Function.update_noteq (by omega)]
      exact hlow j hj
    · rw [e1]
      simp only [List.length_cons]
      have h5 : (outH.length + 1) * 2 ^ k = outH.length * 2 ^ k + 2 ^ k := by ring
      omega

/-- A run of `n` calls of `buddy_malloc` for class `k`, while `n` blocks of class `k`
still fit: all succeed. -/
theorem malloc_count_run (size k : Nat) (h0 : size ≠ 0) (hk : malloc_kval size = some k) :
    ∀ (n : Nat) (p : BuddyPool) (fl : Nat → List Nat) (outH : List Nat),
      WF p fl outH [] → (∀ i, i < k → fl i = []) →
      free_total p.kval_m fl + outH.length * 2 ^ k = 2 ^ p.kval_m →
      (outH.length + n) * 2 ^ k ≤ 2 ^ p.kval_m →
      ∃ ptrs q fl2 out2, malloc_all p (List.replicate n size) = Except.ok (ptrs, q) ∧
        ptrs.length = n ∧ (∀ x, x ∈ ptrs → x ≠ Ptr.null) ∧
        WF q fl2 out2 [] ∧ (∀ i, i < k → fl2 i = []) ∧ q.kval_m = p.kval_m ∧
        out2.length = outH.length + n ∧
        free_total q.kval_m fl2 + out2.length * 2 ^ k = 2 ^ q.kval_m := by
  intro n
  induction n with
  | zero =>
    intro p fl outH w hlow hsum _
    exact ⟨[], p, fl, outH, rfl, rfl, by simp, w, hlow, rfl, rfl, hsum⟩
  | succ n ih =>
    intro p fl outH w hlow hsum hfit
    have hpos : 0 < 2 ^ k := Nat.two_pow_pos k
    have hexp : (outH.length + (n + 1)) * 2 ^ k =
        outH.length * 2 ^ k + n * 2 ^ k + 2 ^ k := by ring
    rcases malloc_count_step w size k h0 hk hlow hsum with ⟨hz, _⟩ |
      ⟨_, b, q, fl2, hm, wq, e1, hlow2, hsum2⟩
    · exfalso
      omega
    · have hfit2 : ((b :: outH).length + n) * 2 ^ k ≤ 2 ^ q.kval_m := by
        rw [e1]
        simp only [List.length_cons]
        have : (outH.length + 1 + n) * 2 ^ k = outH.length * 2 ^ k + n * 2 ^ k + 2 ^ k := by
          ring
        omega
      obtain ⟨ptrs, q2, fl3, out3, hrun, hlen, hnn, w3, hlow3, e3, hlen3, hsum3⟩ :=
        ih q fl2 (b :: outH) wq hlow2 hsum2 hfit2
      refine ⟨payload b :: ptrs, q2, fl3, out3, ?_, by simp [hlen], ?_, w3, hlow3,
        by rw [e3, e1], by rw [hlen3]; simp only [List.length_cons]; omega, hsum3⟩
      · show malloc_all p (size :: List.replicate n size) = _
        simp only [malloc_all, hm, Except.bind, hrun, Except.map]
      · intro x hx
        rcases List.mem_cons.mp hx with e | hx2
        · rw [e]; simp [payload]
        · exact hnn x hx2

theorem init_kval_m_ge (size base : Nat) (p : BuddyPool)
    (hp : buddy_init size (some base) = Except.ok p) : MIN_K ≤ p.kval_m := by
  cases hk : init_kval size with
  | error f => simp [buddy_init, hk] at hp
  | ok kval =>
    obtain ⟨q, hq, h1, _⟩ := buddy_init_state size base kval hk
    rw [hp] at hq
    cases hq
    rw [h1]
    exact (init_kval_bounds size kval hk).1

/-! ## Claims on exhaustion and on the size class -/

/-- C11: after `buddy_init(2^MIN_K)` the pool has `2^(MIN_K+1)` bytes, so
`buddy_malloc(2^MIN_K - sizeof(struct avail))` returns the block at the base with
`kval = MIN_K` and tag `BLOCK_RESERVED` but leaves its buddy in list `MIN_K`:
`check_buddy_pool_empty` fails, and the following `buddy_malloc(5)` returns that buddy
instead of `NULL`. -/
theorem one_large_not_empty :
    ((buddy_init (2 ^ MIN_K) (some 4096)).bind fun p =>
      (buddy_malloc p (2 ^ MIN_K - sizeof_avail)).bind fun r =>
        (buddy_malloc r.pool 5).map fun r2 =>
          (r.ptr, (r.pool.mem 4096).kval, (r.pool.mem 4096).tag, check_buddy_pool_empty r.pool,
            (r.pool.avail MIN_K).next, r2.ptr, r2.errno))
      = Except.ok (Ptr.addr (4096 + sizeof_avail), MIN_K, BLOCK_RESERVED, false,
          Ptr.addr (4096 + 2 ^ MIN_K), Ptr.addr (4096 + 2 ^ MIN_K + sizeof_avail), none) :=
  rfl

/-- C12: after `buddy_init(2^DEFAULT_K)` the pool has `2^(DEFAULT_K+1)` bytes, so
`buddy_malloc(2^DEFAULT_K + 1)` is served with the whole arena: it returns the payload
of the block at the base and does not set `errno`. -/
theorem larger_than_request_served :
    ((buddy_init (2 ^ DEFAULT_K) (some 4096)).bind fun p =>
      (buddy_malloc p (2 ^ DEFAULT_K + 1)).map fun r =>
        (p.kval_m, p.numbytes, r.ptr, r.errno, (r.pool.mem 4096).kval))
      = Except.ok (DEFAULT_K + 1, 2 ^ (DEFAULT_K + 1), Ptr.addr (4096 + sizeof_avail), none,
          DEFAULT_K + 1) :=
  rfl

/-- C13: `buddy_malloc` starts its size-class loop at `MIN_K`, not at `SMALLEST_K`: the
class of a 1-byte request is `MIN_K = 20`, and on a fresh pool the block returned has
`kval = MIN_K`, a block of `2^20` bytes. -/
theorem one_byte_class :
    malloc_kval 1 = some MIN_K ∧ MIN_K ≠ SMALLEST_K ∧
    ((buddy_init (2 ^ MIN_K) (some 4096)).bind fun p =>
      (buddy_malloc p 1).map fun r => (r.ptr, (r.pool.mem 4096).kval))
      = Except.ok (Ptr.addr (4096 + sizeof_avail), MIN_K) :=
  ⟨rfl, by decide, rfl⟩

/-- The number of 64-byte requests the code serves: on a pool returned by `buddy_init`,
with `k` the size class `buddy_malloc` serves a 64-byte request from, exactly
`2^(kval_m - k)` consecutive calls `buddy_malloc(pool, 64)` return non-`NULL`, and the
next call returns `NULL` with `errno = ENOMEM` and leaves the pool as it was. -/
theorem malloc_exhaust (size base : Nat) (p : BuddyPool) (k : Nat)
    (hp : buddy_init size (some base) = Except.ok p) (hk : malloc_kval 64 = some k) :
    k ≤ p.kval_m ∧
    ∃ ptrs q, malloc_all p (List.replicate (2 ^ (p.kval_m - k)) 64) = Except.ok (ptrs, q) ∧
      ptrs.length = 2 ^ (p.kval_m - k) ∧ (∀ x, x ∈ ptrs → x ≠ Ptr.null) ∧
      buddy_malloc q 64 = Except.ok ⟨Ptr.null, some ENOMEM, q⟩ := by
  have hk20 : k = MIN_K := by
    have h : malloc_kval 64 = some MIN_K := rfl
    rw [h] at hk
    injection hk with e
    exact e.symm
  have hM := init_kval_m_ge size base p hp
  have hle : k ≤ p.kval_m := by omega
  have w := init_wf size base p hp
  have hlow : ∀ i, i < k → Function.update (fun _ => ([] : List Nat)) p.kval_m [base] i = [] := by
    intro i hi
    rw [Function.update_noteq (by omega)]
  have hsum : free_total p.kval_m (Function.update (fun _ => []) p.kval_m [base])
      + ([] : List Nat).length * 2 ^ k = 2 ^ p.kval_m := by
    have h1 := free_total_update p.kval_m (fun _ => []) p.kval_m [base] (le_refl _)
    have h2 := free_total_nil p.kval_m (fun _ => []) (fun _ _ => rfl)
    simp only [List.length_nil, List.length_singleton, Nat.zero_mul, Nat.add_zero,
      Nat.one_mul] at h1 ⊢
    omega
  have hpow : 2 ^ (p.kval_m - k) * 2 ^ k = 2 ^ p.kval_m := by
    rw [← pow_add]
    congr 1
    omega
  obtain ⟨ptrs, q, fl2, out2, hrun, hlen, hnn, wq, hlow2, e1, hlen2, hsum2⟩ :=
    malloc_count_run 64 k (by decide) hk (2 ^ (p.kval_m - k)) p _ [] w hlow hsum
      (by simp only [List.length_nil, Nat.zero_add]; omega)
  refine ⟨hle, ptrs, q, hrun, hlen, hnn, ?_⟩
  rcases malloc_count_step wq 64 k (by decide) hk hlow2 hsum2 with ⟨_, h2⟩ | ⟨h1, _⟩
  · exact h2
  · exfalso
    rw [hlen2, e1] at hsum2
    simp only [List.length_nil, Nat.zero_add] at hsum2
    rw [e1] at h1
    omega

/-- The pool of `2^21` bytes: two calls succeed, `2^(21 - 20)`. -/
theorem malloc_exhaust_witness :
    malloc_kval 64 = some MIN_K ∧ MIN_K ≤ demo_init.kval_m ∧
    ∃ ptrs q, malloc_all demo_init (List.replicate (2 ^ (demo_init.kval_m - MIN_K)) 64)
        = Except.ok (ptrs, q) ∧
      ptrs.length = 2 ^ (demo_init.kval_m - MIN_K) ∧ (∀ x, x ∈ ptrs → x ≠ Ptr.null) ∧
      buddy_malloc q 64 = Except.ok ⟨Ptr.null, some ENOMEM, q⟩ :=
  ⟨rfl, malloc_exhaust (2 ^ MIN_K) 4096 demo_init MIN_K rfl rfl⟩

/-- C14: `buddy_malloc` floors the size class at `MIN_K` instead of `SMALLEST_K`, so a
64-byte request has class 20 and takes a block of `2^20` bytes: after
`buddy_init(2^MIN_K)` the third `buddy_malloc(pool, 64)` returns `NULL`, long before
`2^MIN_K / 64` calls have succeeded. -/
theorem malloc_exhaust_third_fails :
    ((buddy_init (2 ^ MIN_K) (some 4096)).bind fun p =>
      (malloc_all p (List.replicate 3 64)).map fun x => x.1)
      = Except.ok [Ptr.addr (4096 + sizeof_avail),
          Ptr.addr (4096 + 2 ^ MIN_K + sizeof_avail), Ptr.null] ∧
    3 ≤ 2 ^ MIN_K / 64 ∧ malloc_kval 64 = some MIN_K ∧ MIN_K ≠ SMALLEST_K :=
  ⟨rfl, by decide, rfl, by decide⟩

/-! ## Claims on `buddy_calc` -/

/-- C15: the buddy computation is an involution and has no fixed point: for a block at
or above the base whose buddy carries the same `kval`, the buddy of the buddy is the
block, the buddy is not the block, and on offsets `(off XOR 2^kval) XOR 2^kval = off`. -/
theorem buddy_calc_involutive (pool : BuddyPool) (block : Nat) (hb : pool.base ≤ block)
    (hsame : (pool.mem (buddy_calc pool block)).kval = (pool.mem block).kval) :
    buddy_calc pool (buddy_calc pool block) = block ∧ buddy_calc pool block ≠ block ∧
    ((block - pool.base) ^^^ 2 ^ (pool.mem block).kval) ^^^ 2 ^ (pool.mem block).kval
      = block - pool.base := by
  have hx := Nat.xor_cancel_right (2 ^ (pool.mem block).kval) (block - pool.base)
  refine ⟨?_, ?_, hx⟩
  · show pool.base + ((buddy_calc pool block - pool.base) ^^^
      2 ^ (pool.mem (buddy_calc pool block)).kval) = block
    rw [hsame]
    have h1 : buddy_calc pool block - pool.base =
        (block - pool.base) ^^^ 2 ^ (pool.mem block).kval := by
      show pool.base + _ - pool.base = _
      omega
    rw [h1, hx]
    omega
  · intro e
    have h1 : pool.base + ((block - pool.base) ^^^ 2 ^ (pool.mem block).kval) = block := e
    have h2 := xor_two_pow_ne (block - pool.base) (pool.mem block).kval
    omega

/-- After the first 1-byte allocation the block at 4096 and its buddy at `4096 + 2^20`
both have `kval = 20`. -/
theorem buddy_calc_involutive_witness :
    demo_first.pool.base ≤ 4096 ∧ buddy_calc demo_first.pool 4096 = 4096 + 2 ^ MIN_K ∧
    buddy_calc demo_first.pool (buddy_calc demo_first.pool 4096) = 4096 :=
  ⟨by decide, rfl,
    (buddy_calc_involutive demo_first.pool 4096 (by decide)
      ((rfl : (demo_first.pool.mem (buddy_calc demo_first.pool 4096)).kval = 20).trans
        (rfl : 20 = (demo_first.pool.mem 4096).kval))).1⟩

/-- C16: `buddy_calc` returns `base + ((block - base) XOR 2^kval)`, and when the base is
a multiple of `2^(kval+1)` this is the block's address `XOR 2^kval`, for every block
address at or above the base. -/
theorem buddy_calc_absolute (pool : BuddyPool) (block : Nat) (hb : pool.base ≤ block)
    (hal : 2 ^ ((pool.mem block).kval + 1) ∣ pool.base) :
    buddy_calc pool block
      = pool.base + ((block - pool.base) ^^^ 2 ^ (pool.mem block).kval) ∧
    buddy_calc pool block = block ^^^ 2 ^ (pool.mem block).kval := by
  refine ⟨rfl, ?_⟩
  have h := add_xor_two_pow (pool.mem block).kval pool.base (block - pool.base) hal
  have e : pool.base + (block - pool.base) = block := by omega
  rw [e] at h
  rw [h]
  rfl

/-- The blocks of `test_buddy_calc_first_block` and `test_buddy_calc_last_block`: the
first header with `kval = 2`, and the last header-sized slot with `kval = 4`, on a
pool mapped at 4096. -/
theorem buddy_calc_absolute_witness :
    buddy_calc (set_kval demo_init (Ptr.addr 4096) 2) 4096 = 4096 ^^^ 2 ^ 2 ∧
    buddy_calc (set_kval demo_init (Ptr.addr (4096 + 2 ^ 21 - sizeof_avail)) 4)
        (4096 + 2 ^ 21 - sizeof_avail) = (4096 + 2 ^ 21 - sizeof_avail) ^^^ 2 ^ 4 :=
  ⟨(buddy_calc_absolute (set_kval demo_init (Ptr.addr 4096) 2) 4096 (by decide)
      (by decide)).2,
    (buddy_calc_absolute (set_kval demo_init (Ptr.addr (4096 + 2 ^ 21 - sizeof_avail)) 4)
      (4096 + 2 ^ 21 - sizeof_avail) (by decide) (by decide)).2⟩

/-! ## Claims on invalid arguments -/

/-- C17: `buddy_malloc` asserts `pool != NULL` and `size > 0`: with a `NULL` pool, and
with size 0 on any pool, the call ends in the failed assertion and returns nothing. -/
theorem malloc_invalid_asserts :
    (∀ n, buddy_malloc_at none n = Except.error Fault.assertion) ∧
    (∀ pool, buddy_malloc pool 0 = Except.error Fault.assertion) ∧
    (∀ pool, buddy_malloc_at (some pool) 0 = Except.error Fault.assertion) :=
  ⟨fun _ => rfl, fun _ => rfl, fun _ => rfl⟩

/-- C18: `buddy_free` asserts `ptr != NULL` and that the header before `ptr` lies in
the arena: with `NULL`, and with an address whose header would lie below the base or at
or past the end of the arena, the call ends in the failed assertion and does not
return. -/
theorem free_invalid_asserts (pool : BuddyPool) (a : Nat)
    (h : a < pool.base + sizeof_avail ∨ pool.base + pool.numbytes + sizeof_avail ≤ a) :
    buddy_free pool Ptr.null = Except.error Fault.assertion ∧
    buddy_free pool (Ptr.addr a) = Except.error Fault.assertion := by
  refine ⟨rfl, ?_⟩
  unfold buddy_free
  simp only
  by_cases h1 : a < pool.base + sizeof_avail
  · rw [if_pos h1]
  · rw [if_neg h1, if_pos (by omega)]

/-- The full pool of `test_buddy_free_invalid_pointer`, with an address below the
arena. -/
theorem free_invalid_asserts_witness :
    check_buddy_pool_full demo_init = true ∧
    buddy_free demo_init Ptr.null = Except.error Fault.assertion ∧
    buddy_free demo_init (Ptr.addr 100) = Except.error Fault.assertion :=
  ⟨rfl, free_invalid_asserts demo_init 100 (by decide)⟩

/-! ## Claims on splitting -/

/-- C19: on a pool fresh from `buddy_init` with `kval_m = K`, a request with target
class `k <= K` returns the payload of the block at offset 0, tagged `BLOCK_RESERVED`
with `kval = k`; afterwards every list `i` with `k <= i < K` holds exactly the block at
offset `2^i`, tagged `BLOCK_AVAIL` with `kval = i`, and list `K` and the lists below `k`
are empty. -/
theorem fresh_malloc (size base : Nat) (p : BuddyPool) (sz k : Nat)
    (hp : buddy_init size (some base) = Except.ok p) (h0 : 0 < sz)
    (hk : malloc_kval sz = some k) (hle : k ≤ p.kval_m) :
    ∃ q, buddy_malloc p sz = Except.ok ⟨Ptr.addr (base + sizeof_avail), none, q⟩ ∧
      q.base = base ∧ q.kval_m = p.kval_m ∧
      (q.mem base).kval = k ∧ (q.mem base).tag = BLOCK_RESERVED ∧
      (∀ i, k ≤ i → i < p.kval_m →
        (q.avail i).next = Ptr.addr (base + 2 ^ i) ∧
        (q.avail i).prev = Ptr.addr (base + 2 ^ i) ∧
        (q.mem (base + 2 ^ i)).next = Ptr.sentinel i ∧
        (q.mem (base + 2 ^ i)).prev = Ptr.sentinel i ∧
        (q.mem (base + 2 ^ i)).tag = BLOCK_AVAIL ∧ (q.mem (base + 2 ^ i)).kval = i ∧
        ∀ a, InList q i a ↔ a = base + 2 ^ i) ∧
      (∀ i, i ≤ p.kval_m → (i < k ∨ i = p.kval_m) →
        (q.avail i).next = Ptr.sentinel i ∧ (q.avail i).prev = Ptr.sentinel i ∧
        ∀ a, ¬ InList q i a) := by
  have w := init_wf size base p hp
  have hbase : p.base = base := by
    cases hk2 : init_kval size with
    | error f => simp [buddy_init, hk2] at hp
    | ok kval =>
      obtain ⟨q, hq, _, _, h3, _⟩ := buddy_init_state size base kval hk2
      rw [hp] at hq
      cases hq
      exact h3
  rcases malloc_wf_fl w sz k (by omega) hk with ⟨h1, _⟩ | ⟨i, b, l, q, _, hi, hfl, _, hm, wq, hkv, e1, e2⟩
  · exfalso
    have := h1 p.kval_m hle (le_refl _)
    rw [Function.update_same] at this
    cases this
  · have hiK : i = p.kval_m := by
      by_contra hne
      rw [Function.update_noteq hne] at hfl
      cases hfl
    subst hiK
    rw [Function.update_same] at hfl
    have hb : b = base := by injection hfl with h _; exact h.symm
    have hl : l = [] := by injection hfl with _ h; exact h.symm
    subst hb; subst hl
    have hlist : ∀ j, split_fl k b (p.kval_m - k)
        (Function.update (Function.update (fun _ => []) p.kval_m [b]) p.kval_m []) j =
        if k ≤ j ∧ j < p.kval_m then [b + 2 ^ j] else [] := by
      intro j
      rw [split_fl_apply]
      have hz : Function.update (Function.update (fun _ => ([] : List Nat)) p.kval_m [b])
          p.kval_m [] j = [] := by
        by_cases e : j = p.kval_m
        · rw [e, Function.update_same]
        · rw [Function.update_noteq e, Function.update_noteq e]
      rw [hz]
      by_cases hc : k ≤ j ∧ j < p.kval_m
      · have hc2 : k ≤ j ∧ j < k + (p.kval_m - k) := by omega
        rw [if_pos hc, if_pos hc2]
        rfl
      · have hc2 : ¬ (k ≤ j ∧ j < k + (p.kval_m - k)) := by omega
        rw [if_neg hc, if_neg hc2]
    refine ⟨q, hm, by rw [e2, hbase], e1, hkv, wq.out_hdr b (List.mem_cons_self b []), ?_, ?_⟩
    · intro j hj1 hj2
      have hseg := wq.seg j (by omega)
      have hlj := hlist j
      rw [if_pos ⟨hj1, hj2⟩] at hlj
      rw [hlj] at hseg
      obtain ⟨s1, s2, s3, s4⟩ := Seg_single q j _ hseg
      have hmem : b + 2 ^ j ∈ split_fl k b (p.kval_m - k)
          (Function.update (Function.update (fun _ => []) p.kval_m [b]) p.kval_m []) j := by
        rw [hlj]; simp
      have hh := wq.free_hdr j _ hmem
      refine ⟨s1, s2, s3, s4, hh.1, hh.2, ?_⟩
      intro a
      rw [InList_iff_mem q j a _ (wq.seg j (by omega)), hlj]
      simp
    · intro j hj1 hj2
      have hseg := wq.seg j (by omega)
      have hlj := hlist j
      rw [if_neg (by omega)] at hlj
      have hseg2 := hseg
      rw [hlj] at hseg2
      refine ⟨hseg2.1, hseg2.2, ?_⟩
      intro a
      rw [InList_iff_mem q j a _ hseg, hlj]
      simp

/-- A 1-byte request on the pool of `2^21` bytes mapped at 4096. -/
theorem fresh_malloc_witness :
    buddy_init (2 ^ MIN_K) (some 4096) = Except.ok demo_init ∧ 0 < 1 ∧
    malloc_kval 1 = some MIN_K ∧ MIN_K ≤ demo_init.kval_m ∧
    ∃ q, buddy_malloc demo_init 1 = Except.ok ⟨Ptr.addr (4096 + sizeof_avail), none, q⟩ ∧
      (q.mem 4096).kval = MIN_K ∧ (q.mem 4096).tag = BLOCK_RESERVED ∧
      (q.avail MIN_K).next = Ptr.addr (4096 + 2 ^ MIN_K) := by
  obtain ⟨q, h1, _, _, h4, h5, h6, _⟩ :=
    fresh_malloc (2 ^ MIN_K) 4096 demo_init 1 MIN_K rfl (by decide) rfl (by decide)
  exact ⟨rfl, by decide, rfl, by decide, q, h1, h4, h5,
    (h6 MIN_K (le_refl _) (by decide)).1⟩

/-- C20: in every reachable pool each outstanding block and each member of a free list
has an offset that is a multiple of `2^kval`; and when `buddy_malloc` hands out the
block `b` taken from list `j` for target class `k`, every split level `i`, `k <= i < j`,
finds the offset `o` of `b` a multiple of `2^(i+1)`, has `o XOR 2^i = o + 2^i` and
`(o + 2^i) XOR 2^i = o`, and leaves the upper half `b + 2^i` in list `i` with
`kval = i`, where `buddy_calc` sends it back to `b`; at the last level `i = k`
`buddy_calc` sends `b` to `b + 2^k`. -/
theorem split_alignment (p : BuddyPool) (out : List Ptr) (h : Reachable p out) :
    (∀ a, payload a ∈ out →
      p.base ≤ a ∧ 2 ^ (p.mem a).kval ∣ a - p.base) ∧
    (∀ i a, i ≤ p.kval_m → InList p i a →
      p.base ≤ a ∧ (p.mem a).kval = i ∧ 2 ^ (p.mem a).kval ∣ a - p.base) ∧
    (∀ size r, buddy_malloc p size = Except.ok r → r.ptr ≠ Ptr.null →
      ∃ b k j, malloc_kval size = some k ∧ r.ptr = payload b ∧ k ≤ j ∧ j ≤ p.kval_m ∧
        InList p j b ∧ p.base ≤ b ∧ (r.pool.mem b).kval = k ∧
        2 ^ k ∣ b - p.base ∧
        ∀ i, k ≤ i → i < j →
          2 ^ (i + 1) ∣ b - p.base ∧
          (b - p.base) ^^^ 2 ^ i = b - p.base + 2 ^ i ∧
          (b - p.base + 2 ^ i) ^^^ 2 ^ i = b - p.base ∧
          InList r.pool i (b + 2 ^ i) ∧ (r.pool.mem (b + 2 ^ i)).kval = i ∧
          buddy_calc r.pool (b + 2 ^ i) = b ∧
          (i = k → buddy_calc r.pool b = b + 2 ^ i)) := by
  rcases reachable_inv p out h with ⟨fl, outH, ho, w⟩ | ⟨d, ho⟩
  · refine ⟨?_, ?_, ?_⟩
    · intro a ha
      rw [ho] at ha
      have hao : a ∈ outH := (List.mem_map_of_injective payload_injective).mp ha
      have hg := w.geo.geom a (Or.inl hao)
      exact ⟨hg.1, hg.2.1⟩
    · intro i a hi ha
      have haf : a ∈ fl i := (InList_iff_mem p i a (fl i) (w.seg i hi)).mp ha
      have hg := w.geo.geom a (w.live_fl haf)
      exact ⟨hg.1, (w.free_hdr i a haf).2, hg.2.1⟩
    · intro size r hr hnn
      have hs0 : size ≠ 0 := by
        intro e
        simp [buddy_malloc, e] at hr
      cases hk : malloc_kval size with
      | none => simp [buddy_malloc, hs0, hk] at hr
      | some k =>
        rcases malloc_wf_fl w size k hs0 hk with ⟨_, h2⟩ |
          ⟨j, b, l, q, hkj, hj, hfl, _, h2, wq, hkv, e1, e2⟩
        · rw [hr] at h2
          cases h2
          exact absurd rfl hnn
        · rw [hr] at h2
          cases h2
          have hbf : b ∈ fl j := by rw [hfl]; exact List.mem_cons_self b l
          have hg := w.geo.geom b (w.live_fl hbf)
          have hkb := (w.free_hdr j b hbf).2
          simp only [hkb] at hg
          obtain ⟨g1, g2, _⟩ := hg
          refine ⟨b, k, j, rfl, rfl, hkj, hj,
            (InList_iff_mem p j b (fl j) (w.seg j hj)).mpr hbf, g1, hkv,
            Dvd.dvd.trans (pow_dvd_pow 2 hkj) g2, ?_⟩
          intro i hi1 hi2
          have hd : 2 ^ (i + 1) ∣ b - p.base := Dvd.dvd.trans (pow_dvd_pow 2 (by omega)) g2
          obtain ⟨x1, x2⟩ := add_xor_self_pow (b - p.base) i hd
          have hmem : b + 2 ^ i ∈ split_fl k b (j - k) (Function.update fl j l) i := by
            rw [split_fl_apply, if_pos (by omega)]
            simp
          have hkc := (wq.free_hdr i _ hmem).2
          refine ⟨hd, x1, x2, ?_, hkc, ?_, ?_⟩
          · exact (InList_iff_mem q i _ _ (wq.seg i (by omega))).mpr hmem
          · show q.base + ((b + 2 ^ i - q.base) ^^^ 2 ^ (q.mem (b + 2 ^ i)).kval) = b
            rw [hkc, e2]
            have : b + 2 ^ i - p.base = b - p.base + 2 ^ i := by omega
            rw [this, x2]
            omega
          · intro hik
            show q.base + ((b - q.base) ^^^ 2 ^ (q.mem b).kval) = b + 2 ^ i
            rw [hkv, e2, ← hik, x1]
            omega
  · refine ⟨?_, ?_, ?_⟩
    · intro a ha
      rw [ho] at ha
      simp at ha
    · intro i a hi ha
      exfalso
      have hseg : Seg p (Ptr.sentinel i) [] (Ptr.sentinel i) := d.idle i hi
      have := (InList_iff_mem p i a [] hseg).mp ha
      simp at this
    · intro size r hr hnn
      have hs0 : size ≠ 0 := by
        intro e
        simp [buddy_malloc, e] at hr
      cases hk : malloc_kval size with
      | none => simp [buddy_malloc, hs0, hk] at hr
      | some k =>
        have h2 := malloc_dead d size k hs0 hk
        rw [hr] at h2
        cases h2
        exact absurd rfl hnn

/-- The first 1-byte allocation on the pool of `2^21` bytes: the block comes from list
21 and is split once, at level 20. -/
theorem split_alignment_witness :
    Reachable demo_init [] ∧ buddy_malloc demo_init 1 = Except.ok demo_first ∧
    demo_first.ptr ≠ Ptr.null ∧
    ∃ b k j, malloc_kval 1 = some k ∧ demo_first.ptr = payload b ∧ k ≤ j ∧
      j ≤ demo_init.kval_m ∧ InList demo_init j b ∧ demo_init.base ≤ b ∧
      (demo_first.pool.mem b).kval = k ∧ 2 ^ k ∣ b - demo_init.base ∧
      ∀ i, k ≤ i → i < j →
        2 ^ (i + 1) ∣ b - demo_init.base ∧
        (b - demo_init.base) ^^^ 2 ^ i = b - demo_init.base + 2 ^ i ∧
        (b - demo_init.base + 2 ^ i) ^^^ 2 ^ i = b - demo_init.base ∧
        InList demo_first.pool i (b + 2 ^ i) ∧ (demo_first.pool.mem (b + 2 ^ i)).kval = i ∧
        buddy_calc demo_first.pool (b + 2 ^ i) = b ∧
        (i = k → buddy_calc demo_first.pool b = b + 2 ^ i) :=
  ⟨demo_init_reachable, rfl, by decide,
    (split_alignment demo_init [] demo_init_reachable).2.2 1 demo_first rfl (by decide)⟩

/-! ## The passes of the loop of `buddy_free` -/

theorem coalesce_unfold (n : Nat) (p : BuddyPool) (b : Nat) :
    coalesce (n + 1) p b =
      if coalesce_break p b then some (p, b)
      else coalesce n (coalesce_next p b).1 (coalesce_next p b).2 := by
  simp only [coalesce, coalesce_break, coalesce_next, decide_eq_true_eq]

theorem coalesce_break_false (p : BuddyPool) (b : Nat) :
    coalesce_break p b = false ↔
      p.base ≤ buddy_calc p b ∧ buddy_calc p b < p.base + p.numbytes ∧
        (p.mem (buddy_calc p b)).tag = BLOCK_AVAIL ∧
        (p.mem (buddy_calc p b)).kval = (p.mem b).kval := by
  simp only [coalesce_break, decide_eq_false_iff_not, not_or, not_lt, ge_iff_le, not_le,
    ne_eq, not_not]

/-- One merging pass of the loop of `buddy_free`. -/
theorem coalesce_step {p : BuddyPool} {fl : Nat → List Nat} {out : List Nat} {b : Nat}
    (w : WF p fl out [b]) (ht : (p.mem b).tag = BLOCK_AVAIL)
    (hc : coalesce_break p b = false) :
    (p.mem b).kval < p.kval_m ∧ buddy_calc p b ≠ b ∧
    (coalesce_next p b).2 = min b (buddy_calc p b) ∧
    ∃ l1 l2, fl (p.mem b).kval = l1 ++ buddy_calc p b :: l2 ∧
      WF (coalesce_next p b).1 (Function.update fl (p.mem b).kval (l1 ++ l2)) out
        [(coalesce_next p b).2] ∧
      ((coalesce_next p b).1.mem (coalesce_next p b).2).tag = BLOCK_AVAIL ∧
      ((coalesce_next p b).1.mem (coalesce_next p b).2).kval = (p.mem b).kval + 1 ∧
      (coalesce_next p b).1.kval_m = p.kval_m := by
  have hLb : Live fl out [b] b := Or.inr (Or.inl (List.mem_singleton_self b))
  have hkle := w.geo.kval_le b hLb
  simp only at hkle
  obtain ⟨hc1, hc2, hc3, hc4⟩ := (coalesce_break_false p b).mp hc
  have hcalc : buddy_calc p b = p.base + ((b - p.base) ^^^ 2 ^ (p.mem b).kval) := rfl
  have hlt : (p.mem b).kval < p.kval_m := by
    rcases Nat.eq_or_lt_of_le hkle with e | e
    · exfalso
      have hbase := (w.geo.top b hLb e).1
      rw [hcalc, e, hbase, w.numbytes_eq] at hc2
      simp at hc2
    · exact e
  obtain ⟨hgeo, _, hLc, _⟩ := w.geo.buddy b (p.mem b).kval hLb rfl hlt
  rw [← hcalc] at hgeo hLc
  simp only [coalesce_next]
  generalize buddy_calc p b = c at hc1 hc2 hc3 hc4 hgeo hLc ⊢
  generalize hkk : (p.mem b).kval = k at hc4 hgeo hlt
  have hpos : 0 < 2 ^ k := Nat.two_pow_pos _
  have hcb : c ≠ b := by
    rcases hgeo with ⟨h, _⟩ | ⟨h, _⟩ <;> omega
  have hck : c ∈ fl k := by
    rcases hLc with h | h | ⟨j, h⟩
    · have := w.out_hdr c h
      rw [hc3] at this
      exact absurd this (by decide)
    · exact absurd (List.mem_singleton.mp h) hcb
    · have := (w.free_hdr j c h).2
      rw [hc4] at this
      exact this ▸ h
  obtain ⟨l1, l2, hfl⟩ := List.append_of_mem hck
  obtain ⟨w1, hkv1⟩ := WF_take w k c l1 l2 (by omega) hfl
  have hkvm : ∀ a, ((unlink p c).mem a).kval = (p.mem a).kval := by
    intro a
    have := hkv1 (Ptr.addr a)
    simpa only [load_addr] using this
  have htg1 : ∀ a, ((unlink p c).mem a).tag = (p.mem a).tag := by
    intro a
    have hseg := w.seg k (by omega)
    rw [hfl] at hseg
    have hnd := w.nodup k
    rw [hfl] at hnd
    have hPm := Seg_prev_mem p c l2 _ l1 _ hseg
    have hNm := Seg_next_mem p c l2 _ l1 _ hseg
    have hc1n : c ∉ l1 := fun h =>
      (List.nodup_append.mp hnd).2.2 h (List.mem_cons_self c l2)
    have hP : (p.mem c).prev ≠ Ptr.null := by
      rcases hPm with h | ⟨d, _, h⟩ <;> rw [h] <;> simp
    have hN : (p.mem c).next ≠ Ptr.null := by
      rcases hNm with h | ⟨d, _, h⟩ <;> rw [h] <;> simp
    have hPa : (p.mem c).prev ≠ Ptr.addr c := by
      rcases hPm with h | ⟨d, hd, h⟩
      · rw [h]; simp
      · rw [h]; intro e; injection e with e; exact hc1n (e ▸ hd)
    have := (unlink_loads p c hP hN hPa).2.2.2.1 (Ptr.addr a)
    simpa only [load_addr] using this
  have hbase1 : (unlink p c).base = p.base := by
    simp [unlink]
  refine ⟨hlt, hcb, ?_, l1, l2, hfl, ?_⟩
  · rcases hgeo with ⟨h1, _⟩ | ⟨h1, _⟩
    · rw [if_neg (by omega)]; omega
    · rw [if_pos (by omega)]; omega
  rcases hgeo with ⟨h1, h2⟩ | ⟨h1, _, h2⟩
  · -- the buddy is the upper half
    have hnlt : ¬ c < b := by omega
    rw [if_neg hnlt]
    have hw2 := WF_merge b c k w1 (by simp) (by simp) (by rw [hkvm, hkk])
      (by rw [hkvm, hc4]) h1 (by rw [hbase1]; exact h2)
    have herase : (c :: [b]).erase c = [b] := by simp
    rw [herase] at hw2
    rw [hkvm, hkk]
    refine ⟨hw2, ?_, ?_, ?_⟩
    · have := set_kval_tag (unlink p c) (Ptr.addr b) (Ptr.addr b) (k + 1)
      simp only [load_addr] at this
      rw [this, htg1, ht]
    · have := set_kval_kval (unlink p c) (Ptr.addr b) (Ptr.addr b) (k + 1) (by simp)
      simp only [load_addr] at this
      rw [this]
      simp
    · rw [set_kval_kval_m, unlink_kval_m]
  · -- the buddy is the lower half
    have hclt : c < b := by omega
    rw [if_pos hclt]
    have h2b : 2 ^ (k + 1) ∣ c - p.base := by
      have : p.base + (c - p.base) = c := by omega
      simpa using h2
    have hw2 := WF_merge c b k w1 (by simp) (by simp) (by rw [hkvm, hc4])
      (by rw [hkvm, hkk]) (by omega) (by rw [hbase1]; exact h2b)
    have herase : (c :: [b]).erase b = [c] := by
      simp [List.erase_cons, hcb]
    rw [herase] at hw2
    rw [hkvm, hc4]
    refine ⟨hw2, ?_, ?_, ?_⟩
    · have := set_kval_tag (unlink p c) (Ptr.addr c) (Ptr.addr c) (k + 1)
      simp only [load_addr] at this
      rw [this, htg1, hc3]
    · have := set_kval_kval (unlink p c) (Ptr.addr c) (Ptr.addr c) (k + 1) (by simp)
      simp only [load_addr] at this
      rw [this]
      simp
    · rw [set_kval_kval_m, unlink_kval_m]

/-- The loop of `buddy_free` ends after `coalesce_merges` merging passes, each of which
raised the class of the working block by one. -/
theorem coalesce_count (out : List Nat) :
    ∀ (n : Nat) (p : BuddyPool) (fl : Nat → List Nat) (b : Nat), WF p fl out [b] →
      (p.mem b).tag = BLOCK_AVAIL → (p.mem b).kval + n = 64 →
      ∃ q b2 fl2, coalesce n p b = some (q, b2) ∧ WF q fl2 out [b2] ∧
        (q.mem b2).kval = (p.mem b).kval + coalesce_merges n p b ∧
        q.kval_m = p.kval_m := by
  intro n
  induction n with
  | zero =>
    intro p fl b w _ hk
    have hLb : Live fl out [b] b := Or.inr (Or.inl (List.mem_singleton_self b))
    have h1 := w.geo.kval_le b hLb
    have h2 := w.kval_m_le
    simp only [MAX_K] at h2
    simp only at h1
    omega
  | succ n ih =>
    intro p fl b w ht hk
    rw [coalesce_unfold, coalesce_merges]
    cases hc : coalesce_break p b with
    | true => exact ⟨p, b, fl, by simp, w, by simp, rfl⟩
    | false =>
      obtain ⟨_, _, _, l1, l2, _, w2, ht2, hk2, hm2⟩ := coalesce_step w ht hc
      obtain ⟨q, b2, fl2, e, w3, hk3, hm3⟩ := ih _ _ _ w2 ht2 (by omega)
      refine ⟨q, b2, fl2, by simpa using e, w3, ?_, by rw [hm3, hm2]⟩
      rw [hk3, hk2]
      simp
      omega

/-- Every pass of the loop of `buddy_free` starts from a well-formed pool around an
available working block. -/
theorem coalesce_trace_wf (out : List Nat) :
    ∀ (n : Nat) (p : BuddyPool) (fl : Nat → List Nat) (b : Nat), WF p fl out [b] →
      (p.mem b).tag = BLOCK_AVAIL →
      ∀ s w, (s, w) ∈ coalesce_trace n p b →
        ∃ fl2, WF s fl2 out [w] ∧ (s.mem w).tag = BLOCK_AVAIL ∧ s.kval_m = p.kval_m := by
  intro n
  induction n with
  | zero =>
    intro p fl b _ _ s w h
    simp [coalesce_trace] at h
  | succ n ih =>
    intro p fl b w ht s x h
    rw [coalesce_trace, List.mem_cons] at h
    rcases h with h | h
    · cases h
      exact ⟨fl, w, ht, rfl⟩
    · cases hc : coalesce_break p b with
      | true => simp [hc] at h
      | false =>
        rw [hc] at h
        simp only [Bool.false_eq_true, if_false] at h
        obtain ⟨_, _, _, l1, l2, _, w2, ht2, _, hm2⟩ := coalesce_step w ht hc
        obtain ⟨fl2, w3, ht3, hm3⟩ := ih _ _ _ w2 ht2 s x h
        exact ⟨fl2, w3, ht3, by rw [hm3, hm2]⟩

/-- The loop of `buddy_free` returns the state its last pass started from. -/
theorem coalesce_last : ∀ (n : Nat) (p : BuddyPool) (b : Nat) (x : BuddyPool × Nat),
    coalesce n p b = some x → (coalesce_trace n p b).getLast? = some x := by
  intro n
  induction n with
  | zero => intro p b x h; simp [coalesce] at h
  | succ n ih =>
    intro p b x h
    rw [coalesce_unfold] at h
    rw [coalesce_trace]
    cases hc : coalesce_break p b with
    | true =>
      rw [hc] at h
      simp at h
      simp [h]
    | false =>
      rw [hc] at h
      simp only [Bool.false_eq_true, if_false] at h ⊢
      have h2 := ih _ _ x h
      cases ht : coalesce_trace n (coalesce_next p b).1 (coalesce_next p b).2 with
      | nil => rw [ht] at h2; simp at h2
      | cons y l =>
        rw [ht] at h2
        rw [List.getLast?_cons_cons]
        exact h2

/-- The members of the circular list around `s`, and `s` itself, are consistently
linked: following `next` and then `prev`, or `prev` and then `next`, leads back. -/
theorem Seg_links (p : BuddyPool) : ∀ (l : List Nat) (x y : Ptr), Seg p x l y →
    (load p (load p x).next).prev = x ∧ (load p (load p y).prev).next = y ∧
    ∀ a ∈ l, (load p (p.mem a).next).prev = Ptr.addr a ∧
      (load p (p.mem a).prev).next = Ptr.addr a := by
  intro l
  induction l with
  | nil =>
    intro x y h
    simp only [Seg] at h
    refine ⟨by rw [h.1, h.2], by rw [h.2, h.1], ?_⟩
    intro a ha
    simp at ha
  | cons a l ih =>
    intro x y h
    simp only [Seg] at h
    obtain ⟨h1, h2, h3⟩ := h
    simp only [load_addr] at h2
    obtain ⟨i1, i2, i3⟩ := ih (Ptr.addr a) y h3
    simp only [load_addr] at i1
    refine ⟨by rw [h1, load_addr, h2], i2, ?_⟩
    intro c hc
    rcases List.mem_cons.mp hc with rfl | hc
    · exact ⟨i1, by rw [h2, h1]⟩
    · exact i3 c hc

theorem avail_ext (x y : Avail) (h1 : x.tag = y.tag) (h2 : x.kval = y.kval)
    (h3 : x.next = y.next) (h4 : x.prev = y.prev) : x = y := by
  cases x
  cases y
  simp only [Avail.mk.injEq]
  exact ⟨h1, h2, h3, h4⟩

/-- The loop of `buddy_free` returns from a pass whose test breaks. -/
theorem coalesce_stops : ∀ (n : Nat) (p : BuddyPool) (b : Nat) (x : BuddyPool × Nat),
    coalesce n p b = some x → coalesce_break x.1 x.2 = true := by
  intro n
  induction n with
  | zero => intro p b x h; simp [coalesce] at h
  | succ n ih =>
    intro p b x h
    rw [coalesce_unfold] at h
    cases hc : coalesce_break p b with
    | true =>
      rw [hc] at h
      simp only [if_true, Option.some.injEq] at h
      rw [← h]
      exact hc
    | false =>
      rw [hc] at h
      simp only [Bool.false_eq_true, if_false] at h
      exact ih _ _ x h

/-- A call of `buddy_free` whose first pass finds the buddy inside the arena and not
mergeable puts the block at the front of the list of its class and writes nothing else
than the two links next to it. -/
theorem free_no_merge {p : BuddyPool} {fl : Nat → List Nat} {outH : List Nat}
    (w : WF p fl outH []) (b : Nat) (hb : b ∈ outH)
    (hin : buddy_calc p b < p.base + p.numbytes)
    (hfail : (p.mem (buddy_calc p b)).tag ≠ BLOCK_AVAIL ∨
      (p.mem (buddy_calc p b)).kval ≠ (p.mem b).kval) :
    (p.mem b).kval < p.kval_m ∧ (p.avail (p.mem b).kval).next ≠ Ptr.addr b ∧
    free_trace p b = [(set_tag p (Ptr.addr b) BLOCK_AVAIL, b)] ∧
    ∃ q, buddy_free p (payload b) = Except.ok q ∧
      WF q (Function.update fl (p.mem b).kval (b :: fl (p.mem b).kval)) (outH.erase b) [] ∧
      q.kval_m = p.kval_m ∧ q.numbytes = p.numbytes ∧ q.base = p.base ∧
      (∀ z, (load q z).tag = if z = Ptr.addr b then BLOCK_AVAIL else (load p z).tag) ∧
      (∀ z, (load q z).kval = (load p z).kval) ∧
      (∀ z, (load q z).next =
        if z = Ptr.sentinel (p.mem b).kval then Ptr.addr b
        else if z = Ptr.addr b then (p.avail (p.mem b).kval).next else (load p z).next) ∧
      (∀ z, (load q z).prev =
        if z = (p.avail (p.mem b).kval).next then Ptr.addr b
        else if z = Ptr.addr b then Ptr.sentinel (p.mem b).kval else (load p z).prev) := by
  have hLb : Live fl outH [] b := Or.inl hb
  obtain ⟨g1, _, g3⟩ := w.geo.geom b hLb
  have hpos : 0 < 2 ^ (p.mem b).kval := Nat.two_pow_pos _
  have hkle := w.geo.kval_le b hLb
  simp only at hkle
  have hm := w.kval_m_le
  simp only [MAX_K] at hm
  have hcalc : buddy_calc p b = p.base + ((b - p.base) ^^^ 2 ^ (p.mem b).kval) := rfl
  have hlt : (p.mem b).kval < p.kval_m := by
    rcases Nat.eq_or_lt_of_le hkle with e | e
    · exfalso
      have hbase := (w.geo.top b hLb e).1
      rw [hcalc, e, hbase, w.numbytes_eq] at hin
      simp at hin
    · exact e
  have hcb : buddy_calc p b ≠ b := by
    intro e
    rw [hcalc] at e
    have := xor_two_pow_ne (b - p.base) (p.mem b).kval
    omega
  obtain ⟨w1, ht1, hk1⟩ := WF_release b w hb
  generalize hp1 : set_tag p (Ptr.addr b) BLOCK_AVAIL = p1 at w1 ht1 hk1
  have hbase1 : p1.base = p.base := by rw [← hp1]; simp
  have hnum1 : p1.numbytes = p.numbytes := by rw [← hp1]; simp
  have hkvm1 : p1.kval_m = p.kval_m := by rw [← hp1, set_tag_kval_m]
  have htag1 : ∀ z, (load p1 z).tag = if z = Ptr.addr b then BLOCK_AVAIL else (load p z).tag := by
    intro z
    rw [← hp1]
    exact set_tag_tag p (Ptr.addr b) z BLOCK_AVAIL (by simp)
  have hkv1 : ∀ z, (load p1 z).kval = (load p z).kval := by
    intro z; rw [← hp1]; simp
  have hnx1 : ∀ z, (load p1 z).next = (load p z).next := by
    intro z; rw [← hp1]; simp
  have hpv1 : ∀ z, (load p1 z).prev = (load p z).prev := by
    intro z; rw [← hp1]; simp
  have hcalc1 : buddy_calc p1 b = buddy_calc p b := by
    simp only [buddy_calc, hbase1, hk1]
  have hbreak : coalesce_break p1 b = true := by
    cases hc : coalesce_break p1 b with
    | true => rfl
    | false =>
      exfalso
      obtain ⟨_, _, h3, h4⟩ := (coalesce_break_false p1 b).mp hc
      rw [hcalc1] at h3 h4
      have e3 := htag1 (Ptr.addr (buddy_calc p b))
      have e4 := hkv1 (Ptr.addr (buddy_calc p b))
      simp only [load_addr, Ptr.addr.injEq, hcb, if_false] at e3 e4
      rw [e3] at h3
      rw [e4, hk1] at h4
      rcases hfail with hf | hf
      · exact hf h3
      · exact hf h4
  obtain ⟨n, hn⟩ : ∃ n, 64 - (p1.mem b).kval = n + 1 := ⟨63 - (p1.mem b).kval, by omega⟩
  have hco : coalesce (64 - (p1.mem b).kval) p1 b = some (p1, b) := by
    rw [hn, coalesce_unfold, hbreak]
    rfl
  have htr : free_trace p b = [(p1, b)] := by
    simp only [free_trace]
    rw [hp1, hn, coalesce_trace, hbreak]
    rfl
  have hH0 : (p1.avail (p1.mem b).kval).next = (p.avail (p.mem b).kval).next := by
    have := hnx1 (Ptr.sentinel (p.mem b).kval)
    rw [hk1]
    simpa only [load_sentinel] using this
  have hHb : (p.avail (p.mem b).kval).next ≠ Ptr.addr b := by
    rcases w.head_ptr hkle with ⟨e, _⟩ | ⟨a, l, e1, e2⟩
    · rw [e]; simp
    · rw [e2]
      intro e
      injection e with e
      exact w.out_not_fl hb (e ▸ (e1 ▸ List.mem_cons_self a l))
  have hH : (p1.avail (p1.mem b).kval).next ≠ Ptr.null := by
    rw [hH0]
    rcases w.head_ptr hkle with ⟨e, _⟩ | ⟨a, l, _, e2⟩
    · rw [e]; simp
    · rw [e2]; simp
  obtain ⟨r1, r2, r3, r4, r5, r6, r7⟩ := relink_loads p1 b hH
  obtain ⟨w3, _⟩ := WF_relink b (p1.mem b).kval w1 (by simp) rfl ht1
  have herase : [b].erase b = [] := by simp
  rw [herase, hk1] at w3
  have hfree : buddy_free p (payload b) = Except.ok (relink p1 b) := by
    unfold buddy_free payload
    simp only
    rw [if_neg (by omega)]
    have e : b + sizeof_avail - sizeof_avail = b := by omega
    rw [e, if_neg (by rw [w.numbytes_eq]; omega), hp1, hco]
    simp only [reinsert]
    rw [if_neg]
    intro hc
    have := r5 (Ptr.addr b)
    simp only [load_addr] at this
    rw [this, r1, hk1, hkvm1] at hc
    omega
  refine ⟨hlt, hHb, htr, relink p1 b, hfree, w3, by rw [r1, hkvm1], by rw [r2, hnum1],
    by rw [r3, hbase1], ?_, ?_, ?_, ?_⟩
  · intro z
    rw [r4, htag1]
  · intro z
    rw [r5, hkv1]
  · intro z
    rw [r6, hH0, hk1, hnx1]
  · intro z
    rw [r7, hH0, hk1, hpv1]

theorem scan_count_le (p : BuddyPool) : ∀ n i, scan_count p n i ≤ n := by
  intro n
  induction n with
  | zero => intro i; simp [scan_count]
  | succ n ih =>
    intro i
    rw [scan_count]
    split
    · omega
    · have := ih (i + 1)
      omega

theorem demo_third_reachable : Reachable demo_third [payload 4096] :=
  have e : [payload (4096 + 2 ^ MIN_K), payload 4096].erase (payload (4096 + 2 ^ MIN_K))
      = [payload 4096] := by simp
  e ▸ Reachable.free demo_second.pool [payload (4096 + 2 ^ MIN_K), payload 4096]
    (payload (4096 + 2 ^ MIN_K)) demo_third demo_second_reachable
    (List.mem_cons_self _ _) rfl

/-! ## Claims on the loops and on the free lists -/

/-- C21 (amended): on a reachable pool, in `buddy_free` of an outstanding block `b` of
class `k`, every pass of the loop starts with the working block tagged `BLOCK_AVAIL` and
merges exactly when the buddy lies inside the arena, is tagged `BLOCK_AVAIL` and has the
`kval` of the working block; the buddy is then a member of the free list of that class,
the pass takes it out of that list and changes the membership of no list otherwise, and
the next pass works on the lower-addressed of the two with `kval + 1`; the call returns
from the first pass that does not merge.  When the first pass finds the buddy inside the
arena and not mergeable, no pass merges and the call returns a pool in which `b` has tag
`BLOCK_AVAIL` and `kval = k` and is the first member of list `k`, the other lists are as
before, and apart from the header of `b` only the `next` link of `avail[k]` and the
`prev` link of the node that followed `avail[k]` (the former first member of list `k`,
or `avail[k]` itself) have changed. -/
theorem free_merge_steps (p : BuddyPool) (out : List Ptr) (h : Reachable p out) (b : Nat)
    (hb : payload b ∈ out) :
    (∀ s w, (s, w) ∈ free_trace p b →
      (s.mem w).tag = BLOCK_AVAIL ∧
      (coalesce_break s w = false ↔
        s.base ≤ buddy_calc s w ∧ buddy_calc s w < s.base + s.numbytes ∧
          (s.mem (buddy_calc s w)).tag = BLOCK_AVAIL ∧
          (s.mem (buddy_calc s w)).kval = (s.mem w).kval) ∧
      (coalesce_break s w = false →
        InList s (s.mem w).kval (buddy_calc s w) ∧
        (coalesce_next s w).2 = min w (buddy_calc s w) ∧
        ((coalesce_next s w).1.mem (coalesce_next s w).2).kval = (s.mem w).kval + 1 ∧
        ∀ j a, j ≤ p.kval_m →
          (InList (coalesce_next s w).1 j a ↔ InList s j a ∧ a ≠ buddy_calc s w))) ∧
    (∃ x, (free_trace p b).getLast? = some x ∧ coalesce_break x.1 x.2 = true ∧
      buddy_free p (payload b) = Except.ok (reinsert x.1 x.2)) ∧
    (p.base ≤ buddy_calc p b ∧ buddy_calc p b < p.base + p.numbytes →
      (p.mem (buddy_calc p b)).tag ≠ BLOCK_AVAIL ∨
        (p.mem (buddy_calc p b)).kval ≠ (p.mem b).kval →
      free_trace p b = [(set_tag p (Ptr.addr b) BLOCK_AVAIL, b)] ∧
      ∃ q, buddy_free p (payload b) = Except.ok q ∧
        load q (Ptr.addr b) = ⟨BLOCK_AVAIL, (p.mem b).kval, (p.avail (p.mem b).kval).next,
          Ptr.sentinel (p.mem b).kval⟩ ∧
        (q.avail (p.mem b).kval).next = Ptr.addr b ∧
        (∀ a, InList q (p.mem b).kval a ↔ a = b ∨ InList p (p.mem b).kval a) ∧
        (∀ j a, j ≤ p.kval_m → j ≠ (p.mem b).kval → (InList q j a ↔ InList p j a)) ∧
        (∀ z, z ≠ Ptr.addr b → z ≠ Ptr.sentinel (p.mem b).kval →
          z ≠ (p.avail (p.mem b).kval).next → load q z = load p z) ∧
        (∀ z, z = Ptr.sentinel (p.mem b).kval ∨ z = (p.avail (p.mem b).kval).next →
          (load q z).tag = (load p z).tag ∧ (load q z).kval = (load p z).kval ∧
          (load q z).next =
            (if z = Ptr.sentinel (p.mem b).kval then Ptr.addr b else (load p z).next) ∧
          (load q z).prev =
            (if z = (p.avail (p.mem b).kval).next then Ptr.addr b
              else (load p z).prev))) := by
  rcases reachable_inv p out h with ⟨fl, outH, ho, w⟩ | ⟨_, ho⟩
  swap
  · rw [ho] at hb
    simp at hb
  rw [ho, List.mem_map] at hb
  obtain ⟨b2, hb2, e⟩ := hb
  have e2 := payload_injective e
  subst e2
  have hLb : Live fl outH [] b2 := Or.inl hb2
  obtain ⟨g1, _, g3⟩ := w.geo.geom b2 hLb
  have hpos : 0 < 2 ^ (p.mem b2).kval := Nat.two_pow_pos _
  have hkle := w.geo.kval_le b2 hLb
  simp only at hkle
  have hmax := w.kval_m_le
  simp only [MAX_K] at hmax
  obtain ⟨w1, ht1, hk1⟩ := WF_release b2 w hb2
  refine ⟨?_, ?_, ?_⟩
  · intro s x hsx
    obtain ⟨fl2, ws, hts, hms⟩ := coalesce_trace_wf _ _ _ fl b2 w1 ht1 s x hsx
    rw [set_tag_kval_m] at hms
    refine ⟨hts, coalesce_break_false s x, ?_⟩
    intro hc
    obtain ⟨hlt, hcx, hmin, l1, l2, hfl, w2, _, hk2, hm2⟩ := coalesce_step ws hts hc
    have hks : (s.mem x).kval ≤ s.kval_m := by omega
    have hin : ∀ a, InList s (s.mem x).kval a ↔ a ∈ l1 ++ buddy_calc s x :: l2 := by
      intro a
      rw [← hfl]
      exact InList_iff_mem s _ a _ (ws.seg _ hks)
    have hnd := ws.nodup (s.mem x).kval
    rw [hfl] at hnd
    have hc1 : buddy_calc s x ∉ l1 := fun hh =>
      (List.nodup_append.mp hnd).2.2 hh (List.mem_cons_self _ l2)
    have hc2 : buddy_calc s x ∉ l2 :=
      (List.nodup_cons.mp (List.nodup_append.mp hnd).2.1).1
    refine ⟨(hin _).mpr (by simp), hmin, hk2, ?_⟩
    intro j a hj
    have hj2 : j ≤ (coalesce_next s x).1.kval_m := by rw [hm2, hms]; exact hj
    have hj1 : j ≤ s.kval_m := by rw [hms]; exact hj
    rw [InList_iff_mem _ j a _ (w2.seg j hj2)]
    by_cases hjk : j = (s.mem x).kval
    · subst hjk
      rw [Function.update_same, hin a]
      simp only [List.mem_append, List.mem_cons]
      constructor
      · rintro (hh | hh)
        · exact ⟨Or.inl hh, fun e => hc1 (e ▸ hh)⟩
        · exact ⟨Or.inr (Or.inr hh), fun e => hc2 (e ▸ hh)⟩
      · rintro ⟨hh | hh | hh, hne⟩
        · exact Or.inl hh
        · exact absurd hh hne
        · exact Or.inr hh
    · rw [Function.update_noteq hjk, InList_iff_mem s j a _ (ws.seg j hj1)]
      constructor
      · intro hh
        refine ⟨hh, fun e => hjk ?_⟩
        have hcm : buddy_calc s x ∈ fl2 (s.mem x).kval := by rw [hfl]; simp
        exact ws.fl_unique (e ▸ hh) hcm
      · exact fun hh => hh.1
  · obtain ⟨q, b3, fl2, hco, _, _, _⟩ :=
      coalesce_count _ (64 - ((set_tag p (Ptr.addr b2) BLOCK_AVAIL).mem b2).kval) _ fl b2
        w1 ht1 (by rw [hk1]; omega)
    refine ⟨(q, b3), coalesce_last _ _ _ _ hco, coalesce_stops _ _ _ _ hco, ?_⟩
    unfold buddy_free payload
    simp only
    rw [if_neg (by omega)]
    have e : b2 + sizeof_avail - sizeof_avail = b2 := by omega
    rw [e, if_neg (by rw [w.numbytes_eq]; omega), hco]
  · intro hin hfail
    obtain ⟨hlt, hHb, htr, q, hq, wq, hm, _, _, f1, f2, f3, f4⟩ :=
      free_no_merge w b2 hb2 hin.2 hfail
    have hsb : Ptr.sentinel (p.mem b2).kval ≠ Ptr.addr b2 := by simp
    refine ⟨htr, q, hq, ?_, ?_, ?_, ?_, ?_, ?_⟩
    · apply avail_ext
      · rw [f1]; simp
      · rw [f2]; rfl
      · rw [f3, if_neg (fun e => hsb e.symm), if_pos rfl]
      · rw [f4, if_neg (fun e => hHb e.symm), if_pos rfl]
    · have := f3 (Ptr.sentinel (p.mem b2).kval)
      simpa only [load_sentinel, if_true] using this
    · intro a
      rw [InList_iff_mem q _ a _ (wq.seg _ (by rw [hm]; exact hkle)),
        InList_iff_mem p _ a _ (w.seg _ hkle), Function.update_same, List.mem_cons]
    · intro j a hj hjk
      rw [InList_iff_mem q j a _ (wq.seg j (by rw [hm]; exact hj)),
        InList_iff_mem p j a _ (w.seg j hj), Function.update_noteq hjk]
    · intro z hz1 hz2 hz3
      apply avail_ext
      · rw [f1, if_neg hz1]
      · rw [f2]
      · rw [f3, if_neg hz2, if_neg hz1]
      · rw [f4, if_neg hz3, if_neg hz1]
    · intro z hz
      have hzb : z ≠ Ptr.addr b2 := by
        rcases hz with e | e
        · rw [e]; exact hsb
        · rw [e]; exact hHb
      refine ⟨by rw [f1, if_neg hzb], f2 z, ?_, ?_⟩
      · rw [f3]
        simp only [if_neg hzb]
      · rw [f4]
        simp only [if_neg hzb]

set_option maxRecDepth 100000 in
/-- On the pool of `2^21` bytes with both halves handed out, freeing the upper half finds
its buddy reserved and puts the block alone into list 20; freeing the lower half
afterwards merges with it. -/
theorem free_merge_steps_witness :
    Reachable demo_second.pool [payload (4096 + 2 ^ MIN_K), payload 4096] ∧
    buddy_calc demo_second.pool (4096 + 2 ^ MIN_K) = 4096 ∧
    (demo_second.pool.mem 4096).tag = BLOCK_RESERVED ∧
    (∃ q, buddy_free demo_second.pool (payload (4096 + 2 ^ MIN_K)) = Except.ok q ∧
      load q (Ptr.addr (4096 + 2 ^ MIN_K))
        = ⟨BLOCK_AVAIL, MIN_K, Ptr.sentinel MIN_K, Ptr.sentinel MIN_K⟩ ∧
      (q.avail MIN_K).next = Ptr.addr (4096 + 2 ^ MIN_K)) ∧
    Reachable demo_third [payload 4096] ∧
    buddy_calc (set_tag demo_third (Ptr.addr 4096) BLOCK_AVAIL) 4096 = 4096 + 2 ^ MIN_K ∧
    ((set_tag demo_third (Ptr.addr 4096) BLOCK_AVAIL).mem 4096).kval = MIN_K ∧
    InList (set_tag demo_third (Ptr.addr 4096) BLOCK_AVAIL)
      ((set_tag demo_third (Ptr.addr 4096) BLOCK_AVAIL).mem 4096).kval
      (buddy_calc (set_tag demo_third (Ptr.addr 4096) BLOCK_AVAIL) 4096) ∧
    (coalesce_next (set_tag demo_third (Ptr.addr 4096) BLOCK_AVAIL) 4096).2
      = min 4096 (buddy_calc (set_tag demo_third (Ptr.addr 4096) BLOCK_AVAIL) 4096) := by
  obtain ⟨_, q, h1, h2, h3, _⟩ :=
    (free_merge_steps demo_second.pool _ demo_second_reachable (4096 + 2 ^ MIN_K)
      (List.mem_cons_self _ _)).2.2 ⟨by decide, by decide⟩ (Or.inl (by decide))
  have hm := ((free_merge_steps demo_third _ demo_third_reachable 4096
    (List.mem_cons_self _ _)).1 (set_tag demo_third (Ptr.addr 4096) BLOCK_AVAIL) 4096
    (List.mem_cons_self _ _)).2.2 rfl
  exact ⟨demo_second_reachable, rfl, rfl, ⟨q, h1, h2, h3⟩, demo_third_reachable, rfl, rfl,
    hm.1, hm.2.1⟩

set_option maxRecDepth 100000 in
/-- C21 as stated fails: after `buddy_init(2^21)` on a region mapped at 4096 and four
1-byte allocations, free the first block, then the third.  The third block has its buddy
reserved, so no merge takes place, and list 20 already holds the first block: inserting
the third block writes the `prev` link in the header of the first block. -/
theorem free_writes_neighbour :
    ((buddy_init (2 ^ 21) (some 4096)).bind fun p =>
      (malloc_all p [1, 1, 1, 1]).map fun x => x.1)
      = Except.ok [payload 4096, payload (4096 + 2 ^ 20), payload (4096 + 2 * 2 ^ 20),
          payload (4096 + 3 * 2 ^ 20)] ∧
    ((round_trip (2 ^ 21) 4096 [1, 1, 1, 1] [0]).map fun s =>
      ((s.mem (4096 + 2 * 2 ^ 20)).tag, (s.mem (4096 + 2 * 2 ^ 20)).kval,
        buddy_calc s (4096 + 2 * 2 ^ 20), (s.mem (4096 + 3 * 2 ^ 20)).tag,
        (s.avail 20).next, (s.mem 4096).prev))
      = Except.ok (BLOCK_RESERVED, 20, 4096 + 3 * 2 ^ 20, BLOCK_RESERVED, Ptr.addr 4096,
          Ptr.sentinel 20) ∧
    ((round_trip (2 ^ 21) 4096 [1, 1, 1, 1] [0, 2]).map fun s =>
      ((s.avail 20).next, (s.mem (4096 + 2 * 2 ^ 20)).next, (s.mem 4096).prev))
      = Except.ok (Ptr.addr (4096 + 2 * 2 ^ 20), Ptr.addr 4096,
          Ptr.addr (4096 + 2 * 2 ^ 20)) ∧
    Ptr.addr (4096 + 2 * 2 ^ 20) ≠ Ptr.sentinel 20 :=
  ⟨rfl, rfl, rfl, by decide⟩

/-- C22: on a reachable pool, `buddy_free` of an outstanding block of class `k` returns
after at most `kval_m - k` merging passes, and `buddy_malloc` for target class `k`
returns after testing at most `kval_m - k + 1` lists and splitting at most `kval_m - k`
times. -/
theorem free_malloc_bounded (p : BuddyPool) (out : List Ptr) (h : Reachable p out) :
    (∀ b, payload b ∈ out →
      (∃ q, buddy_free p (payload b) = Except.ok q) ∧ (p.mem b).kval ≤ p.kval_m ∧
        free_merges p b ≤ p.kval_m - (p.mem b).kval) ∧
    (∀ size k, size ≠ 0 → malloc_kval size = some k →
      (∃ r, buddy_malloc p size = Except.ok r) ∧
        malloc_scans p size ≤ p.kval_m - k + 1 ∧ malloc_splits p size ≤ p.kval_m - k) := by
  have hinv := reachable_inv p out h
  constructor
  · intro b hb
    refine ⟨free_returns_of_inv p out hinv _ hb, ?_⟩
    rcases hinv with ⟨fl, outH, ho, w⟩ | ⟨_, ho⟩
    · rw [ho, List.mem_map] at hb
      obtain ⟨b2, hb2, e⟩ := hb
      have e2 := payload_injective e
      subst e2
      have hkle := w.geo.kval_le b2 (Or.inl hb2)
      simp only at hkle
      have hmax := w.kval_m_le
      simp only [MAX_K] at hmax
      obtain ⟨w1, ht1, hk1⟩ := WF_release b2 w hb2
      obtain ⟨q, b3, fl2, _, w3, hk3, hm3⟩ :=
        coalesce_count _ (64 - ((set_tag p (Ptr.addr b2) BLOCK_AVAIL).mem b2).kval) _ fl b2
          w1 ht1 (by rw [hk1]; omega)
      have hle3 := w3.geo.kval_le b3 (Or.inr (Or.inl (List.mem_singleton_self b3)))
      simp only at hle3
      rw [set_tag_kval_m] at hm3
      refine ⟨hkle, ?_⟩
      simp only [free_merges]
      rw [hk1] at hk3 ⊢
      omega
    · rw [ho] at hb
      simp at hb
  · intro size k h0 hk
    refine ⟨?_, ?_, ?_⟩
    · rcases hinv with ⟨fl, outH, _, w⟩ | ⟨d, _⟩
      · rcases malloc_wf w size k h0 hk with ⟨_, e⟩ | ⟨_, _, _, _, _, _, _, _, e, _⟩
        · exact ⟨_, e⟩
        · exact ⟨_, e⟩
      · exact ⟨_, malloc_dead d size k h0 hk⟩
    · simp only [malloc_scans, hk]
      have := scan_count_le p (p.kval_m + 1 - k) k
      omega
    · simp only [malloc_splits, hk]
      rcases scan_spec p (p.kval_m + 1 - k) k with ⟨e, _⟩ | ⟨j, e, h1, h2, _⟩
      · rw [e]
        simp
      · rw [e]
        simp only
        omega

/-- On the pool of `2^21` bytes with both halves handed out, freeing the upper half
takes no merge; on the fresh pool a 1-byte request tests two lists and splits once. -/
theorem free_malloc_bounded_witness :
    Reachable demo_second.pool [payload (4096 + 2 ^ MIN_K), payload 4096] ∧
    ((∃ q, buddy_free demo_second.pool (payload (4096 + 2 ^ MIN_K)) = Except.ok q) ∧
      (demo_second.pool.mem (4096 + 2 ^ MIN_K)).kval ≤ demo_second.pool.kval_m ∧
      free_merges demo_second.pool (4096 + 2 ^ MIN_K)
        ≤ demo_second.pool.kval_m - (demo_second.pool.mem (4096 + 2 ^ MIN_K)).kval) ∧
    malloc_scans demo_init 1 = 2 ∧ malloc_splits demo_init 1 = 1 ∧
    free_merges demo_second.pool (4096 + 2 ^ MIN_K) = 0 :=
  ⟨demo_second_reachable,
    (free_malloc_bounded _ _ demo_second_reachable).1 (4096 + 2 ^ MIN_K) (by simp),
    by decide, by decide, by decide⟩

/-- C23: in every reachable pool, for every `i <= kval_m`, the head `avail[i]` has tag
`BLOCK_UNUSED` and `kval = i`; the head and every member `x` of list `i` satisfy
`x.next.prev = x` and `x.prev.next = x`; every member lies inside the arena at an
offset that is a multiple of `2^i`, has tag `BLOCK_AVAIL` and `kval = i`, and is a
member of no other list; and the members form a list without repetition that `next`
runs through from the head back to the head. -/
theorem free_lists_well_formed (p : BuddyPool) (out : List Ptr) (h : Reachable p out)
    (i : Nat) (hi : i ≤ p.kval_m) :
    ((p.avail i).tag = BLOCK_UNUSED ∧ (p.avail i).kval = i) ∧
    ((load p (p.avail i).next).prev = Ptr.sentinel i ∧
      (load p (p.avail i).prev).next = Ptr.sentinel i) ∧
    (∀ a, InList p i a →
      ((load p (p.mem a).next).prev = Ptr.addr a ∧
        (load p (p.mem a).prev).next = Ptr.addr a) ∧
      (p.base ≤ a ∧ a < p.base + p.numbytes ∧ 2 ^ i ∣ a - p.base) ∧
      ((p.mem a).tag = BLOCK_AVAIL ∧ (p.mem a).kval = i) ∧
      ∀ j, j ≤ p.kval_m → InList p j a → j = i) ∧
    ∃ l : List Nat, l.Nodup ∧ Seg p (Ptr.sentinel i) l (Ptr.sentinel i) ∧
      ∀ a, InList p i a ↔ a ∈ l := by
  rcases reachable_inv p out h with ⟨fl, outH, _, w⟩ | ⟨d, _⟩
  · have hseg := w.seg i hi
    obtain ⟨s1, s2, s3⟩ := Seg_links p (fl i) _ _ hseg
    rw [load_sentinel] at s1 s2
    refine ⟨w.heads i hi, ⟨s1, s2⟩, ?_, fl i, w.nodup i, hseg,
      fun a => InList_iff_mem p i a (fl i) hseg⟩
    intro a ha
    have hm : a ∈ fl i := (InList_iff_mem p i a (fl i) hseg).mp ha
    have hh := w.free_hdr i a hm
    obtain ⟨g1, g2, g3⟩ := w.geo.geom a (w.live_fl hm)
    rw [hh.2] at g2 g3
    have hpos : 0 < 2 ^ i := Nat.two_pow_pos _
    refine ⟨s3 a hm, ⟨g1, ?_, g2⟩, hh, ?_⟩
    · rw [w.numbytes_eq]
      omega
    · intro j hj hjm
      have hm2 : a ∈ fl j := (InList_iff_mem p j a (fl j) (w.seg j hj)).mp hjm
      exact w.fl_unique hm2 hm
  · have hid := d.idle i hi
    have hseg : Seg p (Ptr.sentinel i) [] (Ptr.sentinel i) := by
      simp only [Seg, load_sentinel]
      exact hid
    refine ⟨d.heads i hi, ?_, ?_, [], List.nodup_nil, hseg,
      fun a => InList_iff_mem p i a [] hseg⟩
    · rw [hid.1, hid.2, load_sentinel, hid.1, hid.2]
      exact ⟨rfl, rfl⟩
    · intro a ha
      have := (InList_iff_mem p i a [] hseg).mp ha
      simp at this

/-- After the first 1-byte allocation on the pool of `2^21` bytes list 20 holds the
upper half of the arena. -/
theorem free_lists_well_formed_witness :
    Reachable demo_first.pool [payload 4096] ∧ MIN_K ≤ demo_first.pool.kval_m ∧
    InList demo_first.pool MIN_K (4096 + 2 ^ MIN_K) ∧
    (demo_first.pool.base ≤ 4096 + 2 ^ MIN_K ∧
      4096 + 2 ^ MIN_K < demo_first.pool.base + demo_first.pool.numbytes ∧
      2 ^ MIN_K ∣ 4096 + 2 ^ MIN_K - demo_first.pool.base) ∧
    ((demo_first.pool.mem (4096 + 2 ^ MIN_K)).tag = BLOCK_AVAIL ∧
      (demo_first.pool.mem (4096 + 2 ^ MIN_K)).kval = MIN_K) :=
  have hin : InList demo_first.pool MIN_K (4096 + 2 ^ MIN_K) := ⟨1, rfl⟩
  have hw := (free_lists_well_formed demo_first.pool [payload 4096] demo_first_reachable
    MIN_K (by decide)).2.2.1 (4096 + 2 ^ MIN_K) hin
  ⟨demo_first_reachable, by decide, hin, hw.2.1, hw.2.2.1⟩

set_option maxRecDepth 100000 in
/-- C24: `size + sizeof(struct avail)` wraps modulo `2^64`: for `size = 2^64 - 1` the sum
is 23 and the class is `MIN_K`, so on a fresh pool of `2^21` bytes `buddy_malloc`
returns the payload of a reserved block of `2^20` bytes, whose usable capacity
`2^20 - 24` is smaller than the request; the same happens for `size = 2^64 - 24`, where
the sum is 0. -/
theorem huge_request_served :
    (2 ^ 64 - 1 + sizeof_avail) % 2 ^ 64 = 23 ∧ malloc_kval (2 ^ 64 - 1) = some MIN_K ∧
    ((buddy_init (2 ^ MIN_K) (some 4096)).bind fun p =>
      (buddy_malloc p (2 ^ 64 - 1)).map fun r =>
        (r.ptr, r.errno, (r.pool.mem 4096).tag, (r.pool.mem 4096).kval))
      = Except.ok (Ptr.addr (4096 + sizeof_avail), none, BLOCK_RESERVED, MIN_K) ∧
    2 ^ MIN_K - sizeof_avail < 2 ^ 64 - 1 ∧
    ((buddy_init (2 ^ MIN_K) (some 4096)).bind fun p =>
      (buddy_malloc p (2 ^ 64 - sizeof_avail)).map fun r =>
        (r.ptr, r.errno, (r.pool.mem 4096).tag, (r.pool.mem 4096).kval))
      = Except.ok (Ptr.addr (4096 + sizeof_avail), none, BLOCK_RESERVED, MIN_K) :=
  ⟨by decide, rfl, rfl, by decide, rfl⟩

end Buddy
